import Mathlib

/-!
Token bucket rate limiter: the in-process bucket and the registry of `tkbucket/memory.go`,
the client side of the distributed bucket of `tkbucket/redis.go`, and the scripts of
`token_bucket/lua.go` that the distributed bucket sends to the store.

Shallow embedding of `memoryBucket`, `MemoryStorage`, `redisBucket` and the scripts, and of
their operations.

Modelling conventions.
* `int64`, `time.Duration` (nanoseconds) and `time.Time` (nanoseconds on one clock) are
  modelled as `Int`. The functions of the namespace `memoryBucket` have exact arithmetic, so
  the statements about them describe the executions in which no 64-bit operation overflows.
  The namespace `Bits64` holds the same source functions with wrap-around (`wrap64`) and
  the saturation of `Time.Sub` (`satDuration`); the statements that depend on the width of
  the integers are about these, with a hypothesis `InInt64 x` for each operation that must
  not overflow, and `Bits64.currentTick_eq`, `Bits64.adjustAvail_eq`, `Bits64.acquire_eq`,
  `Bits64.available_eq` and `Bits64.tryAcquire_eq` relate the two.
* Go's integer division truncates toward zero and panics on a zero divisor: `goDiv`.
  A panic is the `none` result of an operation.
* The mutex only serialises the calls; every operation is a function from the state before
  the call to the returned value and the state after it.
* `time.Now()` is an explicit argument.
* A script is a function from the stored hash to the value it returns and the hash it
  leaves. In the namespace `lua` Lua numbers are rationals with exact arithmetic; in the
  namespace `luaD` they are doubles, every operation rounded by `fl64`. The two agree on
  integers of magnitude below `2 ^ 53` (`luaD_currentTick_eq`, `luaD_adjustAvail_eq`).
* A store with no hash under the key answers a script with an error (`storeClient`).
-/

namespace tkbucket

/-- Go's `/` on signed integers: truncated quotient, run-time panic on a zero divisor. -/
def goDiv (a b : Int) : Option Int :=
  if b = 0 then none else some (Int.tdiv a b)

/-- The constant `infinityDuration` (memory.go, line 8). -/
def infinityDuration : Int := 0x7fffffffffffffff

/-- The fields of `memoryBucket` (memory.go, lines 10-28), the mutex left out. -/
structure memoryBucket where
  startTime : Int
  capacity : Int
  quantum : Int
  fillInterval : Int
  avail : Int
  latestTick : Int
deriving DecidableEq, Repr

namespace memoryBucket

/-- Source: `currentTick` (memory.go, lines 125-127). -/
def currentTick (b : memoryBucket) (now : Int) : Option Int :=
  goDiv (now - b.startTime) b.fillInterval

/-- Source: `adjustAvail` (memory.go, lines 132-141). The early return leaves
`latestTick` as it was. -/
def adjustAvail (b : memoryBucket) (tick : Int) : memoryBucket :=
  if b.avail ≥ b.capacity then b
  else
    let avail := b.avail + (tick - b.latestTick) * b.quantum
    let avail := if avail > b.capacity then b.capacity else avail
    { b with avail := avail, latestTick := tick }

/-- Source: `acquire` (memory.go, lines 70-83): the granted count and the state after. -/
def acquire (b : memoryBucket) (now count : Int) : Option (Int × memoryBucket) :=
  if count ≤ 0 then some (0, b)
  else do
    let tick ← b.currentTick now
    let b := b.adjustAvail tick
    if b.avail ≤ 0 then some (0, b)
    else
      let count := if count > b.avail then b.avail else count
      some (count, { b with avail := b.avail - count })

/-- Source: `tryAcquire` (memory.go, lines 87-111): the pair `(wait, ok)` and the state
after. -/
def tryAcquire (b : memoryBucket) (now count maxWait : Int) :
    Option ((Int × Bool) × memoryBucket) :=
  if count ≤ 0 then some ((0, true), b)
  else do
    let tick ← b.currentTick now
    let b := b.adjustAvail tick
    let avail := b.avail - count
    if avail ≥ 0 then some ((0, true), { b with avail := avail })
    else do
      let q ← goDiv (-avail + b.quantum - 1) b.quantum
      let endTick := tick + q
      let endTime := b.startTime + endTick * b.fillInterval
      let waitTime := endTime - now
      if waitTime > maxWait then some ((0, false), b)
      else some ((waitTime, true), { b with avail := avail })

/-- Source: `available` (memory.go, lines 115-121): the returned count and the state
after (the refill is stored). -/
def available (b : memoryBucket) (now : Int) : Option (Int × memoryBucket) := do
  let tick ← b.currentTick now
  let b := b.adjustAvail tick
  some (b.avail, b)

end memoryBucket

/-- Source: `create` (memory.go, lines 179-197). `now` is the reading of `time.Now()`;
a panic is the error carrying its message. -/
def create (now : Int) (_name : String) (fillInterval capacity quantum : Int) :
    Except String memoryBucket :=
  if fillInterval ≤ 0 then .error "token bucket fill interval is not > 0"
  else if capacity ≤ 0 then .error "token bucket capacity is not > 0"
  else if quantum ≤ 0 then .error "token bucket quantum is not > 0"
  else .ok
    { startTime := now, latestTick := 0, fillInterval := fillInterval,
      capacity := capacity, quantum := quantum, avail := capacity }


/-- The configuration is valid (what `create` checks) and the avail is at most the
capacity. -/
def memoryBucket.Valid (b : memoryBucket) : Prop :=
  0 < b.fillInterval ∧ 0 < b.capacity ∧ 0 < b.quantum ∧ b.avail ≤ b.capacity

instance (b : memoryBucket) : Decidable b.Valid := by
  unfold memoryBucket.Valid; infer_instance

/-- A run of `acquire` calls made one after the other at the same instant `now` with the
counts of the list: the sum of the grants and the state after the last call. -/
def acquireAll (b : memoryBucket) (now : Int) : List Int → Option (Int × memoryBucket)
  | [] => some (0, b)
  | c :: cs => do
    let (g, b1) ← b.acquire now c
    let (total, b2) ← acquireAll b1 now cs
    some (g + total, b2)

/-- Bucket states that calls can produce: the result of a successful `create`, closed under
every returning call of `acquire`, `tryAcquire` and `available`, with any arguments. -/
inductive Reachable : memoryBucket → Prop
  | create {now : Int} {name : String} {fillInterval capacity quantum : Int}
      {b : memoryBucket} :
      create now name fillInterval capacity quantum = .ok b → Reachable b
  | acquire {b b' : memoryBucket} {now count g : Int} :
      Reachable b → b.acquire now count = some (g, b') → Reachable b'
  | tryAcquire {b b' : memoryBucket} {now count maxWait : Int} {r : Int × Bool} :
      Reachable b → b.tryAcquire now count maxWait = some (r, b') → Reachable b'
  | available {b b' : memoryBucket} {now a : Int} :
      Reachable b → b.available now = some (a, b') → Reachable b'

/-! ### The registry `MemoryStorage` -/

/-- The type `MemoryStorage` (memory.go, lines 144-146). The Go map from names to buckets is
an association list; a binding is only ever added for a name that is absent, so a name is
bound at most once. The buckets are kept by value: the handle a call returns is the state
bound to the name. -/
structure MemoryStorage where
  buckets : List (String × memoryBucket)
deriving DecidableEq, Repr

/-- Source: `NewMemoryStorage` (memory.go, lines 149-153). -/
def NewMemoryStorage : MemoryStorage := { buckets := [] }

namespace MemoryStorage

/-- Source: `MemoryStorage.Create` (memory.go, lines 158-166): the bucket handed back, or the
message of the panic raised by `create`, and the registry after the call. The Go `error`
result is always `nil` and is left out. -/
def Create (s : MemoryStorage) (now : Int) (name : String) (fillInterval capacity : Int) :
    Except String memoryBucket × MemoryStorage :=
  match s.buckets.lookup name with
  | some b => (.ok b, s)
  | none =>
    match create now name fillInterval capacity 1 with
    | .error e => (.error e, s)
    | .ok b => (.ok b, { buckets := (name, b) :: s.buckets })

/-- Source: `MemoryStorage.CreateWithQuantum` (memory.go, lines 169-177), as `Create`. -/
def CreateWithQuantum (s : MemoryStorage) (now : Int) (name : String)
    (fillInterval capacity quantum : Int) : Except String memoryBucket × MemoryStorage :=
  match s.buckets.lookup name with
  | some b => (.ok b, s)
  | none =>
    match create now name fillInterval capacity quantum with
    | .error e => (.error e, s)
    | .ok b => (.ok b, { buckets := (name, b) :: s.buckets })

end MemoryStorage

/-! ### The distributed bucket `redisBucket`: the client side -/

/-- The scripts a `redisBucket` sends to the store. -/
inductive Script
  | luaAcquire
  | luaTryAcquire
  | luaAvailable
deriving DecidableEq, Repr

/-- What `Client.Eval(...).Result()` hands back (redis.go, lines 67-72): an integer reply
with a `nil` error, the error `redis.Nil`, or any other error. -/
inductive EvalResult
  | reply (res : Int)
  | redisNil
  | fault (err : String)
deriving DecidableEq, Repr

/-- The type `redisBucket` (redis.go, lines 21-24). The client is the round trip
`Client.Eval(script, [Key], args...).Result()`, the state of the store at the time of the
call folded in. -/
structure redisBucket where
  Key : String
  Client : Script → String → List Int → EvalResult

namespace redisBucket

/-- Source: `redisBucket.acquire` (redis.go, lines 61-81). `now` is `now.UnixNano()`; the
log line is left out. -/
def acquire (r : redisBucket) (now count : Int) : Int :=
  if count ≤ 0 then 0
  else
    match r.Client .luaAcquire r.Key [now, count] with
    | .fault _ => 0
    | .redisNil => 0
    | .reply res => res

/-- Source: `redisBucket.tryAcquire` (redis.go, lines 83-114). -/
def tryAcquire (r : redisBucket) (now count maxWait : Int) : Int × Bool :=
  if count ≤ 0 then (0, true)
  else
    match r.Client .luaTryAcquire r.Key [now, count] with
    | .fault _ => (0, false)
    | .redisNil => (0, true)
    | .reply res =>
      if res = 0 then (0, true)
      else
        let waitTime := res - now
        if waitTime > maxWait then (0, false) else (waitTime, true)

/-- Source: `redisBucket.available` (redis.go, lines 118-133). -/
def available (r : redisBucket) (now : Int) : Int :=
  match r.Client .luaAvailable r.Key [now] with
  | .fault _ => 0
  | .redisNil => 0
  | .reply res => res

end redisBucket

/-! ### `tryAcquire` with 64-bit arithmetic

The boundary value `infinityDuration` is the largest `time.Duration`, so what
`tryAcquire(now, count, infinityDuration)` answers depends on the width of the integers.
Here every `int64` operation wraps around and `Time.Sub` saturates, as documented for Go. -/

/-- The value an `int64` holds after an operation whose exact result is `x`
(two's complement wrap-around). -/
def wrap64 (x : Int) : Int := (x + 2 ^ 63) % 2 ^ 64 - 2 ^ 63

/-- The result of `Time.Sub` for the exact difference `x`: "if the result exceeds the
maximum (or minimum) value that can be stored in a Duration, the maximum (or minimum)
duration will be returned". -/
def satDuration (x : Int) : Int :=
  if x > 2 ^ 63 - 1 then 2 ^ 63 - 1 else if x < -(2 ^ 63) then -(2 ^ 63) else x

/-- The exact value `x` is one an `int64` can hold. -/
def InInt64 (x : Int) : Prop := -(2 ^ 63) ≤ x ∧ x ≤ 2 ^ 63 - 1

instance (x : Int) : Decidable (InInt64 x) := by
  unfold InInt64; infer_instance

/-- Go's `/` on `int64`: panic on a zero divisor, truncated quotient, wrap-around for
`MinInt64 / -1`. -/
def goDiv64 (a b : Int) : Option Int :=
  if b = 0 then none else some (wrap64 (Int.tdiv a b))

namespace Bits64

/-- Source: `currentTick` (memory.go, lines 125-127), 64-bit arithmetic. -/
def currentTick (b : memoryBucket) (now : Int) : Option Int :=
  goDiv64 (satDuration (now - b.startTime)) b.fillInterval

/-- Source: `adjustAvail` (memory.go, lines 132-141), 64-bit arithmetic. -/
def adjustAvail (b : memoryBucket) (tick : Int) : memoryBucket :=
  if b.avail ≥ b.capacity then b
  else
    let avail := wrap64 (b.avail + wrap64 (wrap64 (tick - b.latestTick) * b.quantum))
    let avail := if avail > b.capacity then b.capacity else avail
    { b with avail := avail, latestTick := tick }

/-- Source: `tryAcquire` (memory.go, lines 87-111), 64-bit arithmetic; `Time.Add` is exact. -/
def tryAcquire (b : memoryBucket) (now count maxWait : Int) :
    Option ((Int × Bool) × memoryBucket) :=
  if count ≤ 0 then some ((0, true), b)
  else do
    let tick ← currentTick b now
    let b := adjustAvail b tick
    let avail := wrap64 (b.avail - count)
    if avail ≥ 0 then some ((0, true), { b with avail := avail })
    else do
      let q ← goDiv64 (wrap64 (wrap64 (wrap64 (-avail) + b.quantum) - 1)) b.quantum
      let endTick := wrap64 (tick + q)
      let endTime := b.startTime + wrap64 (endTick * b.fillInterval)
      let waitTime := satDuration (endTime - now)
      if waitTime > maxWait then some ((0, false), b)
      else some ((waitTime, true), { b with avail := avail })

end Bits64

/-! ### Runs of `acquire` calls at times of their own -/

/-- A run of `acquire` calls made one after the other, each with its own time and count
(the pairs `(now, count)` of the list): the sum of the grants and the state after the last
call. -/
def acquireSeq (b : memoryBucket) : List (Int × Int) → Option (Int × memoryBucket)
  | [] => some (0, b)
  | (now, count) :: rest => do
    let (g, b1) ← b.acquire now count
    let (total, b2) ← acquireSeq b1 rest
    some (g + total, b2)

/-! ### The scripts of `lua.go`

Lua numbers are modelled as rationals with exact arithmetic, that is doubles without
rounding. A script runs on the hash stored under the key with its six fields present, and
yields the Lua value it returns together with the hash after its `hmset`. A zero fill
interval or quantum, which `create` excludes, is outside the model (Lua divides by zero
without an error). -/

/-- The hash stored under a bucket key (field names of redis.go, lines 13-18), as the
numbers the scripts read with `tonumber`. -/
structure StoredBucket where
  startTime : ℚ
  fillInterval : ℚ
  capacity : ℚ
  quantum : ℚ
  avail : ℚ
  latestTick : ℚ
deriving DecidableEq

namespace lua

/-- Source: `currentTick` of `luaCommonFuc` (lua.go, lines 5-9). -/
def currentTick (nowTime startTime fillInterval : ℚ) : ℚ :=
  ((⌊(nowTime - startTime + 500) / fillInterval⌋ : Int) : ℚ)

/-- Source: `adjustAvail` of `luaCommonFuc` (lua.go, lines 11-24): the pair
`(avail, latestTick)` it returns. -/
def adjustAvail (tick avail capacity latestTick quantum : ℚ) : ℚ × ℚ :=
  if avail > capacity then (avail, tick)
  else
    let avail := avail + (tick - latestTick) * quantum
    let avail := if avail > capacity then capacity else avail
    (avail, tick)

end lua

/-- Source: the script `luaAcquire` (lua.go, lines 27-60). -/
def luaAcquire (s : StoredBucket) (nowTime count : ℚ) : ℚ × StoredBucket :=
  let tick := lua.currentTick nowTime s.startTime s.fillInterval
  let (avail, latestTick) := lua.adjustAvail tick s.avail s.capacity s.latestTick s.quantum
  if avail ≤ 0 then (0, s)
  else
    let count := if count > avail then avail else count
    let avail := avail - count
    (count, { s with avail := avail, latestTick := latestTick })

/-- Source: the script `luaAvailable` (lua.go, lines 62-83). -/
def luaAvailable (s : StoredBucket) (nowTime : ℚ) : ℚ × StoredBucket :=
  let tick := lua.currentTick nowTime s.startTime s.fillInterval
  let (avail, latestTick) := lua.adjustAvail tick s.avail s.capacity s.latestTick s.quantum
  (avail, { s with avail := avail, latestTick := latestTick })

/-- Source: the script `luaTryAcquire` (lua.go, lines 85-115): the hash is written with the
count taken off before the script looks at the sign of the new avail. -/
def luaTryAcquire (s : StoredBucket) (nowTime count : ℚ) : ℚ × StoredBucket :=
  let tick := lua.currentTick nowTime s.startTime s.fillInterval
  let (avail, latestTick) := lua.adjustAvail tick s.avail s.capacity s.latestTick s.quantum
  let avail := avail - count
  let s' : StoredBucket := { s with avail := avail, latestTick := latestTick }
  if avail ≥ 0 then (0, s')
  else
    let endTick := tick + (-avail + s.quantum - 1) / s.quantum
    let endTime := s.startTime + endTick * s.fillInterval
    (endTime, s')

/-- The integer reply the store makes of the number a script returns: the number is
converted to an integer, the fraction dropped. -/
def luaReply (x : ℚ) : EvalResult :=
  .reply (if 0 ≤ x then ⌊x⌋ else ⌈x⌉)

/-- The round trip of a client whose store holds the hash `s` under the key: the script is
run on `s` with the arguments sent and its value comes back as an integer reply. -/
def scriptClient (s : StoredBucket) : Script → String → List Int → EvalResult
  | .luaAcquire, _, [nowTime, count] => luaReply (luaAcquire s nowTime count).1
  | .luaTryAcquire, _, [nowTime, count] => luaReply (luaTryAcquire s nowTime count).1
  | .luaAvailable, _, [nowTime] => luaReply (luaAvailable s nowTime).1
  | _, _, _ => .fault "wrong number of arguments"

/-! ### `acquire` and `available` with 64-bit arithmetic -/

namespace Bits64

/-- Source: `acquire` (memory.go, lines 70-83), 64-bit arithmetic. -/
def acquire (b : memoryBucket) (now count : Int) : Option (Int × memoryBucket) :=
  if count ≤ 0 then some (0, b)
  else do
    let tick ← currentTick b now
    let b := adjustAvail b tick
    if b.avail ≤ 0 then some (0, b)
    else
      let count := if count > b.avail then b.avail else count
      some (count, { b with avail := wrap64 (b.avail - count) })

/-- Source: `available` (memory.go, lines 115-121), 64-bit arithmetic. -/
def available (b : memoryBucket) (now : Int) : Option (Int × memoryBucket) := do
  let tick ← currentTick b now
  let b := adjustAvail b tick
  some (b.avail, b)

/-- The exact results of the `int64` operations of one `tryAcquire(now, count, _)` on the
deficit branch, in the order the code computes them: the elapsed time, the tick, the three
steps of the refill, the new avail, the four steps of the quotient, the end tick, its
product with the fill interval and the wait. -/
def tryAcquireValues (b : memoryBucket) (now count : Int) : List Int :=
  let tick := Int.tdiv (now - b.startTime) b.fillInterval
  let avail := (b.adjustAvail tick).avail - count
  let q := Int.tdiv (-avail + b.quantum - 1) b.quantum
  [now - b.startTime, tick, tick - b.latestTick, (tick - b.latestTick) * b.quantum,
    b.avail + (tick - b.latestTick) * b.quantum, avail, -avail, -avail + b.quantum,
    -avail + b.quantum - 1, q, tick + q, (tick + q) * b.fillInterval,
    b.startTime + (tick + q) * b.fillInterval - now]

/-- No `int64` operation of `tryAcquire(now, count, _)` overflows: each exact result is a
value an `int64` holds. -/
def NoOverflow (b : memoryBucket) (now count : Int) : Prop :=
  ∀ x ∈ tryAcquireValues b now count, InInt64 x

instance (b : memoryBucket) (now count : Int) : Decidable (NoOverflow b now count) := by
  unfold NoOverflow; infer_instance

end Bits64

/-! ### The store under a key that may be missing -/

/-- The round trip of a client whose store holds `store` under the key: with a hash the
script runs on it (`scriptClient`); without one `hmget` still answers a table, of `false`
entries, so the test `bulk ~= nil` of the scripts passes, `tonumber` gives `nil` and the
first subtraction raises a Lua error, which comes back as an error that is not
`redis.Nil`. -/
def storeClient (store : Option StoredBucket) : Script → String → List Int → EvalResult :=
  match store with
  | some s => scriptClient s
  | none => fun _ _ _ => .fault "attempt to perform arithmetic on a nil value"

/-! ### Lua numbers as doubles

A Lua number is a binary64 floating-point value: `tonumber` and every arithmetic operation
give the exact result rounded to the nearest value with a 53-bit significand, ties to the
even significand. The finite doubles are rationals. The exponent range is left out (no
infinity, no subnormal numbers): the numbers of the scripts come from `int64` values by a
few operations with a fill interval that is not zero, and lie far inside it. -/

/-- The integer nearest to `y`, the even one of the two when `y` is half way. -/
def roundEven (y : ℚ) : Int :=
  if y - ⌊y⌋ < 1 / 2 then ⌊y⌋
  else if 1 / 2 < y - ⌊y⌋ then ⌊y⌋ + 1
  else if ⌊y⌋ % 2 = 0 then ⌊y⌋ else ⌊y⌋ + 1

/-- The double nearest to `x`: with `2 ^ e ≤ |x| < 2 ^ (e + 1)`, the significand
`x / 2 ^ (e - 52)` is rounded to an integer. -/
def fl64 (x : ℚ) : ℚ :=
  if x = 0 then 0
  else (roundEven (x * 2 ^ (52 - Int.log 2 |x|)) : ℚ) / 2 ^ (52 - Int.log 2 |x|)

/-- The integer `n` has a magnitude below `2 ^ 53`: a double holds it exactly. -/
def InDouble (n : Int) : Prop := -(2 ^ 53) < n ∧ n < 2 ^ 53

instance (n : Int) : Decidable (InDouble n) := by
  unfold InDouble; infer_instance

namespace luaD

/-- Lua's `tonumber` on the decimal string of an integer (an argument of the script or a
field of the stored hash). -/
def tonumber (n : Int) : ℚ := fl64 (n : ℚ)

/-- Source: `currentTick` of `luaCommonFuc` (lua.go, lines 5-9), every operation rounded. -/
def currentTick (nowTime startTime fillInterval : ℚ) : ℚ :=
  ((⌊fl64 (fl64 (fl64 (nowTime - startTime) + 500) / fillInterval)⌋ : Int) : ℚ)

/-- Source: `adjustAvail` of `luaCommonFuc` (lua.go, lines 11-24), every operation rounded:
the pair `(avail, latestTick)` it returns. -/
def adjustAvail (tick avail capacity latestTick quantum : ℚ) : ℚ × ℚ :=
  if avail > capacity then (avail, tick)
  else
    let avail := fl64 (avail + fl64 (fl64 (tick - latestTick) * quantum))
    let avail := if avail > capacity then capacity else avail
    (avail, tick)

end luaD

/-! ## Basic facts about the refill adjustment -/

theorem goDiv_of_ne_zero (a b : Int) (h : b ≠ 0) : goDiv a b = some (Int.tdiv a b) := by
  simp [goDiv, h]

theorem goDiv_eq_some_iff {a b q : Int} : goDiv a b = some q ↔ b ≠ 0 ∧ q = Int.tdiv a b := by
  unfold goDiv
  by_cases h : b = 0
  · simp [h]
  · simp [h, eq_comm]

/-- For a positive divisor and a positive dividend the quotient `(d + q - 1) / q` of the code
is the ceiling of `d / q`. -/
theorem tdiv_round_up_eq_ceil (d q : Int) (hd : 0 < d) (hq : 0 < q) :
    Int.tdiv (d + q - 1) q = ⌈(d : ℚ) / (q : ℚ)⌉ := by
  rw [Int.tdiv_eq_ediv (by omega) (by omega)]
  symm
  rw [Int.ceil_eq_iff]
  have hq' : (0 : ℚ) < (q : ℚ) := by exact_mod_cast hq
  have h1 : (d + q - 1) / q * q ≤ d + q - 1 := Int.ediv_mul_le _ (by omega)
  have h2 : d + q - 1 < ((d + q - 1) / q + 1) * q := Int.lt_ediv_add_one_mul_self _ hq
  constructor
  · rw [lt_div_iff₀ hq']
    have : ((d + q - 1) / q - 1) * q < d := by nlinarith
    exact_mod_cast this
  · rw [div_le_iff₀ hq']
    have : d ≤ (d + q - 1) / q * q := by nlinarith
    exact_mod_cast this

theorem tdiv_add_self (x f : Int) (hx : 0 ≤ x) (hf : 0 < f) :
    Int.tdiv (x + f) f = Int.tdiv x f + 1 := by
  rw [Int.tdiv_eq_ediv (by omega) (by omega), Int.tdiv_eq_ediv hx (by omega)]
  have := Int.add_mul_ediv_right x 1 (show f ≠ 0 by omega)
  simpa using this

theorem tdiv_mul_eq_sub_emod (x f : Int) (hx : 0 ≤ x) (hf : 0 < f) :
    Int.tdiv x f * f = x - x % f := by
  rw [Int.tdiv_eq_ediv hx (by omega)]
  have := Int.ediv_add_emod' x f
  omega

theorem tdiv_le_tdiv_of_le (a b q : Int) (ha : 0 ≤ a) (hab : a ≤ b) (hq : 0 < q) :
    Int.tdiv a q ≤ Int.tdiv b q := by
  rw [Int.tdiv_eq_ediv ha (by omega), Int.tdiv_eq_ediv (by omega) (by omega)]
  exact Int.ediv_le_ediv hq hab

namespace memoryBucket

@[simp] theorem adjustAvail_startTime (b : memoryBucket) (t : Int) :
    (b.adjustAvail t).startTime = b.startTime := by
  unfold adjustAvail; split <;> rfl

@[simp] theorem adjustAvail_capacity (b : memoryBucket) (t : Int) :
    (b.adjustAvail t).capacity = b.capacity := by
  unfold adjustAvail; split <;> rfl

@[simp] theorem adjustAvail_quantum (b : memoryBucket) (t : Int) :
    (b.adjustAvail t).quantum = b.quantum := by
  unfold adjustAvail; split <;> rfl

@[simp] theorem adjustAvail_fillInterval (b : memoryBucket) (t : Int) :
    (b.adjustAvail t).fillInterval = b.fillInterval := by
  unfold adjustAvail; split <;> rfl

theorem adjustAvail_of_saturated (b : memoryBucket) (t : Int) (h : b.capacity ≤ b.avail) :
    b.adjustAvail t = b := by
  unfold adjustAvail; simp [h]

theorem adjustAvail_avail_of_lt (b : memoryBucket) (t : Int) (h : b.avail < b.capacity) :
    (b.adjustAvail t).avail = min (b.avail + (t - b.latestTick) * b.quantum) b.capacity := by
  unfold adjustAvail
  rw [if_neg (by omega)]
  simp only []
  split
  · rw [min_eq_right]; omega
  · rw [min_eq_left]; omega

theorem adjustAvail_latestTick_of_lt (b : memoryBucket) (t : Int) (h : b.avail < b.capacity) :
    (b.adjustAvail t).latestTick = t := by
  unfold adjustAvail
  rw [if_neg (by omega)]

theorem adjustAvail_avail_le (b : memoryBucket) (t : Int) (h : b.avail ≤ b.capacity) :
    (b.adjustAvail t).avail ≤ b.capacity := by
  rcases lt_or_eq_of_le h with h1 | h1
  · rw [adjustAvail_avail_of_lt b t h1]; exact min_le_right _ _
  · rw [adjustAvail_of_saturated b t (by omega)]; exact h

/-- At the tick already recorded in `latestTick` the refill changes nothing. -/
theorem adjustAvail_of_latestTick (b : memoryBucket) (t : Int) (h : b.latestTick = t) :
    b.adjustAvail t = b := by
  obtain ⟨s, c, q, f, a, l⟩ := b
  simp only at h
  subst h
  unfold adjustAvail
  by_cases hc : a ≥ c
  · simp [hc]
  · have : ¬ (a > c) := by omega
    simp [hc, this]

@[simp] theorem currentTick_adjustAvail (b : memoryBucket) (t now : Int) :
    (b.adjustAvail t).currentTick now = b.currentTick now := by
  simp [currentTick]

theorem adjustAvail_latestTick_of (b : memoryBucket) (t : Int)
    (h : b.avail < b.capacity ∨ b.latestTick = t) : (b.adjustAvail t).latestTick = t := by
  rcases h with h | h
  · exact adjustAvail_latestTick_of_lt b t h
  · rw [adjustAvail_of_latestTick b t h]; exact h

/-- Refilling twice at the same tick is refilling once. -/
theorem adjustAvail_adjustAvail (b : memoryBucket) (t : Int) :
    (b.adjustAvail t).adjustAvail t = b.adjustAvail t := by
  by_cases h : b.avail < b.capacity
  · exact adjustAvail_of_latestTick _ t (adjustAvail_latestTick_of_lt b t h)
  · rw [adjustAvail_of_saturated b t (by omega)]
    exact adjustAvail_of_saturated b t (by omega)

/-- The body of `acquire` once the count is positive and the tick is computed. -/
theorem acquire_of_tick (b : memoryBucket) (now count tick : Int) (hc : 0 < count)
    (ht : b.currentTick now = some tick) :
    b.acquire now count =
      if (b.adjustAvail tick).avail ≤ 0 then some (0, b.adjustAvail tick)
      else some (if count > (b.adjustAvail tick).avail then (b.adjustAvail tick).avail else count,
        { b.adjustAvail tick with
          avail := (b.adjustAvail tick).avail -
            (if count > (b.adjustAvail tick).avail then (b.adjustAvail tick).avail else count) }) := by
  unfold acquire
  rw [if_neg (by omega), ht]
  rfl

/-- The body of `tryAcquire` once the count is positive and the tick is computed. -/
theorem tryAcquire_of_tick (b : memoryBucket) (now count maxWait tick : Int) (hc : 0 < count)
    (ht : b.currentTick now = some tick) :
    b.tryAcquire now count maxWait =
      if (b.adjustAvail tick).avail - count ≥ 0 then
        some ((0, true), { b.adjustAvail tick with avail := (b.adjustAvail tick).avail - count })
      else
        (goDiv (-((b.adjustAvail tick).avail - count) + (b.adjustAvail tick).quantum - 1)
            (b.adjustAvail tick).quantum).bind fun q =>
          if (b.adjustAvail tick).startTime + (tick + q) * (b.adjustAvail tick).fillInterval - now
              > maxWait then
            some ((0, false), b.adjustAvail tick)
          else
            some (((b.adjustAvail tick).startTime +
                (tick + q) * (b.adjustAvail tick).fillInterval - now, true),
              { b.adjustAvail tick with avail := (b.adjustAvail tick).avail - count }) := by
  unfold tryAcquire
  rw [if_neg (by omega), ht]
  rfl

/-- The body of `available` once the tick is computed. -/
theorem available_of_tick (b : memoryBucket) (now tick : Int)
    (ht : b.currentTick now = some tick) :
    b.available now = some ((b.adjustAvail tick).avail, b.adjustAvail tick) := by
  unfold available
  rw [ht]
  rfl

end memoryBucket

/-! ## `acquire` -/

/-- The grant of `acquire` for a positive count and the state it leaves, in terms of the
refilled avail. -/
theorem acquire_grant_eq (b : memoryBucket) (now count tick : Int) (hc : 0 < count)
    (ht : b.currentTick now = some tick) :
    ∃ g : Int,
      b.acquire now count =
        some (g, { b.adjustAvail tick with avail := (b.adjustAvail tick).avail - g }) ∧
      g = (if 0 < (b.adjustAvail tick).avail then min count (b.adjustAvail tick).avail else 0) ∧
      0 ≤ g ∧ g ≤ count ∧
      ((0 ≤ (b.adjustAvail tick).avail → g ≤ (b.adjustAvail tick).avail) ∧
        ((b.adjustAvail tick).avail ≤ 0 → g = 0)) := by
  rw [memoryBucket.acquire_of_tick b now count tick hc ht]
  generalize b.adjustAvail tick = b'
  obtain ⟨s, c, q, f, a, l⟩ := b'
  simp only
  by_cases ha : a ≤ 0
  · exact ⟨0, by simp [ha], by rw [if_neg (by omega)], le_refl _, by omega, fun h => h,
      fun _ => rfl⟩
  · by_cases hgt : count > a
    · exact ⟨a, by simp [ha, hgt], by rw [if_pos (by omega), min_eq_right (by omega)],
        by omega, by omega, fun _ => le_refl _, fun h => by omega⟩
    · exact ⟨count, by simp [ha, hgt], by rw [if_pos (by omega), min_eq_left (by omega)],
        by omega, le_refl _, fun _ => by omega, fun h => by omega⟩

/-- C1 (amended): for `count > 0`, with `a'` the avail after the refill adjustment at
`tick(now)`, `acquire` returns `min count a'` when `a' > 0` and `0` otherwise, the avail
afterwards is `a'` minus the grant, the grant is never negative, never more than `count`,
and never more than `a'` when `a'` is not negative. -/
theorem acquire_grant_and_state (b : memoryBucket) (now count tick : Int) (hc : 0 < count)
    (ht : b.currentTick now = some tick) :
    ∃ g : Int,
      b.acquire now count =
        some (g, { b.adjustAvail tick with avail := (b.adjustAvail tick).avail - g }) ∧
      g = (if 0 < (b.adjustAvail tick).avail then min count (b.adjustAvail tick).avail else 0) ∧
      0 ≤ g ∧ g ≤ count ∧ (0 ≤ (b.adjustAvail tick).avail → g ≤ (b.adjustAvail tick).avail) := by
  obtain ⟨g, h1, h2, h3, h4, h5, -⟩ := acquire_grant_eq b now count tick hc ht
  exact ⟨g, h1, h2, h3, h4, h5⟩

/-- Witness of C1 (amended): a full bucket of capacity 10 asked for 3 tokens at its start. -/
theorem acquire_grant_and_state_witness :
    (0 : Int) < 3 ∧
    (memoryBucket.mk 0 10 1 1 10 0).currentTick 0 = some 0 ∧
    ∃ g : Int,
      (memoryBucket.mk 0 10 1 1 10 0).acquire 0 3 =
        some (g, { (memoryBucket.mk 0 10 1 1 10 0).adjustAvail 0 with
          avail := ((memoryBucket.mk 0 10 1 1 10 0).adjustAvail 0).avail - g }) ∧
      g = (if 0 < ((memoryBucket.mk 0 10 1 1 10 0).adjustAvail 0).avail
            then min 3 ((memoryBucket.mk 0 10 1 1 10 0).adjustAvail 0).avail else 0) ∧
      0 ≤ g ∧ g ≤ 3 ∧
      (0 ≤ ((memoryBucket.mk 0 10 1 1 10 0).adjustAvail 0).avail →
        g ≤ ((memoryBucket.mk 0 10 1 1 10 0).adjustAvail 0).avail) :=
  ⟨by decide, by decide,
    acquire_grant_and_state (memoryBucket.mk 0 10 1 1 10 0) 0 3 0 (by decide) (by decide)⟩

/-- C1 as stated fails: on the bucket left by a reservation of 11 tokens from a fresh bucket
of capacity 10 the refilled avail is `-1`, `acquire` returns `0`, and `0` is more than `-1`. -/
theorem acquire_grant_above_negative_avail :
    create 0 "b" 1 10 1 = .ok (memoryBucket.mk 0 10 1 1 10 0) ∧
    (memoryBucket.mk 0 10 1 1 10 0).tryAcquire 0 11 infinityDuration =
      some ((1, true), memoryBucket.mk 0 10 1 1 (-1) 0) ∧
    (memoryBucket.mk 0 10 1 1 (-1) 0).currentTick 0 = some 0 ∧
    ((memoryBucket.mk 0 10 1 1 (-1) 0).adjustAvail 0).avail = -1 ∧
    (memoryBucket.mk 0 10 1 1 (-1) 0).acquire 0 1 = some (0, memoryBucket.mk 0 10 1 1 (-1) 0) ∧
    ¬ ((0 : Int) ≤ ((memoryBucket.mk 0 10 1 1 (-1) 0).adjustAvail 0).avail) := by
  refine ⟨rfl, ?_, ?_, ?_, ?_, ?_⟩ <;> decide

/-- Grants of calls at one instant whose tick is the recorded `latestTick` add up to no
more than what the bucket holds. -/
theorem acquireAll_le_of_latestTick (cs : List Int) :
    ∀ (b : memoryBucket) (now : Int), b.currentTick now = some b.latestTick →
      ∃ (total : Int) (b' : memoryBucket),
        acquireAll b now cs = some (total, b') ∧ 0 ≤ total ∧ total ≤ max b.avail 0 := by
  induction cs with
  | nil => intro b now _; exact ⟨0, b, rfl, le_refl _, le_max_right _ _⟩
  | cons c cs ih =>
    intro b now ht
    by_cases hc : c ≤ 0
    · obtain ⟨total, b', h1, h2, h3⟩ := ih b now ht
      refine ⟨total, b', ?_, h2, h3⟩
      simp [acquireAll, memoryBucket.acquire, hc, h1]
    · obtain ⟨g, hg, -, hg0, -, hga⟩ :=
        acquire_grant_eq b now c b.latestTick (by omega) ht
      rw [memoryBucket.adjustAvail_of_latestTick b _ rfl] at hg hga
      have ht1 : ({ b with avail := b.avail - g } : memoryBucket).currentTick now =
          some ({ b with avail := b.avail - g } : memoryBucket).latestTick := ht
      obtain ⟨total, b', h1, h2, h3⟩ := ih _ now ht1
      refine ⟨g + total, b', ?_, by omega, ?_⟩
      · simp [acquireAll, hg, h1]
      · simp only [] at h3
        rcases le_total 0 b.avail with h | h
        · have := hga.1 h
          rw [max_eq_left h]
          rcases le_total 0 (b.avail - g) with h' | h'
          · rw [max_eq_left h'] at h3; omega
          · rw [max_eq_right h'] at h3; omega
        · have := hga.2 h
          subst this
          simpa using h3

/-- C2 on the code: a fresh bucket of capacity 10 first used five ticks after its start
grants 10 and then 5 more to two `acquire` calls at that one instant, 15 in all, because the
refill skipped while the bucket is full leaves `latestTick` at 0. -/
theorem acquireAll_exceeds_capacity :
    create 0 "b" 1 10 1 = .ok (memoryBucket.mk 0 10 1 1 10 0) ∧
    (memoryBucket.mk 0 10 1 1 10 0).startTime ≤ 5 ∧
    (memoryBucket.mk 0 10 1 1 10 0).acquire 5 10 = some (10, memoryBucket.mk 0 10 1 1 0 0) ∧
    (memoryBucket.mk 0 10 1 1 0 0).acquire 5 10 = some (5, memoryBucket.mk 0 10 1 1 0 5) ∧
    acquireAll (memoryBucket.mk 0 10 1 1 10 0) 5 [10, 10] =
      some (15, memoryBucket.mk 0 10 1 1 0 5) ∧
    ¬ ((15 : Int) ≤ (memoryBucket.mk 0 10 1 1 10 0).capacity) := by
  refine ⟨rfl, ?_, ?_, ?_, ?_, ?_⟩ <;> decide

/-- What a returning `available` call returns: the refilled avail and the refilled state,
for the tick it computed. -/
theorem available_eq_some {b b1 : memoryBucket} {now a : Int}
    (h : b.available now = some (a, b1)) :
    ∃ tick : Int, b.currentTick now = some tick ∧ b1 = b.adjustAvail tick ∧ a = b1.avail := by
  unfold memoryBucket.available at h
  cases ht : b.currentTick now with
  | none => simp [ht] at h
  | some tick =>
    rw [ht] at h
    simp only [Option.bind_eq_bind, Option.some_bind, Option.some.injEq, Prod.mk.injEq] at h
    exact ⟨tick, rfl, h.2.symm, by rw [← h.2]; exact h.1.symm⟩

/-- C3 (amended): if `available(now)` returns `a` with `a ≥ 0` and `count > a`, then
`acquire(now, count)` returns exactly `a`; and when `a` is below the capacity a following
`available(now)` returns 0. -/
theorem acquire_above_available (b b1 : memoryBucket) (now count a : Int)
    (hav : b.available now = some (a, b1)) (ha : 0 ≤ a) (hc : a < count) :
    ∃ b2 : memoryBucket,
      b1.acquire now count = some (a, b2) ∧
      (a < b.capacity → b2.available now = some (0, b2)) := by
  obtain ⟨tick, ht, hb1, haeq⟩ := available_eq_some hav
  have ht1 : b1.currentTick now = some tick := by rw [hb1]; simpa using ht
  have hadj : b1.adjustAvail tick = b1 := by
    rw [hb1]; exact memoryBucket.adjustAvail_adjustAvail b tick
  obtain ⟨g, hg, hgeq, -, -, -, -⟩ := acquire_grant_eq b1 now count tick (by omega) ht1
  rw [hadj] at hg hgeq
  rw [← haeq] at hg hgeq
  have hga : g = a := by
    rw [hgeq]
    split
    · exact min_eq_right (by omega)
    · omega
  subst hga
  refine ⟨_, hg, fun hlt => ?_⟩
  have hbl : b.avail < b.capacity := by
    by_contra hge
    rw [memoryBucket.adjustAvail_of_saturated b tick (by omega)] at hb1
    rw [hb1] at haeq
    omega
  have hl1 : b1.latestTick = tick := by
    rw [hb1]; exact memoryBucket.adjustAvail_latestTick_of_lt b tick hbl
  have ht2 : ({ b1 with avail := g - g } : memoryBucket).currentTick now = some tick := ht1
  rw [memoryBucket.available_of_tick _ now tick ht2,
    memoryBucket.adjustAvail_of_latestTick
      ({ b1 with avail := g - g } : memoryBucket) tick hl1]
  simp

/-- Witness of C3 (amended): a bucket holding 4 of its 10 tokens asked for 6. -/
theorem acquire_above_available_witness :
    (memoryBucket.mk 0 10 1 1 4 0).available 0 = some (4, memoryBucket.mk 0 10 1 1 4 0) ∧
    (0 : Int) ≤ 4 ∧ (4 : Int) < 6 ∧
    ∃ b2 : memoryBucket,
      (memoryBucket.mk 0 10 1 1 4 0).acquire 0 6 = some (4, b2) ∧
      (4 < (memoryBucket.mk 0 10 1 1 4 0).capacity → b2.available 0 = some (0, b2)) :=
  ⟨by decide, by decide, by decide,
    acquire_above_available (memoryBucket.mk 0 10 1 1 4 0) (memoryBucket.mk 0 10 1 1 4 0)
      0 6 4 (by decide) (by decide) (by decide)⟩

/-- C3 as stated fails: after a reservation of 8 tokens from a fresh bucket of capacity 5,
`available` returns `-3`; `acquire` with count 2, which is more than `-3`, returns `0` and
not `-3`, and `available` afterwards is still `-3` and not `0`. -/
theorem acquire_above_negative_available :
    create 0 "b" 1000 5 1 = .ok (memoryBucket.mk 0 5 1 1000 5 0) ∧
    (memoryBucket.mk 0 5 1 1000 5 0).tryAcquire 0 8 infinityDuration =
      some ((3000, true), memoryBucket.mk 0 5 1 1000 (-3) 0) ∧
    (memoryBucket.mk 0 5 1 1000 (-3) 0).available 0 =
      some (-3, memoryBucket.mk 0 5 1 1000 (-3) 0) ∧
    (2 : Int) > -3 ∧
    (memoryBucket.mk 0 5 1 1000 (-3) 0).acquire 0 2 =
      some (0, memoryBucket.mk 0 5 1 1000 (-3) 0) ∧
    (0 : Int) ≠ -3 ∧
    (memoryBucket.mk 0 5 1 1000 (-3) 0).available 0 ≠
      some (0, memoryBucket.mk 0 5 1 1000 (-3) 0) := by
  refine ⟨rfl, ?_, ?_, ?_, ?_, ?_, ?_⟩ <;> decide

/-! ## `tryAcquire` -/

/-- The deficit branch of `tryAcquire`: with `a'` the refilled avail, `a' < count` and `q`
the quotient the code computes, the call is decided by comparing
`startTime + (tick + q) * fillInterval - now` with `maxWait`. -/
theorem tryAcquire_deficit (b : memoryBucket) (now count maxWait tick q : Int) (hc : 0 < count)
    (ht : b.currentTick now = some tick) (ha : (b.adjustAvail tick).avail < count)
    (hq : goDiv (-((b.adjustAvail tick).avail - count) + b.quantum - 1) b.quantum = some q) :
    b.tryAcquire now count maxWait =
      if b.startTime + (tick + q) * b.fillInterval - now > maxWait then
        some ((0, false), b.adjustAvail tick)
      else
        some ((b.startTime + (tick + q) * b.fillInterval - now, true),
          { b.adjustAvail tick with avail := (b.adjustAvail tick).avail - count }) := by
  rw [memoryBucket.tryAcquire_of_tick b now count maxWait tick hc ht, if_neg (by omega)]
  simp only [memoryBucket.adjustAvail_quantum, memoryBucket.adjustAvail_startTime,
    memoryBucket.adjustAvail_fillInterval]
  rw [hq]
  rfl

/-- C4 on the code: a fresh bucket of capacity 10 first used five ticks after its start and
asked for 11 tokens returns the wait 1 with `ok` and commits avail `-1`, but its
`latestTick` stays 0 although `tick(now)` is 5. -/
theorem tryAcquire_reservation_stale_latestTick :
    create 0 "b" 1 10 1 = .ok (memoryBucket.mk 0 10 1 1 10 0) ∧
    (memoryBucket.mk 0 10 1 1 10 0).currentTick 5 = some 5 ∧
    ((memoryBucket.mk 0 10 1 1 10 0).adjustAvail 5).avail = 10 ∧
    (memoryBucket.mk 0 10 1 1 10 0).tryAcquire 5 11 infinityDuration =
      some ((1, true), memoryBucket.mk 0 10 1 1 (-1) 0) ∧
    (memoryBucket.mk 0 10 1 1 (-1) 0).latestTick ≠ 5 := by
  refine ⟨rfl, ?_, ?_, ?_, ?_⟩ <;> decide

/-- C5: for `count > 0`, when the refilled avail `a'` is at least `count`, `tryAcquire`
returns `(0, true)` and leaves avail `a' - count`, whatever `maxWait` is. -/
theorem tryAcquire_enough (b : memoryBucket) (now count maxWait tick : Int) (hc : 0 < count)
    (ht : b.currentTick now = some tick) (ha : count ≤ (b.adjustAvail tick).avail) :
    b.tryAcquire now count maxWait =
      some ((0, true),
        { b.adjustAvail tick with avail := (b.adjustAvail tick).avail - count }) := by
  rw [memoryBucket.tryAcquire_of_tick b now count maxWait tick hc ht, if_pos (by omega)]

/-- Witness of C5: a full bucket of capacity 10 asked for 4 tokens with `maxWait = 0`. -/
theorem tryAcquire_enough_witness :
    (0 : Int) < 4 ∧
    (memoryBucket.mk 0 10 1 1 10 0).currentTick 0 = some 0 ∧
    (4 : Int) ≤ ((memoryBucket.mk 0 10 1 1 10 0).adjustAvail 0).avail ∧
    (memoryBucket.mk 0 10 1 1 10 0).tryAcquire 0 4 0 =
      some ((0, true),
        { (memoryBucket.mk 0 10 1 1 10 0).adjustAvail 0 with
          avail := ((memoryBucket.mk 0 10 1 1 10 0).adjustAvail 0).avail - 4 }) :=
  ⟨by decide, by decide, by decide,
    tryAcquire_enough (memoryBucket.mk 0 10 1 1 10 0) 0 4 0 0 (by decide) (by decide)
      (by decide)⟩

/-- C6: for `count > 0`, when the refilled avail `a'` is below `count` and the wait the
code computes, `startTime + (tick + q) * fillInterval - now` with `q` the quotient of
`-(a' - count) + quantum - 1` by `quantum`, exceeds `maxWait`, `tryAcquire` returns
`(0, false)` and the state afterwards is the refilled state, with no reservation. -/
theorem tryAcquire_rejected (b : memoryBucket) (now count maxWait tick q : Int)
    (hc : 0 < count) (ht : b.currentTick now = some tick)
    (ha : (b.adjustAvail tick).avail < count)
    (hq : goDiv (-((b.adjustAvail tick).avail - count) + b.quantum - 1) b.quantum = some q)
    (hw : maxWait < b.startTime + (tick + q) * b.fillInterval - now) :
    b.tryAcquire now count maxWait = some ((0, false), b.adjustAvail tick) := by
  rw [tryAcquire_deficit b now count maxWait tick q hc ht ha hq, if_pos (by omega)]

/-- Witness of C6: an empty bucket refilled to 2 tokens at tick 2, asked for 5 tokens with
`maxWait = 100` when the wait would be 750. -/
theorem tryAcquire_rejected_witness :
    (0 : Int) < 5 ∧
    (memoryBucket.mk 0 10 1 250 0 0).currentTick 500 = some 2 ∧
    ((memoryBucket.mk 0 10 1 250 0 0).adjustAvail 2).avail < 5 ∧
    goDiv (-(((memoryBucket.mk 0 10 1 250 0 0).adjustAvail 2).avail - 5) +
      (memoryBucket.mk 0 10 1 250 0 0).quantum - 1)
      (memoryBucket.mk 0 10 1 250 0 0).quantum = some 3 ∧
    (100 : Int) < (memoryBucket.mk 0 10 1 250 0 0).startTime +
      (2 + 3) * (memoryBucket.mk 0 10 1 250 0 0).fillInterval - 500 ∧
    (memoryBucket.mk 0 10 1 250 0 0).tryAcquire 500 5 100 =
      some ((0, false), (memoryBucket.mk 0 10 1 250 0 0).adjustAvail 2) :=
  ⟨by decide, by decide, by decide, by decide, by decide,
    tryAcquire_rejected (memoryBucket.mk 0 10 1 250 0 0) 500 5 100 2 3 (by decide) (by decide)
      (by decide) (by decide) (by decide)⟩

/-- Reservation stacking with exact arithmetic (the lemma behind the 64-bit statement):
on a bucket of valid configuration whose avail is below the capacity
(or whose `latestTick` is already `tick(now)`), if `tryAcquire(now, c1, m1)` is accepted with
a positive wait `w1` and a second `tryAcquire(now, c2, m2)` with `c2 > 0` at the same instant
is accepted with wait `w2`, then `w2 ≥ w1`, and `w2 > w1` when `c2` is at least the quantum
(so always when the quantum is 1). -/
theorem tryAcquire_stacking (b b1 b2 : memoryBucket) (now c1 c2 m1 m2 w1 w2 tick : Int)
    (hfi : 0 < b.fillInterval) (hq : 0 < b.quantum)
    (ht : b.currentTick now = some tick)
    (hl : b.avail < b.capacity ∨ b.latestTick = tick)
    (h1 : b.tryAcquire now c1 m1 = some ((w1, true), b1)) (hw1 : 0 < w1)
    (hc2 : 0 < c2)
    (h2 : b1.tryAcquire now c2 m2 = some ((w2, true), b2)) :
    w1 ≤ w2 ∧ (b.quantum ≤ c2 → w1 < w2) := by
  have hc1 : 0 < c1 := by
    by_contra hc
    have : b.tryAcquire now c1 m1 = some ((0, true), b) := by
      simp [memoryBucket.tryAcquire, show c1 ≤ 0 by omega]
    rw [this] at h1
    simp only [Option.some.injEq, Prod.mk.injEq] at h1
    omega
  have ha1 : (b.adjustAvail tick).avail < c1 := by
    by_contra ha
    rw [memoryBucket.tryAcquire_of_tick b now c1 m1 tick hc1 ht, if_pos (by omega)] at h1
    simp only [Option.some.injEq, Prod.mk.injEq] at h1
    omega
  have hq1 := goDiv_of_ne_zero (-((b.adjustAvail tick).avail - c1) + b.quantum - 1) b.quantum
    (by omega)
  rw [tryAcquire_deficit b now c1 m1 tick _ hc1 ht ha1 hq1] at h1
  split at h1
  · simp at h1
  simp only [Option.some.injEq, Prod.mk.injEq, and_true] at h1
  obtain ⟨hw1eq, hb1⟩ := h1
  have hl1 : b1.latestTick = tick := by
    rw [← hb1]; exact memoryBucket.adjustAvail_latestTick_of b tick hl
  have ht1 : b1.currentTick now = some tick := by
    rw [← hb1]; exact (memoryBucket.currentTick_adjustAvail b tick now).trans ht
  have hadj1 : b1.adjustAvail tick = b1 := memoryBucket.adjustAvail_of_latestTick b1 tick hl1
  have hav1 : b1.avail = (b.adjustAvail tick).avail - c1 := by rw [← hb1]
  have hqeq : b1.quantum = b.quantum := by rw [← hb1]; simp
  have hfeq : b1.fillInterval = b.fillInterval := by rw [← hb1]; simp
  have hseq : b1.startTime = b.startTime := by rw [← hb1]; simp
  have ha2 : (b1.adjustAvail tick).avail < c2 := by rw [hadj1, hav1]; omega
  have hq2 := goDiv_of_ne_zero (-((b1.adjustAvail tick).avail - c2) + b1.quantum - 1)
    b1.quantum (by omega)
  rw [tryAcquire_deficit b1 now c2 m2 tick _ hc2 ht1 ha2 hq2] at h2
  split at h2
  · simp at h2
  simp only [Option.some.injEq, Prod.mk.injEq, and_true] at h2
  obtain ⟨hw2eq, -⟩ := h2
  rw [hadj1, hav1, hqeq, hfeq, hseq] at hw2eq
  have hmono := tdiv_le_tdiv_of_le (-((b.adjustAvail tick).avail - c1) + b.quantum - 1)
    (-((b.adjustAvail tick).avail - c1 - c2) + b.quantum - 1) b.quantum (by omega) (by omega) hq
  constructor
  · rw [← hw1eq, ← hw2eq]
    nlinarith
  · intro hqc
    have hstep := tdiv_add_self (-((b.adjustAvail tick).avail - c1) + b.quantum - 1) b.quantum
      (by omega) hq
    have hmono2 := tdiv_le_tdiv_of_le
      (-((b.adjustAvail tick).avail - c1) + b.quantum - 1 + b.quantum)
      (-((b.adjustAvail tick).avail - c1 - c2) + b.quantum - 1) b.quantum (by omega) (by omega) hq
    rw [← hw1eq, ← hw2eq]
    nlinarith

/-- The wait with exact arithmetic (the lemma behind the 64-bit statement): for
`count > 0`, valid fill interval and quantum, `now ≥ startTime` and a
refilled avail `a'` below `count`, the wait is
`w = ⌈(count - a') / quantum⌉ * fillInterval - (now - startTime) % fillInterval`;
`tryAcquire` returns `(w, true)` for every `maxWait ≥ w` (so for `infinityDuration` whenever
`w` is a duration), `0 < w ≤ ⌈(count - a') / quantum⌉ * fillInterval`, and `w` equals
`⌈(count - a') / quantum⌉ * fillInterval` exactly when `now` is on a tick boundary. -/
theorem tryAcquire_wait_eq (b : memoryBucket) (now count maxWait tick : Int)
    (hfi : 0 < b.fillInterval) (hq : 0 < b.quantum) (hnow : b.startTime ≤ now)
    (hc : 0 < count) (ht : b.currentTick now = some tick)
    (ha : (b.adjustAvail tick).avail < count)
    (hm : ⌈((count - (b.adjustAvail tick).avail : Int) : ℚ) / (b.quantum : ℚ)⌉ * b.fillInterval
      - (now - b.startTime) % b.fillInterval ≤ maxWait) :
    b.tryAcquire now count maxWait =
      some ((⌈((count - (b.adjustAvail tick).avail : Int) : ℚ) / (b.quantum : ℚ)⌉ * b.fillInterval
          - (now - b.startTime) % b.fillInterval, true),
        { b.adjustAvail tick with avail := (b.adjustAvail tick).avail - count }) ∧
    0 < ⌈((count - (b.adjustAvail tick).avail : Int) : ℚ) / (b.quantum : ℚ)⌉ * b.fillInterval
      - (now - b.startTime) % b.fillInterval ∧
    ⌈((count - (b.adjustAvail tick).avail : Int) : ℚ) / (b.quantum : ℚ)⌉ * b.fillInterval
      - (now - b.startTime) % b.fillInterval ≤
      ⌈((count - (b.adjustAvail tick).avail : Int) : ℚ) / (b.quantum : ℚ)⌉ * b.fillInterval ∧
    (⌈((count - (b.adjustAvail tick).avail : Int) : ℚ) / (b.quantum : ℚ)⌉ * b.fillInterval
      - (now - b.startTime) % b.fillInterval =
      ⌈((count - (b.adjustAvail tick).avail : Int) : ℚ) / (b.quantum : ℚ)⌉ * b.fillInterval ↔
      (now - b.startTime) % b.fillInterval = 0) := by
  have hceil := tdiv_round_up_eq_ceil (count - (b.adjustAvail tick).avail) b.quantum
    (by omega) hq
  generalize ⌈((count - (b.adjustAvail tick).avail : Int) : ℚ) / (b.quantum : ℚ)⌉ = k
    at hceil hm ⊢
  have hk : 1 ≤ k := by
    rw [← hceil, Int.tdiv_eq_ediv (by omega) (by omega)]
    have := Int.add_mul_ediv_right (count - (b.adjustAvail tick).avail - 1) 1
      (show b.quantum ≠ 0 by omega)
    have h0 : 0 ≤ (count - (b.adjustAvail tick).avail - 1) / b.quantum :=
      Int.ediv_nonneg (by omega) (by omega)
    have he : count - (b.adjustAvail tick).avail - 1 + 1 * b.quantum =
        count - (b.adjustAvail tick).avail + b.quantum - 1 := by ring
    rw [he] at this
    omega
  have htick : tick = Int.tdiv (now - b.startTime) b.fillInterval := by
    have := (goDiv_eq_some_iff.mp ht).2
    exact this
  have hrem0 : 0 ≤ (now - b.startTime) % b.fillInterval := Int.emod_nonneg _ (by omega)
  have hremlt : (now - b.startTime) % b.fillInterval < b.fillInterval :=
    Int.emod_lt_of_pos _ hfi
  have hmul := tdiv_mul_eq_sub_emod (now - b.startTime) b.fillInterval (by omega) hfi
  rw [← htick] at hmul
  have hq1 : goDiv (-((b.adjustAvail tick).avail - count) + b.quantum - 1) b.quantum = some k := by
    rw [goDiv_of_ne_zero _ _ (by omega), ← hceil]
    congr 2
    ring
  have hwait : b.startTime + (tick + k) * b.fillInterval - now =
      k * b.fillInterval - (now - b.startTime) % b.fillInterval := by
    have : (tick + k) * b.fillInterval = tick * b.fillInterval + k * b.fillInterval := by ring
    rw [this, hmul]; ring
  have hkf : b.fillInterval ≤ k * b.fillInterval := by nlinarith
  refine ⟨?_, by omega, by omega, by omega⟩
  rw [tryAcquire_deficit b now count maxWait tick k hc ht ha hq1, hwait, if_neg (by omega)]

/-! ## Creation, reachable states and `available` -/

theorem create_eq_ok {now : Int} {name : String} {fillInterval capacity quantum : Int}
    {b : memoryBucket} (h : create now name fillInterval capacity quantum = .ok b) :
    0 < fillInterval ∧ 0 < capacity ∧ 0 < quantum ∧
      b = { startTime := now, latestTick := 0, fillInterval := fillInterval,
            capacity := capacity, quantum := quantum, avail := capacity } := by
  unfold create at h
  split_ifs at h with h1 h2 h3
  simp only [Except.ok.injEq] at h
  exact ⟨by omega, by omega, by omega, h.symm⟩

theorem Valid_adjustAvail {b : memoryBucket} (h : b.Valid) (t : Int) :
    (b.adjustAvail t).Valid := by
  obtain ⟨h1, h2, h3, h4⟩ := h
  refine ⟨by simpa using h1, by simpa using h2, by simpa using h3, ?_⟩
  simpa using memoryBucket.adjustAvail_avail_le b t h4

theorem Valid_acquire {b b' : memoryBucket} {now count g : Int} (h : b.Valid)
    (hs : b.acquire now count = some (g, b')) : b'.Valid := by
  by_cases hc : count ≤ 0
  · simp only [memoryBucket.acquire, hc, if_true, Option.some.injEq, Prod.mk.injEq] at hs
    rw [← hs.2]; exact h
  · cases ht : b.currentTick now with
    | none => simp [memoryBucket.acquire, hc, ht] at hs
    | some tick =>
      obtain ⟨g', hg, -, hg0, -, -, -⟩ := acquire_grant_eq b now count tick (by omega) ht
      rw [hg] at hs
      simp only [Option.some.injEq, Prod.mk.injEq] at hs
      obtain ⟨h1, h2, h3, h4⟩ := Valid_adjustAvail h tick
      rw [← hs.2]
      exact ⟨h1, h2, h3, by simp only []; omega⟩

theorem Valid_tryAcquire {b b' : memoryBucket} {now count maxWait : Int} {r : Int × Bool}
    (h : b.Valid) (hs : b.tryAcquire now count maxWait = some (r, b')) : b'.Valid := by
  by_cases hc : count ≤ 0
  · simp only [memoryBucket.tryAcquire, hc, if_true, Option.some.injEq, Prod.mk.injEq] at hs
    rw [← hs.2]; exact h
  · cases ht : b.currentTick now with
    | none => simp [memoryBucket.tryAcquire, hc, ht] at hs
    | some tick =>
      obtain ⟨h1, h2, h3, h4⟩ := Valid_adjustAvail h tick
      have hval : ({ b.adjustAvail tick with avail := (b.adjustAvail tick).avail - count } :
          memoryBucket).Valid := ⟨h1, h2, h3, by simp only []; omega⟩
      rw [memoryBucket.tryAcquire_of_tick b now count maxWait tick (by omega) ht] at hs
      split at hs
      · simp only [Option.some.injEq, Prod.mk.injEq] at hs
        rw [← hs.2]; exact hval
      · cases hq : goDiv (-((b.adjustAvail tick).avail - count) + (b.adjustAvail tick).quantum - 1)
            (b.adjustAvail tick).quantum with
        | none => rw [hq] at hs; simp at hs
        | some q =>
          rw [hq] at hs
          simp only [Option.some_bind] at hs
          split at hs
          · simp only [Option.some.injEq, Prod.mk.injEq] at hs
            rw [← hs.2]; exact ⟨h1, h2, h3, h4⟩
          · simp only [Option.some.injEq, Prod.mk.injEq] at hs
            rw [← hs.2]; exact hval

theorem Valid_available {b b' : memoryBucket} {now a : Int} (h : b.Valid)
    (hs : b.available now = some (a, b')) : b'.Valid := by
  obtain ⟨tick, -, hb, -⟩ := available_eq_some hs
  rw [hb]; exact Valid_adjustAvail h tick

/-- Every reachable state has a valid configuration and an avail of at most the capacity. -/
theorem Reachable.valid {b : memoryBucket} (h : Reachable b) : b.Valid := by
  induction h with
  | create hc =>
    obtain ⟨h1, h2, h3, hb⟩ := create_eq_ok hc
    rw [hb]
    exact ⟨h1, h2, h3, le_refl _⟩
  | acquire _ hs ih => exact Valid_acquire ih hs
  | tryAcquire _ hs ih => exact Valid_tryAcquire ih hs
  | available _ hs ih => exact Valid_available ih hs

/-- C10: for a valid configuration `create` returns a bucket with `avail = capacity` and
`latestTick = 0`, and `available(now)` on it returns `capacity` at every `now`, leaving the
bucket as created. -/
theorem create_available (start : Int) (name : String) (fillInterval capacity quantum : Int)
    (hfi : 0 < fillInterval) (hcap : 0 < capacity) (hq : 0 < quantum) :
    ∃ b : memoryBucket,
      create start name fillInterval capacity quantum = .ok b ∧
      b.startTime = start ∧ b.avail = capacity ∧ b.latestTick = 0 ∧
      ∀ now : Int, b.available now = some (capacity, b) := by
  refine ⟨{ startTime := start, latestTick := 0, fillInterval := fillInterval,
            capacity := capacity, quantum := quantum, avail := capacity }, ?_, rfl, rfl, rfl,
          fun now => ?_⟩
  · unfold create
    rw [if_neg (by omega), if_neg (by omega), if_neg (by omega)]
  · have ht : (memoryBucket.mk start capacity quantum fillInterval capacity 0).currentTick now =
        some (Int.tdiv (now - start) fillInterval) :=
      goDiv_of_ne_zero _ _ (by show fillInterval ≠ 0; omega)
    rw [memoryBucket.available_of_tick _ now _ ht,
      memoryBucket.adjustAvail_of_saturated _ _ (le_refl _)]

/-- Witness of C10: fill interval 250, capacity 10, quantum 1. -/
theorem create_available_witness :
    (0 : Int) < 250 ∧ (0 : Int) < 10 ∧ (0 : Int) < 1 ∧
    ∃ b : memoryBucket,
      create 0 "b" 250 10 1 = .ok b ∧
      b.startTime = 0 ∧ b.avail = 10 ∧ b.latestTick = 0 ∧
      ∀ now : Int, b.available now = some (10, b) :=
  ⟨by decide, by decide, by decide,
    create_available 0 "b" 250 10 1 (by decide) (by decide) (by decide)⟩

/-! ## A fresh bucket, one interval at a time -/

/-- For a dividend that is not negative and a positive divisor the quotient of the code is
the floor of the fraction. -/
theorem tdiv_eq_floor (d f : Int) (hd : 0 ≤ d) (hf : 0 < f) :
    Int.tdiv d f = ⌊(d : ℚ) / (f : ℚ)⌋ := by
  rw [Int.tdiv_eq_ediv hd (by omega)]
  symm
  rw [Int.floor_eq_iff]
  have hf' : (0 : ℚ) < (f : ℚ) := by exact_mod_cast hf
  have h1 : d / f * f ≤ d := Int.ediv_mul_le _ (by omega)
  have h2 : d < (d / f + 1) * f := Int.lt_ediv_add_one_mul_self _ hf
  constructor
  · rw [le_div_iff₀ hf']
    exact_mod_cast h1
  · rw [div_lt_iff₀ hf']
    exact_mod_cast h2

/-- The refill of a bucket below its capacity, as a state. -/
theorem adjustAvail_eq_of_lt (b : memoryBucket) (t : Int) (h : b.avail < b.capacity) :
    b.adjustAvail t =
      { b with avail := min (b.avail + (t - b.latestTick) * b.quantum) b.capacity,
               latestTick := t } := by
  unfold memoryBucket.adjustAvail
  rw [if_neg (by omega)]
  simp only []
  split
  · rw [min_eq_right (by omega)]
  · rw [min_eq_left (by omega)]

/-- A fresh bucket with exact arithmetic (the lemma behind the 64-bit statement): on a
bucket just created with a valid configuration, for `1 ≤ k ≤ capacity` and
`d ≥ 0`: `acquire(startTime, k)` returns `k`, then `available(startTime)` returns
`capacity - k`, then `available(startTime + d)` returns
`min capacity (capacity - k + ⌊d / fillInterval⌋ * quantum)`; this is `capacity - k` when
`d < fillInterval` and `min capacity (capacity - k + quantum)` when
`fillInterval ≤ d < 2 * fillInterval`. -/
theorem fresh_acquire_then_available (start : Int) (name : String)
    (fillInterval capacity quantum k d : Int) (hfi : 0 < fillInterval) (hq : 0 < quantum)
    (hk1 : 1 ≤ k) (hk2 : k ≤ capacity) (hd : 0 ≤ d) :
    create start name fillInterval capacity quantum =
      .ok (memoryBucket.mk start capacity quantum fillInterval capacity 0) ∧
    (memoryBucket.mk start capacity quantum fillInterval capacity 0).acquire start k =
      some (k, memoryBucket.mk start capacity quantum fillInterval (capacity - k) 0) ∧
    (memoryBucket.mk start capacity quantum fillInterval (capacity - k) 0).available start =
      some (capacity - k, memoryBucket.mk start capacity quantum fillInterval (capacity - k) 0) ∧
    (memoryBucket.mk start capacity quantum fillInterval (capacity - k) 0).available (start + d) =
      some (min capacity (capacity - k + ⌊(d : ℚ) / (fillInterval : ℚ)⌋ * quantum),
        memoryBucket.mk start capacity quantum fillInterval
          (min capacity (capacity - k + ⌊(d : ℚ) / (fillInterval : ℚ)⌋ * quantum))
          ⌊(d : ℚ) / (fillInterval : ℚ)⌋) ∧
    (d < fillInterval →
      min capacity (capacity - k + ⌊(d : ℚ) / (fillInterval : ℚ)⌋ * quantum) = capacity - k) ∧
    (fillInterval ≤ d → d < 2 * fillInterval →
      min capacity (capacity - k + ⌊(d : ℚ) / (fillInterval : ℚ)⌋ * quantum) =
        min capacity (capacity - k + quantum)) := by
  have hfloor := tdiv_eq_floor d fillInterval hd hfi
  generalize ⌊(d : ℚ) / (fillInterval : ℚ)⌋ = T at hfloor ⊢
  have ht0 : ∀ a l : Int,
      (memoryBucket.mk start capacity quantum fillInterval a l).currentTick start = some 0 := by
    intro a l
    show goDiv (start - start) fillInterval = some 0
    rw [goDiv_of_ne_zero _ _ (by omega)]
    simp
  have htd : ∀ a l : Int,
      (memoryBucket.mk start capacity quantum fillInterval a l).currentTick (start + d) =
        some T := by
    intro a l
    show goDiv (start + d - start) fillInterval = some T
    rw [goDiv_of_ne_zero _ _ (by omega), ← hfloor]
    congr 2
    ring
  refine ⟨?_, ?_, ?_, ?_, ?_, ?_⟩
  · unfold create
    rw [if_neg (by omega), if_neg (by omega), if_neg (by omega)]
  · rw [memoryBucket.acquire_of_tick _ start k 0 (by omega) (ht0 _ _),
      memoryBucket.adjustAvail_of_saturated _ _ (le_refl _)]
    simp only []
    rw [if_neg (by omega), if_neg (by omega)]
  · rw [memoryBucket.available_of_tick _ start 0 (ht0 _ _),
      memoryBucket.adjustAvail_of_latestTick _ 0 rfl]
  · rw [memoryBucket.available_of_tick _ (start + d) T (htd _ _),
      adjustAvail_eq_of_lt _ T (by simp only []; omega)]
    simp only [sub_zero]
    rw [min_comm]
  · intro hlt
    have hT : T = 0 := by
      rw [← hfloor, Int.tdiv_eq_ediv hd (by omega)]
      exact Int.ediv_eq_zero_of_lt hd hlt
    rw [hT]
    simp only [zero_mul, add_zero]
    exact min_eq_right (by omega)
  · intro hge hlt
    have hT : T = 1 := by
      rw [← hfloor, Int.tdiv_eq_ediv hd (by omega)]
      have h := Int.add_mul_ediv_right (d - fillInterval) 1 (show fillInterval ≠ 0 by omega)
      have h0 : (d - fillInterval) / fillInterval = 0 :=
        Int.ediv_eq_zero_of_lt (by omega) (by omega)
      have he : d - fillInterval + 1 * fillInterval = d := by ring
      rw [he, h0] at h
      omega
    rw [hT]
    simp only [one_mul]

/-! ## Calls with a count that is not positive -/

/-- C12: for `count ≤ 0`, `acquire` returns 0 and `tryAcquire` returns `(0, true)` for every
`maxWait`, and both leave the bucket state as it was, without a refill. -/
theorem nonpositive_count_noop (b : memoryBucket) (now count maxWait : Int) (hc : count ≤ 0) :
    b.acquire now count = some (0, b) ∧ b.tryAcquire now count maxWait = some ((0, true), b) := by
  constructor
  · unfold memoryBucket.acquire
    rw [if_pos hc]
  · unfold memoryBucket.tryAcquire
    rw [if_pos hc]

/-- Witness of C12: count `-2` on a bucket holding 3 tokens whose refill is overdue. -/
theorem nonpositive_count_noop_witness :
    (-2 : Int) ≤ 0 ∧
    (memoryBucket.mk 0 10 1 1 3 0).acquire 7 (-2) = some (0, memoryBucket.mk 0 10 1 1 3 0) ∧
    (memoryBucket.mk 0 10 1 1 3 0).tryAcquire 7 (-2) 0 =
      some ((0, true), memoryBucket.mk 0 10 1 1 3 0) :=
  ⟨by decide, nonpositive_count_noop (memoryBucket.mk 0 10 1 1 3 0) 7 (-2) 0 (by decide)⟩

/-! ## Invariants of the state -/

/-- The state a returning `acquire` leaves: the state before when the count is not positive,
otherwise the refilled state less a grant that is not negative. -/
theorem acquire_state {b b' : memoryBucket} {now count g : Int}
    (hs : b.acquire now count = some (g, b')) :
    (count ≤ 0 ∧ b' = b) ∨
    ∃ tick : Int, b.currentTick now = some tick ∧ 0 ≤ g ∧
      b' = { b.adjustAvail tick with avail := (b.adjustAvail tick).avail - g } := by
  by_cases hc : count ≤ 0
  · left
    simp only [memoryBucket.acquire, hc, if_true, Option.some.injEq, Prod.mk.injEq] at hs
    exact ⟨hc, hs.2.symm⟩
  · right
    cases ht : b.currentTick now with
    | none => simp [memoryBucket.acquire, hc, ht] at hs
    | some tick =>
      obtain ⟨g', hg, -, hg0, -, -, -⟩ := acquire_grant_eq b now count tick (by omega) ht
      rw [hg] at hs
      simp only [Option.some.injEq, Prod.mk.injEq] at hs
      obtain ⟨hgg, hbb⟩ := hs
      subst hgg
      exact ⟨tick, rfl, hg0, hbb.symm⟩

/-- The state a returning `tryAcquire` leaves: the state before when the count is not
positive, otherwise the refilled state, with or without the count taken off. -/
theorem tryAcquire_state {b b' : memoryBucket} {now count maxWait : Int} {r : Int × Bool}
    (hs : b.tryAcquire now count maxWait = some (r, b')) :
    (count ≤ 0 ∧ b' = b) ∨
    ∃ tick : Int, b.currentTick now = some tick ∧ 0 < count ∧
      (b' = b.adjustAvail tick ∨
        b' = { b.adjustAvail tick with avail := (b.adjustAvail tick).avail - count }) := by
  by_cases hc : count ≤ 0
  · left
    simp only [memoryBucket.tryAcquire, hc, if_true, Option.some.injEq, Prod.mk.injEq] at hs
    exact ⟨hc, hs.2.symm⟩
  · right
    cases ht : b.currentTick now with
    | none => simp [memoryBucket.tryAcquire, hc, ht] at hs
    | some tick =>
      refine ⟨tick, rfl, by omega, ?_⟩
      rw [memoryBucket.tryAcquire_of_tick b now count maxWait tick (by omega) ht] at hs
      split at hs
      · simp only [Option.some.injEq, Prod.mk.injEq] at hs
        exact Or.inr hs.2.symm
      · cases hq : goDiv (-((b.adjustAvail tick).avail - count) + (b.adjustAvail tick).quantum - 1)
            (b.adjustAvail tick).quantum with
        | none => rw [hq] at hs; simp at hs
        | some q =>
          rw [hq] at hs
          simp only [Option.some_bind] at hs
          split at hs
          · simp only [Option.some.injEq, Prod.mk.injEq] at hs
            exact Or.inl hs.2.symm
          · simp only [Option.some.injEq, Prod.mk.injEq] at hs
            exact Or.inr hs.2.symm

/-- The refill at a tick that is not before `latestTick` does not lower `latestTick`. -/
theorem adjustAvail_latestTick_ge (b : memoryBucket) (t : Int) (h : b.latestTick ≤ t) :
    b.latestTick ≤ (b.adjustAvail t).latestTick := by
  by_cases hlt : b.avail < b.capacity
  · rw [memoryBucket.adjustAvail_latestTick_of_lt b t hlt]; exact h
  · rw [memoryBucket.adjustAvail_of_saturated b t (by omega)]

/-- C14 (amended): for every bucket state and every `now` whose tick is not before the
bucket's `latestTick`, the `latestTick` after a returning call of `acquire`, `tryAcquire` or
`available` at `now` is at least the `latestTick` before it. -/
theorem latestTick_monotone (b : memoryBucket) (now : Int)
    (hl : ∀ tick : Int, b.currentTick now = some tick → b.latestTick ≤ tick) :
    (∀ (b' : memoryBucket) (count g : Int),
      b.acquire now count = some (g, b') → b.latestTick ≤ b'.latestTick) ∧
    (∀ (b' : memoryBucket) (count maxWait : Int) (r : Int × Bool),
      b.tryAcquire now count maxWait = some (r, b') → b.latestTick ≤ b'.latestTick) ∧
    (∀ (b' : memoryBucket) (a : Int),
      b.available now = some (a, b') → b.latestTick ≤ b'.latestTick) := by
  refine ⟨?_, ?_, ?_⟩
  · intro b' count g hs
    rcases acquire_state hs with ⟨-, hb⟩ | ⟨tick, ht, -, hb⟩
    · rw [hb]
    · rw [hb]; exact adjustAvail_latestTick_ge b tick (hl tick ht)
  · intro b' count maxWait r hs
    rcases tryAcquire_state hs with ⟨-, hb⟩ | ⟨tick, ht, -, hb | hb⟩
    · rw [hb]
    · rw [hb]; exact adjustAvail_latestTick_ge b tick (hl tick ht)
    · rw [hb]; exact adjustAvail_latestTick_ge b tick (hl tick ht)
  · intro b' a hs
    obtain ⟨tick, ht, hb, -⟩ := available_eq_some hs
    rw [hb]; exact adjustAvail_latestTick_ge b tick (hl tick ht)

/-- Witness of C14 (amended): `available` at tick 8 on a bucket whose `latestTick` is 5. -/
theorem latestTick_monotone_witness :
    (memoryBucket.mk 0 10 1 1 2 5).available 8 = some (5, memoryBucket.mk 0 10 1 1 5 8) ∧
    (memoryBucket.mk 0 10 1 1 2 5).latestTick ≤ (memoryBucket.mk 0 10 1 1 5 8).latestTick :=
  ⟨by decide,
    (latestTick_monotone (memoryBucket.mk 0 10 1 1 2 5) 8
      (fun tick ht => by
        have h8 : (memoryBucket.mk 0 10 1 1 2 5).currentTick 8 = some 8 := by decide
        rw [h8] at ht
        simp only [Option.some.injEq] at ht
        rw [← ht]
        decide)).2.2 (memoryBucket.mk 0 10 1 1 5 8) 5 (by decide)⟩

/-- C14 as stated fails: the state with `latestTick = 5` reached from a fresh bucket by two
`acquire` calls at time 5 goes back to `latestTick = 2` when `available` is called with the
earlier time 2. -/
theorem latestTick_decreases_on_earlier_now :
    create 0 "b" 1 10 1 = .ok (memoryBucket.mk 0 10 1 1 10 0) ∧
    (memoryBucket.mk 0 10 1 1 10 0).acquire 5 10 = some (10, memoryBucket.mk 0 10 1 1 0 0) ∧
    (memoryBucket.mk 0 10 1 1 0 0).acquire 5 3 = some (3, memoryBucket.mk 0 10 1 1 2 5) ∧
    (memoryBucket.mk 0 10 1 1 2 5).available 2 = some (-1, memoryBucket.mk 0 10 1 1 (-1) 2) ∧
    ¬ ((memoryBucket.mk 0 10 1 1 2 5).latestTick ≤ (memoryBucket.mk 0 10 1 1 (-1) 2).latestTick) := by
  refine ⟨rfl, ?_, ?_, ?_, ?_⟩ <;> decide

/-- C18: when the tick of `now` is computed, `available(now)` returns the refilled avail and
leaves the refilled state, and a second `available(now)` on that state returns the same
value and leaves the same state. -/
theorem available_idempotent (b : memoryBucket) (now tick : Int)
    (ht : b.currentTick now = some tick) :
    b.available now = some ((b.adjustAvail tick).avail, b.adjustAvail tick) ∧
    (b.adjustAvail tick).available now = some ((b.adjustAvail tick).avail, b.adjustAvail tick) := by
  refine ⟨memoryBucket.available_of_tick b now tick ht, ?_⟩
  rw [memoryBucket.available_of_tick _ now tick
    ((memoryBucket.currentTick_adjustAvail b tick now).trans ht),
    memoryBucket.adjustAvail_adjustAvail]

/-- Witness of C18: a bucket holding 2 of 10 tokens, looked at twice at tick 3. -/
theorem available_idempotent_witness :
    (memoryBucket.mk 0 10 1 1 2 0).currentTick 3 = some 3 ∧
    (memoryBucket.mk 0 10 1 1 2 0).available 3 =
      some (((memoryBucket.mk 0 10 1 1 2 0).adjustAvail 3).avail,
        (memoryBucket.mk 0 10 1 1 2 0).adjustAvail 3) ∧
    ((memoryBucket.mk 0 10 1 1 2 0).adjustAvail 3).available 3 =
      some (((memoryBucket.mk 0 10 1 1 2 0).adjustAvail 3).avail,
        (memoryBucket.mk 0 10 1 1 2 0).adjustAvail 3) :=
  ⟨by decide, available_idempotent (memoryBucket.mk 0 10 1 1 2 0) 3 3 (by decide)⟩

/-! ## `tryAcquire` with `infinityDuration` -/

theorem satDuration_le_infinityDuration (x : Int) : satDuration x ≤ infinityDuration := by
  unfold satDuration infinityDuration
  split_ifs <;> omega

@[simp] theorem Bits64.adjustAvail64_quantum (b : memoryBucket) (t : Int) :
    (Bits64.adjustAvail b t).quantum = b.quantum := by
  unfold Bits64.adjustAvail; split <;> rfl

theorem wrap64_of_InInt64 {x : Int} (h : InInt64 x) : wrap64 x = x := by
  unfold InInt64 at h
  unfold wrap64
  omega

theorem satDuration_of_InInt64 {x : Int} (h : InInt64 x) : satDuration x = x := by
  unfold InInt64 at h
  unfold satDuration
  rw [if_neg (by omega), if_neg (by omega)]

/-- The 64-bit `currentTick` is the exact one when the elapsed time and the tick are
`int64` values. -/
theorem Bits64.currentTick_eq (b : memoryBucket) (now : Int)
    (h1 : InInt64 (now - b.startTime))
    (h2 : InInt64 (Int.tdiv (now - b.startTime) b.fillInterval)) :
    Bits64.currentTick b now = b.currentTick now := by
  unfold Bits64.currentTick memoryBucket.currentTick goDiv64 goDiv
  rw [satDuration_of_InInt64 h1, wrap64_of_InInt64 h2]

/-- The 64-bit `adjustAvail` is the exact one when the refill does not overflow. -/
theorem Bits64.adjustAvail_eq (b : memoryBucket) (tick : Int)
    (h1 : InInt64 (tick - b.latestTick))
    (h2 : InInt64 ((tick - b.latestTick) * b.quantum))
    (h3 : InInt64 (b.avail + (tick - b.latestTick) * b.quantum)) :
    Bits64.adjustAvail b tick = b.adjustAvail tick := by
  unfold Bits64.adjustAvail memoryBucket.adjustAvail
  rw [wrap64_of_InInt64 h1, wrap64_of_InInt64 h2, wrap64_of_InInt64 h3]

/-- The 64-bit `tryAcquire` is the exact one when no intermediate value overflows: the
elapsed time, the tick, the refill, the deficit, the end tick, the product with the fill
interval and the wait are all `int64` values. -/
theorem Bits64.tryAcquire_eq (b : memoryBucket) (now count maxWait tick q : Int)
    (ht : b.currentTick now = some tick)
    (hq : goDiv (-((b.adjustAvail tick).avail - count) + b.quantum - 1) b.quantum = some q)
    (h : ∀ x ∈ [now - b.startTime, tick, tick - b.latestTick,
        (tick - b.latestTick) * b.quantum, b.avail + (tick - b.latestTick) * b.quantum,
        (b.adjustAvail tick).avail - count, -((b.adjustAvail tick).avail - count),
        -((b.adjustAvail tick).avail - count) + b.quantum,
        -((b.adjustAvail tick).avail - count) + b.quantum - 1, q, tick + q,
        (tick + q) * b.fillInterval, b.startTime + (tick + q) * b.fillInterval - now],
      InInt64 x) :
    Bits64.tryAcquire b now count maxWait = b.tryAcquire now count maxWait := by
  simp only [List.mem_cons, List.mem_singleton, List.not_mem_nil, or_false,
    forall_eq_or_imp, forall_eq] at h
  obtain ⟨h1, h2, h3, h4, h5, h6, h7, h8, h9, h10, h11, h12, h13⟩ := h
  have htq := (goDiv_eq_some_iff.mp ht)
  have hqq := (goDiv_eq_some_iff.mp hq)
  have ht64 : Bits64.currentTick b now = some tick := by
    rw [Bits64.currentTick_eq b now h1 (by rw [← htq.2]; exact h2)]; exact ht
  have hadj : Bits64.adjustAvail b tick = b.adjustAvail tick :=
    Bits64.adjustAvail_eq b tick h3 h4 h5
  have hq64 : goDiv64 (-((b.adjustAvail tick).avail - count) + b.quantum - 1) b.quantum =
      some q := by
    unfold goDiv64
    rw [if_neg hqq.1, ← hqq.2, wrap64_of_InInt64 h10]
  unfold Bits64.tryAcquire memoryBucket.tryAcquire
  by_cases hc : count ≤ 0
  · rw [if_pos hc, if_pos hc]
  rw [if_neg hc, if_neg hc, ht64, ht]
  simp only [Option.bind_eq_bind, Option.some_bind]
  rw [hadj, wrap64_of_InInt64 h6, wrap64_of_InInt64 h7]
  simp only [memoryBucket.adjustAvail_quantum, memoryBucket.adjustAvail_startTime,
    memoryBucket.adjustAvail_fillInterval]
  rw [wrap64_of_InInt64 h8, wrap64_of_InInt64 h9]
  by_cases ha : (b.adjustAvail tick).avail - count ≥ 0
  · rw [if_pos ha, if_pos ha]
  rw [if_neg ha, if_neg ha, hq64, hq]
  simp only [Option.some_bind]
  rw [wrap64_of_InInt64 h11, wrap64_of_InInt64 h12, satDuration_of_InInt64 h13]

/-- C15: with 64-bit arithmetic `tryAcquire(now, count, infinityDuration)` never answers
`ok = false`, for every bucket state, `now` and `count`; and it returns, with `ok = true`,
whenever the fill interval and the quantum are not zero (so on every bucket made by
`create`). -/
theorem tryAcquire_infinityDuration_ok (b : memoryBucket) (now count : Int) :
    (∀ (r : Int × Bool) (b' : memoryBucket),
      Bits64.tryAcquire b now count infinityDuration = some (r, b') → r.2 = true) ∧
    (b.fillInterval ≠ 0 → b.quantum ≠ 0 →
      ∃ (w : Int) (b' : memoryBucket),
        Bits64.tryAcquire b now count infinityDuration = some ((w, true), b')) := by
  have key : (b.fillInterval ≠ 0 → b.quantum ≠ 0 →
        ∃ (w : Int) (b' : memoryBucket),
          Bits64.tryAcquire b now count infinityDuration = some ((w, true), b')) ∧
      (Bits64.tryAcquire b now count infinityDuration = none ∨
        ∃ (w : Int) (b' : memoryBucket),
          Bits64.tryAcquire b now count infinityDuration = some ((w, true), b')) := by
    unfold Bits64.tryAcquire
    by_cases hc : count ≤ 0
    · rw [if_pos hc]
      exact ⟨fun _ _ => ⟨0, b, rfl⟩, Or.inr ⟨0, b, rfl⟩⟩
    rw [if_neg hc]
    cases ht : Bits64.currentTick b now with
    | none =>
      refine ⟨fun hfi _ => ?_, Or.inl rfl⟩
      simp [Bits64.currentTick, goDiv64, hfi] at ht
    | some tick =>
      simp only [Option.bind_eq_bind, Option.some_bind]
      by_cases ha : wrap64 ((Bits64.adjustAvail b tick).avail - count) ≥ 0
      · rw [if_pos ha]
        exact ⟨fun _ _ => ⟨0, _, rfl⟩, Or.inr ⟨0, _, rfl⟩⟩
      rw [if_neg ha]
      cases hq : goDiv64
          (wrap64 (wrap64 (wrap64 (-wrap64 ((Bits64.adjustAvail b tick).avail - count)) +
            (Bits64.adjustAvail b tick).quantum) - 1))
          (Bits64.adjustAvail b tick).quantum with
      | none =>
        refine ⟨fun _ hq0 => ?_, Or.inl rfl⟩
        simp [goDiv64, hq0] at hq
      | some q =>
        simp only [Option.some_bind]
        rw [if_neg (not_lt.mpr (satDuration_le_infinityDuration _))]
        exact ⟨fun _ _ => ⟨_, _, rfl⟩, Or.inr ⟨_, _, rfl⟩⟩
  refine ⟨fun r b' hs => ?_, key.1⟩
  rcases key.2 with h | ⟨w, b2, h⟩
  · rw [h] at hs; simp at hs
  · rw [h] at hs
    simp only [Option.some.injEq, Prod.mk.injEq] at hs
    rw [← hs.1]

/-- Witness of C15: a request whose exact wait `2 ^ 62 * 4` is above every duration still
answers `ok = true`. -/
theorem tryAcquire_infinityDuration_ok_witness :
    (memoryBucket.mk 0 10 1 4 0 0).fillInterval ≠ 0 ∧
    (memoryBucket.mk 0 10 1 4 0 0).quantum ≠ 0 ∧
    ∃ (w : Int) (b' : memoryBucket),
      Bits64.tryAcquire (memoryBucket.mk 0 10 1 4 0 0) 0 (2 ^ 62) infinityDuration =
        some ((w, true), b') :=
  ⟨by decide, by decide,
    (tryAcquire_infinityDuration_ok (memoryBucket.mk 0 10 1 4 0 0) 0 (2 ^ 62)).2
      (by decide) (by decide)⟩

/-! ## The registry -/

/-- C16: when the name is already bound in the registry, `Create` and `CreateWithQuantum`
return the bucket bound to it and leave the registry as it was, whatever fill interval,
capacity and quantum are supplied, valid or not. -/
theorem create_existing_name (s : MemoryStorage) (now : Int) (name : String)
    (fillInterval capacity quantum : Int) (b : memoryBucket)
    (h : s.buckets.lookup name = some b) :
    s.Create now name fillInterval capacity = (.ok b, s) ∧
    s.CreateWithQuantum now name fillInterval capacity quantum = (.ok b, s) := by
  constructor
  · unfold MemoryStorage.Create
    rw [h]
  · unfold MemoryStorage.CreateWithQuantum
    rw [h]

/-- Witness of C16: a second creation under the name "a" with an invalid fill interval,
capacity and quantum hands back the bucket in use. -/
theorem create_existing_name_witness :
    (MemoryStorage.mk [("a", memoryBucket.mk 0 10 1 250 4 3)]).buckets.lookup "a" =
      some (memoryBucket.mk 0 10 1 250 4 3) ∧
    (MemoryStorage.mk [("a", memoryBucket.mk 0 10 1 250 4 3)]).Create 99 "a" 0 (-1) =
      (.ok (memoryBucket.mk 0 10 1 250 4 3),
        MemoryStorage.mk [("a", memoryBucket.mk 0 10 1 250 4 3)]) ∧
    (MemoryStorage.mk [("a", memoryBucket.mk 0 10 1 250 4 3)]).CreateWithQuantum 99 "a" 0 (-1) 0 =
      (.ok (memoryBucket.mk 0 10 1 250 4 3),
        MemoryStorage.mk [("a", memoryBucket.mk 0 10 1 250 4 3)]) :=
  ⟨by decide,
    create_existing_name (MemoryStorage.mk [("a", memoryBucket.mk 0 10 1 250 4 3)]) 99 "a" 0 (-1) 0
      (memoryBucket.mk 0 10 1 250 4 3) (by decide)⟩

/-- What `create` answers: an error exactly for a fill interval, capacity or quantum that is
not positive. -/
theorem create_error_iff (now : Int) (name : String) (fillInterval capacity quantum : Int) :
    (∃ e : String, create now name fillInterval capacity quantum = .error e) ↔
      (fillInterval ≤ 0 ∨ capacity ≤ 0 ∨ quantum ≤ 0) := by
  unfold create
  constructor
  · rintro ⟨e, he⟩
    by_contra hn
    rw [if_neg (by omega), if_neg (by omega), if_neg (by omega)] at he
    cases he
  · intro h
    by_cases h1 : fillInterval ≤ 0
    · exact ⟨_, by rw [if_pos h1]⟩
    · by_cases h2 : capacity ≤ 0
      · exact ⟨_, by rw [if_neg h1, if_pos h2]⟩
      · exact ⟨_, by rw [if_neg h1, if_neg h2, if_pos (by omega)]⟩

/-- C17: for a name that is not bound in the registry, `CreateWithQuantum` panics exactly
when the fill interval, the capacity or the quantum is not positive; after a panic the
registry is as before, the name still unbound; otherwise the bucket returned and bound to
the name carries the supplied values, with `avail = capacity` and `latestTick = 0`. -/
theorem CreateWithQuantum_new_name (s : MemoryStorage) (now : Int) (name : String)
    (fillInterval capacity quantum : Int) (h : s.buckets.lookup name = none) :
    ((∃ e : String, (s.CreateWithQuantum now name fillInterval capacity quantum).1 = .error e) ↔
      (fillInterval ≤ 0 ∨ capacity ≤ 0 ∨ quantum ≤ 0)) ∧
    ((fillInterval ≤ 0 ∨ capacity ≤ 0 ∨ quantum ≤ 0) →
      (s.CreateWithQuantum now name fillInterval capacity quantum).2 = s ∧
      (s.CreateWithQuantum now name fillInterval capacity quantum).2.buckets.lookup name = none) ∧
    (0 < fillInterval → 0 < capacity → 0 < quantum →
      s.CreateWithQuantum now name fillInterval capacity quantum =
        (.ok (memoryBucket.mk now capacity quantum fillInterval capacity 0),
          { buckets :=
              (name, memoryBucket.mk now capacity quantum fillInterval capacity 0) :: s.buckets }) ∧
      (s.CreateWithQuantum now name fillInterval capacity quantum).2.buckets.lookup name =
        some (memoryBucket.mk now capacity quantum fillInterval capacity 0)) := by
  have hok : 0 < fillInterval → 0 < capacity → 0 < quantum →
      s.CreateWithQuantum now name fillInterval capacity quantum =
        (.ok (memoryBucket.mk now capacity quantum fillInterval capacity 0),
          { buckets :=
              (name, memoryBucket.mk now capacity quantum fillInterval capacity 0) ::
                s.buckets }) := by
    intro h1 h2 h3
    unfold MemoryStorage.CreateWithQuantum create
    rw [h, if_neg (by omega), if_neg (by omega), if_neg (by omega)]
  have herr : (fillInterval ≤ 0 ∨ capacity ≤ 0 ∨ quantum ≤ 0) →
      ∃ e : String, s.CreateWithQuantum now name fillInterval capacity quantum = (.error e, s) := by
    intro hbad
    obtain ⟨e, he⟩ := (create_error_iff now name fillInterval capacity quantum).mpr hbad
    refine ⟨e, ?_⟩
    unfold MemoryStorage.CreateWithQuantum
    rw [h, he]
  refine ⟨⟨?_, ?_⟩, ?_, ?_⟩
  · rintro ⟨e, he⟩
    by_contra hn
    rw [hok (by omega) (by omega) (by omega)] at he
    cases he
  · intro hbad
    obtain ⟨e, he⟩ := herr hbad
    exact ⟨e, by rw [he]⟩
  · intro hbad
    obtain ⟨e, he⟩ := herr hbad
    rw [he]
    exact ⟨rfl, h⟩
  · intro h1 h2 h3
    refine ⟨hok h1 h2 h3, ?_⟩
    rw [hok h1 h2 h3]
    simp [List.lookup]

/-- Witness of C17: in the empty registry a zero capacity panics and registers nothing. -/
theorem CreateWithQuantum_new_name_witness :
    NewMemoryStorage.buckets.lookup "a" = none ∧
    ((250 : Int) ≤ 0 ∨ (0 : Int) ≤ 0 ∨ (1 : Int) ≤ 0) ∧
    (NewMemoryStorage.CreateWithQuantum 7 "a" 250 0 1).2 = NewMemoryStorage ∧
    (NewMemoryStorage.CreateWithQuantum 7 "a" 250 0 1).2.buckets.lookup "a" = none :=
  ⟨by decide, by decide,
    (CreateWithQuantum_new_name NewMemoryStorage 7 "a" 250 0 1 (by decide)).2.1 (by decide)⟩

/-! ## The distributed bucket: failed round trips -/

/-- C19: when the round trips answer with an error other than `redis.Nil`, for `count > 0`,
`acquire` returns 0, `available` returns 0 and `tryAcquire` returns `(0, false)`. -/
theorem redis_fault_results (r : redisBucket) (now count maxWait : Int) (e1 e2 e3 : String)
    (hc : 0 < count)
    (h1 : r.Client .luaAcquire r.Key [now, count] = .fault e1)
    (h2 : r.Client .luaAvailable r.Key [now] = .fault e2)
    (h3 : r.Client .luaTryAcquire r.Key [now, count] = .fault e3) :
    r.acquire now count = 0 ∧ r.available now = 0 ∧
      r.tryAcquire now count maxWait = (0, false) := by
  refine ⟨?_, ?_, ?_⟩
  · unfold redisBucket.acquire
    rw [if_neg (by omega), h1]
  · unfold redisBucket.available
    rw [h2]
  · unfold redisBucket.tryAcquire
    rw [if_neg (by omega), h3]

/-- Witness of C19: a client whose every round trip fails. -/
theorem redis_fault_results_witness :
    (0 : Int) < 3 ∧
    (redisBucket.mk "k" (fun _ _ _ => .fault "connection refused")).acquire 5 3 = 0 ∧
    (redisBucket.mk "k" (fun _ _ _ => .fault "connection refused")).available 5 = 0 ∧
    (redisBucket.mk "k" (fun _ _ _ => .fault "connection refused")).tryAcquire 5 3 100 =
      (0, false) :=
  ⟨by decide,
    redis_fault_results (redisBucket.mk "k" (fun _ _ _ => .fault "connection refused")) 5 3 100
      "connection refused" "connection refused" "connection refused" (by decide) rfl rfl rfl⟩

/-- The branch of the client for `redis.Nil`: when the round trips answer `redis.Nil`, for
`count > 0`, `acquire` returns 0,
`available` returns 0 and `tryAcquire` returns `(0, true)`. -/
theorem redis_nil_results (r : redisBucket) (now count maxWait : Int) (hc : 0 < count)
    (h1 : r.Client .luaAcquire r.Key [now, count] = .redisNil)
    (h2 : r.Client .luaAvailable r.Key [now] = .redisNil)
    (h3 : r.Client .luaTryAcquire r.Key [now, count] = .redisNil) :
    r.acquire now count = 0 ∧ r.available now = 0 ∧
      r.tryAcquire now count maxWait = (0, true) := by
  refine ⟨?_, ?_, ?_⟩
  · unfold redisBucket.acquire
    rw [if_neg (by omega), h1]
  · unfold redisBucket.available
    rw [h2]
  · unfold redisBucket.tryAcquire
    rw [if_neg (by omega), h3]

/-! ## The refill adjustment and the tick, as functions -/

/-- Path independence with exact arithmetic (the lemma behind the 64-bit statement): for a
positive quantum and ticks `t1 ≤ t2`, the avail after `adjustAvail(t1)`
followed by `adjustAvail(t2)` is the avail after `adjustAvail(t2)` alone. -/
theorem adjustAvail_path_independent (b : memoryBucket) (t1 t2 : Int) (hq : 0 < b.quantum)
    (h12 : t1 ≤ t2) :
    ((b.adjustAvail t1).adjustAvail t2).avail = (b.adjustAvail t2).avail := by
  by_cases hlt : b.avail < b.capacity
  · rw [memoryBucket.adjustAvail_avail_of_lt b t2 hlt]
    by_cases h1 : (b.adjustAvail t1).avail < (b.adjustAvail t1).capacity
    · rw [memoryBucket.adjustAvail_avail_of_lt _ t2 h1,
        memoryBucket.adjustAvail_latestTick_of_lt b t1 hlt]
      simp only [memoryBucket.adjustAvail_quantum, memoryBucket.adjustAvail_capacity] at h1 ⊢
      rw [memoryBucket.adjustAvail_avail_of_lt b t1 hlt] at h1 ⊢
      have hmin : min (b.avail + (t1 - b.latestTick) * b.quantum) b.capacity =
          b.avail + (t1 - b.latestTick) * b.quantum := by
        rcases min_choice (b.avail + (t1 - b.latestTick) * b.quantum) b.capacity with h | h
        · exact h
        · rw [h] at h1; omega
      rw [hmin]
      congr 1
      ring
    · have hsat : (b.adjustAvail t1).capacity ≤ (b.adjustAvail t1).avail := by omega
      rw [memoryBucket.adjustAvail_of_saturated _ t2 hsat]
      simp only [memoryBucket.adjustAvail_capacity] at hsat
      have hle : (b.adjustAvail t1).avail ≤ b.capacity :=
        memoryBucket.adjustAvail_avail_le b t1 (by omega)
      have heq : (b.adjustAvail t1).avail = b.capacity := by omega
      rw [heq]
      rw [memoryBucket.adjustAvail_avail_of_lt b t1 hlt] at heq
      have h1' : b.capacity ≤ b.avail + (t1 - b.latestTick) * b.quantum := by
        rw [← heq]; exact min_le_left _ _
      have hmono : (t1 - b.latestTick) * b.quantum ≤ (t2 - b.latestTick) * b.quantum := by
        nlinarith
      exact (min_eq_right (by omega)).symm
  · rw [memoryBucket.adjustAvail_of_saturated b t1 (by omega)]

/-! ## The rate bound -/

/-- The refill at a tick not before `latestTick`, with a quantum that is not negative, does
not raise `avail - latestTick * quantum`, keeps an avail that is not negative, and leaves
`latestTick` between its old value and the tick. -/
theorem adjustAvail_potential (b : memoryBucket) (t : Int) (hq : 0 ≤ b.quantum)
    (hl : b.latestTick ≤ t) :
    (b.adjustAvail t).avail - (b.adjustAvail t).latestTick * b.quantum ≤
        b.avail - b.latestTick * b.quantum ∧
    (0 ≤ b.avail → 0 ≤ (b.adjustAvail t).avail) ∧
    b.latestTick ≤ (b.adjustAvail t).latestTick ∧ (b.adjustAvail t).latestTick ≤ t := by
  by_cases hlt : b.avail < b.capacity
  · rw [memoryBucket.adjustAvail_avail_of_lt b t hlt,
      memoryBucket.adjustAvail_latestTick_of_lt b t hlt]
    have hx : 0 ≤ (t - b.latestTick) * b.quantum := mul_nonneg (by omega) hq
    have he : (t - b.latestTick) * b.quantum = t * b.quantum - b.latestTick * b.quantum := by
      ring
    refine ⟨?_, fun h0 => ?_, hl, le_refl _⟩
    · have := min_le_left (b.avail + (t - b.latestTick) * b.quantum) b.capacity
      omega
    · exact le_min (by omega) (by omega)
  · rw [memoryBucket.adjustAvail_of_saturated b t (by omega)]
    exact ⟨le_refl _, fun h => h, le_refl _, hl⟩

/-- The invariant behind the rate bound: along a run of `acquire` calls at times that do
not go backwards, the grants so far plus `avail - latestTick * quantum` never exceed the
value `avail - latestTick * quantum` had at the start of the run. -/
theorem acquireSeq_potential (calls : List (Int × Int)) :
    ∀ (b : memoryBucket) (lo hi : Int), 0 < b.fillInterval → 0 < b.quantum → 0 ≤ b.avail →
      b.startTime ≤ lo → lo ≤ hi →
      b.latestTick ≤ Int.tdiv (lo - b.startTime) b.fillInterval →
      (∀ p ∈ calls, lo ≤ p.1 ∧ p.1 ≤ hi) →
      List.Pairwise (fun x y : Int => x ≤ y) (calls.map Prod.fst) →
      ∃ (total : Int) (b' : memoryBucket),
        acquireSeq b calls = some (total, b') ∧
        total + b'.avail - b'.latestTick * b.quantum ≤ b.avail - b.latestTick * b.quantum ∧
        0 ≤ b'.avail ∧
        b'.latestTick ≤ Int.tdiv (hi - b.startTime) b.fillInterval := by
  induction calls with
  | nil =>
    intro b lo hi hfi hq ha hlo hhi hl _ _
    refine ⟨0, b, rfl, by omega, ha, ?_⟩
    exact le_trans hl (tdiv_le_tdiv_of_le _ _ _ (by omega) (by omega) hfi)
  | cons p rest ih =>
    intro b lo hi hfi hq ha hlo hhi hl hmem hsorted
    obtain ⟨now, c⟩ := p
    have hnow := hmem (now, c) (List.mem_cons_self _ _)
    simp only at hnow
    rw [List.map_cons, List.pairwise_cons] at hsorted
    have hrest : ∀ p ∈ rest, lo ≤ p.1 ∧ p.1 ≤ hi :=
      fun p hp => hmem p (List.mem_cons_of_mem _ hp)
    by_cases hc : c ≤ 0
    · obtain ⟨total, b', h1, h2, h3, h4⟩ := ih b lo hi hfi hq ha hlo hhi hl hrest hsorted.2
      refine ⟨total, b', ?_, h2, h3, h4⟩
      simp [acquireSeq, memoryBucket.acquire, hc, h1]
    · have ht : b.currentTick now = some (Int.tdiv (now - b.startTime) b.fillInterval) :=
        goDiv_of_ne_zero _ _ (by omega)
      have hlt : b.latestTick ≤ Int.tdiv (now - b.startTime) b.fillInterval :=
        le_trans hl (tdiv_le_tdiv_of_le _ _ _ (by omega) (by omega) hfi)
      obtain ⟨g, hg, -, hg0, -, hga, -⟩ := acquire_grant_eq b now c _ (by omega) ht
      obtain ⟨hp1, hp2, hp3, hp4⟩ := adjustAvail_potential b _ (by omega) hlt
      generalize b.adjustAvail (Int.tdiv (now - b.startTime) b.fillInterval) = adj
        at hg hga hp1 hp2 hp3 hp4
      have hadj0 := hp2 ha
      have hga' := hga hadj0
      have hrest' : ∀ p ∈ rest, now ≤ p.1 ∧ p.1 ≤ hi := by
        intro p hp
        exact ⟨hsorted.1 p.1 (List.mem_map_of_mem Prod.fst hp), (hrest p hp).2⟩
      have hcfg : adj.fillInterval = b.fillInterval ∧ adj.quantum = b.quantum ∧
          adj.startTime = b.startTime := by
        have h := acquire_state hg
        rcases h with ⟨h, -⟩ | ⟨tick, -, -, hb⟩
        · omega
        · have h1 := congrArg memoryBucket.fillInterval hb
          have h2 := congrArg memoryBucket.quantum hb
          have h3 := congrArg memoryBucket.startTime hb
          simp only [memoryBucket.adjustAvail_fillInterval, memoryBucket.adjustAvail_quantum,
            memoryBucket.adjustAvail_startTime] at h1 h2 h3
          exact ⟨h1, h2, h3⟩
      obtain ⟨hf, hqq, hst⟩ := hcfg
      obtain ⟨total, b', h1, h2, h3, h4⟩ :=
        ih ({ adj with avail := adj.avail - g } : memoryBucket) now hi
          (by simp only []; omega) (by simp only []; omega) (by simp only []; omega)
          (by simp only []; omega) hnow.2
          (by simp only []; rw [hf, hst]; exact hp4) hrest' hsorted.2
      simp only [] at h2 h4
      rw [hqq] at h2
      rw [hf, hst] at h4
      refine ⟨g + total, b', ?_, by omega, h3, h4⟩
      simp [acquireSeq, hg, h1]

/-- C27: on a bucket just created with a valid configuration, for every run of `acquire`
calls at times `startTime ≤ now_1 ≤ ... ≤ now_n` (the calls of `init` followed by the call
at `nowN`), the run returns and the sum of its grants is at most
`capacity + tick(nowN) * quantum`. -/
theorem acquireSeq_rate_bound (start : Int) (name : String)
    (fillInterval capacity quantum : Int) (init : List (Int × Int)) (nowN cN : Int)
    (hfi : 0 < fillInterval) (hcap : 0 < capacity) (hq : 0 < quantum)
    (hge : ∀ p ∈ init ++ [(nowN, cN)], start ≤ p.1)
    (hsorted : List.Pairwise (fun x y : Int => x ≤ y)
      ((init ++ [(nowN, cN)]).map Prod.fst)) :
    ∃ (b0 b' : memoryBucket) (total tickN : Int),
      create start name fillInterval capacity quantum = .ok b0 ∧
      acquireSeq b0 (init ++ [(nowN, cN)]) = some (total, b') ∧
      b0.currentTick nowN = some tickN ∧
      total ≤ capacity + tickN * quantum := by
  have hcreate : create start name fillInterval capacity quantum =
      .ok (memoryBucket.mk start capacity quantum fillInterval capacity 0) := by
    unfold create
    rw [if_neg (by omega), if_neg (by omega), if_neg (by omega)]
  have hlast : start ≤ nowN := hge (nowN, cN) (by simp)
  have hmem : ∀ p ∈ init ++ [(nowN, cN)], start ≤ p.1 ∧ p.1 ≤ nowN := by
    intro p hp
    refine ⟨hge p hp, ?_⟩
    rw [List.map_append, List.pairwise_append] at hsorted
    rcases List.mem_append.mp hp with h | h
    · exact hsorted.2.2 p.1 (List.mem_map_of_mem Prod.fst h) nowN (by simp)
    · simp only [List.mem_singleton] at h
      rw [h]
  obtain ⟨total, b', h1, h2, h3, h4⟩ :=
    acquireSeq_potential (init ++ [(nowN, cN)])
      (memoryBucket.mk start capacity quantum fillInterval capacity 0) start nowN
      hfi hq (by simp only []; omega) (le_refl _) hlast (by simp) hmem hsorted
  simp only [] at h2 h4
  refine ⟨_, b', total, Int.tdiv (nowN - start) fillInterval, hcreate, h1,
    goDiv_of_ne_zero _ _ (by show fillInterval ≠ 0; omega), ?_⟩
  have hmul : b'.latestTick * quantum ≤ Int.tdiv (nowN - start) fillInterval * quantum :=
    mul_le_mul_of_nonneg_right h4 (by omega)
  omega

/-- Witness of C27: capacity 10, quantum 1, two calls for 10 tokens five ticks after the
start grant 15 in all, which is `10 + 5 * 1`. -/
theorem acquireSeq_rate_bound_witness :
    acquireSeq (memoryBucket.mk 0 10 1 1 10 0) ([(5, 10)] ++ [(5, 10)]) =
      some (15, memoryBucket.mk 0 10 1 1 0 5) ∧
    ∃ (b0 b' : memoryBucket) (total tickN : Int),
      create 0 "b" 1 10 1 = .ok b0 ∧
      acquireSeq b0 ([(5, 10)] ++ [(5, 10)]) = some (total, b') ∧
      b0.currentTick 5 = some tickN ∧
      total ≤ 10 + tickN * 1 :=
  ⟨by decide,
    acquireSeq_rate_bound 0 "b" 1 10 1 [(5, 10)] 5 10 (by decide) (by decide) (by decide)
      (by decide) (by decide)⟩

/-! ## The scripts of the distributed bucket -/

/-- What `luaTryAcquire` stores: always the refilled avail less the count, and the tick as
`latestTick`, whether the new avail is negative or not. -/
theorem luaTryAcquire_stored (s : StoredBucket) (nowTime count : ℚ) :
    (luaTryAcquire s nowTime count).2 =
      { s with
        avail := (lua.adjustAvail (lua.currentTick nowTime s.startTime s.fillInterval)
          s.avail s.capacity s.latestTick s.quantum).1 - count,
        latestTick := (lua.adjustAvail (lua.currentTick nowTime s.startTime s.fillInterval)
          s.avail s.capacity s.latestTick s.quantum).2 } := by
  unfold luaTryAcquire
  simp only []
  split <;> rfl

/-- What `luaTryAcquire` returns when the refilled avail is below the count: the end time
computed with the quotient `(deficit + quantum - 1) / quantum` of Lua numbers. -/
theorem luaTryAcquire_endTime (s : StoredBucket) (nowTime count : ℚ)
    (h : (lua.adjustAvail (lua.currentTick nowTime s.startTime s.fillInterval)
      s.avail s.capacity s.latestTick s.quantum).1 < count) :
    (luaTryAcquire s nowTime count).1 =
      s.startTime +
        (lua.currentTick nowTime s.startTime s.fillInterval +
          (count - (lua.adjustAvail (lua.currentTick nowTime s.startTime s.fillInterval)
            s.avail s.capacity s.latestTick s.quantum).1 + s.quantum - 1) / s.quantum) *
          s.fillInterval := by
  unfold luaTryAcquire
  simp only []
  rw [if_neg (by linarith)]
  simp only [neg_sub]

/-- C21 on the code: with the hash `avail = 0`, capacity 10, quantum 1, fill interval 1000
stored, `tryAcquire(0, 5, 100)` of the distributed bucket computes the wait 5000 and returns
`(0, false)`, but the script has stored `avail = -5`, where the refill alone gives 0; the
in-process bucket in the same state rejects and keeps `avail = 0`. -/
theorem redis_tryAcquire_rejected_commits :
    (redisBucket.mk "k" (scriptClient (StoredBucket.mk 0 1000 10 1 0 0))).tryAcquire 0 5 100 =
      (0, false) ∧
    (luaTryAcquire (StoredBucket.mk 0 1000 10 1 0 0) 0 5).1 = 5000 ∧
    (lua.adjustAvail (lua.currentTick 0 0 1000) 0 10 0 1).1 = 0 ∧
    (luaTryAcquire (StoredBucket.mk 0 1000 10 1 0 0) 0 5).2 = StoredBucket.mk 0 1000 10 1 (-5) 0 ∧
    (memoryBucket.mk 0 10 1 1000 0 0).tryAcquire 0 5 100 =
      some ((0, false), memoryBucket.mk 0 10 1 1000 0 0) := by
  have htick : lua.currentTick 0 0 1000 = 0 := by norm_num [lua.currentTick]
  have hadj : lua.adjustAvail 0 0 10 0 1 = (0, 0) := by norm_num [lua.adjustAvail]
  have hval : (luaTryAcquire (StoredBucket.mk 0 1000 10 1 0 0) 0 5).1 = 5000 := by
    rw [luaTryAcquire_endTime _ _ _ (by simp only []; rw [htick, hadj]; norm_num)]
    simp only []
    rw [htick, hadj]
    norm_num
  refine ⟨?_, hval, by rw [htick, hadj], ?_, by decide⟩
  · unfold redisBucket.tryAcquire
    rw [if_neg (by norm_num)]
    simp only [scriptClient]
    simp only [Int.cast_zero, Int.cast_ofNat, hval, luaReply]
    norm_num
  · rw [luaTryAcquire_stored]
    simp only []
    rw [htick, hadj]
    norm_num

/-- C26 on the code: with quantum 2, stored avail 0 and fill interval 1000, the script
`luaTryAcquire` asked for 2 tokens at the start returns the end time 1500, that is one and a
half ticks, where the ceiling division of the claim gives `0 + (0 + ⌈2 / 2⌉) * 1000 = 1000`;
the client returns the wait 1500, the in-process bucket in the same state the wait 1000. -/
theorem luaTryAcquire_endTick_not_ceiling :
    lua.currentTick 0 0 1000 = 0 ∧
    (lua.adjustAvail 0 0 10 0 2).1 = 0 ∧
    (luaTryAcquire (StoredBucket.mk 0 1000 10 2 0 0) 0 2).1 = 0 + (0 + 3 / 2) * 1000 ∧
    (luaTryAcquire (StoredBucket.mk 0 1000 10 2 0 0) 0 2).1 = 1500 ∧
    (0 : ℚ) + (0 + ((⌈((2 - 0 : ℚ)) / 2⌉ : Int) : ℚ)) * 1000 = 1000 ∧
    (redisBucket.mk "k" (scriptClient (StoredBucket.mk 0 1000 10 2 0 0))).tryAcquire 0 2
      infinityDuration = (1500, true) ∧
    (memoryBucket.mk 0 10 2 1000 0 0).tryAcquire 0 2 infinityDuration =
      some ((1000, true), memoryBucket.mk 0 10 2 1000 (-2) 0) := by
  have htick : lua.currentTick 0 0 1000 = 0 := by norm_num [lua.currentTick]
  have hadj : lua.adjustAvail 0 0 10 0 2 = (0, 0) := by norm_num [lua.adjustAvail]
  have hval : (luaTryAcquire (StoredBucket.mk 0 1000 10 2 0 0) 0 2).1 = 1500 := by
    rw [luaTryAcquire_endTime _ _ _ (by simp only []; rw [htick, hadj]; norm_num)]
    simp only []
    rw [htick, hadj]
    norm_num
  refine ⟨htick, by rw [hadj], ?_, hval, by norm_num, ?_, by decide⟩
  · rw [hval]; norm_num
  · unfold redisBucket.tryAcquire
    rw [if_neg (by norm_num)]
    simp only [scriptClient]
    simp only [Int.cast_zero, Int.cast_ofNat, hval, luaReply]
    norm_num [infinityDuration]

/-- The script's tick is the in-process tick of the time 500 later, when that time is not
before the start. -/
theorem lua_currentTick_eq_tdiv (b : memoryBucket) (now : Int) (hfi : 0 < b.fillInterval)
    (hnow : b.startTime ≤ now + 500) :
    lua.currentTick (now : ℚ) (b.startTime : ℚ) (b.fillInterval : ℚ) =
      ((Int.tdiv (now + 500 - b.startTime) b.fillInterval : Int) : ℚ) := by
  unfold lua.currentTick
  rw [tdiv_eq_floor _ _ (by omega) hfi]
  congr 3
  push_cast
  ring

/-- The refill step of the scripts without rounding (the lemma behind the statement with
doubles): for stored integer fields with `fillInterval > 0` and
`now + 500 ≥ startTime`, the script's `currentTick(now)` is `memoryBucket.currentTick` at
`now + 500`; and for every tick, when `avail < capacity` the script's `adjustAvail` yields
the avail and the `latestTick` of `memoryBucket.adjustAvail`, and when `avail ≥ capacity`,
`tick ≥ latestTick` and `quantum ≥ 0` it yields the same avail. -/
theorem lua_refill_eq_memory_refill (b : memoryBucket) (now : Int)
    (hfi : 0 < b.fillInterval) (hnow : b.startTime ≤ now + 500) :
    (∃ tick : Int, b.currentTick (now + 500) = some tick ∧
      lua.currentTick (now : ℚ) (b.startTime : ℚ) (b.fillInterval : ℚ) = (tick : ℚ)) ∧
    ∀ t : Int,
      (b.avail < b.capacity →
        lua.adjustAvail (t : ℚ) (b.avail : ℚ) (b.capacity : ℚ) (b.latestTick : ℚ)
            (b.quantum : ℚ) =
          (((b.adjustAvail t).avail : ℚ), ((b.adjustAvail t).latestTick : ℚ))) ∧
      (b.capacity ≤ b.avail → b.latestTick ≤ t → 0 ≤ b.quantum →
        (lua.adjustAvail (t : ℚ) (b.avail : ℚ) (b.capacity : ℚ) (b.latestTick : ℚ)
            (b.quantum : ℚ)).1 = ((b.adjustAvail t).avail : ℚ)) := by
  refine ⟨⟨_, goDiv_of_ne_zero _ _ (by omega), lua_currentTick_eq_tdiv b now hfi hnow⟩,
    fun t => ⟨fun hlt => ?_, fun hge hl hq => ?_⟩⟩
  · have hnot : ¬ ((b.avail : ℚ) > (b.capacity : ℚ)) := by
      have : (b.avail : ℚ) < (b.capacity : ℚ) := by exact_mod_cast hlt
      linarith
    unfold lua.adjustAvail
    rw [if_neg hnot, memoryBucket.adjustAvail_avail_of_lt b t hlt,
      memoryBucket.adjustAvail_latestTick_of_lt b t hlt]
    simp only []
    by_cases h : b.avail + (t - b.latestTick) * b.quantum > b.capacity
    · have hc : (b.avail : ℚ) + ((t : ℚ) - (b.latestTick : ℚ)) * (b.quantum : ℚ) >
          (b.capacity : ℚ) := by exact_mod_cast h
      rw [if_pos hc, min_eq_right (by omega)]
    · have hc : ¬ ((b.avail : ℚ) + ((t : ℚ) - (b.latestTick : ℚ)) * (b.quantum : ℚ) >
          (b.capacity : ℚ)) := by
        intro hh
        exact h (by exact_mod_cast hh)
      rw [if_neg hc, min_eq_left (by omega)]
      push_cast
      rfl
  · rw [memoryBucket.adjustAvail_of_saturated b t hge]
    unfold lua.adjustAvail
    by_cases hgt : (b.avail : ℚ) > (b.capacity : ℚ)
    · rw [if_pos hgt]
    · rw [if_neg hgt]
      simp only []
      have heq : b.avail = b.capacity := by
        have : (b.avail : ℚ) ≤ (b.capacity : ℚ) := not_lt.mp hgt
        have : b.avail ≤ b.capacity := by exact_mod_cast this
        omega
      have hx : (0 : ℚ) ≤ ((t : ℚ) - (b.latestTick : ℚ)) * (b.quantum : ℚ) := by
        apply mul_nonneg
        · have : (b.latestTick : ℚ) ≤ (t : ℚ) := by exact_mod_cast hl
          linarith
        · exact_mod_cast hq
      rw [heq]
      split
      · rfl
      · rename_i hn
        have := not_lt.mp hn
        linarith

/-! ## The in-process bucket with 64-bit arithmetic

The statements of this section are about the functions of the namespace `Bits64`, in which
every `int64` operation wraps around and `Time.Sub` saturates. A hypothesis `InInt64 x` says
that the operation whose exact result is `x` does not overflow. -/

theorem wrap64_InInt64 (x : Int) : InInt64 (wrap64 x) := by
  unfold InInt64 wrap64
  omega

theorem wrap64_le_self {x : Int} (h : 0 ≤ x) : wrap64 x ≤ x := by
  unfold wrap64
  omega

theorem wrap64_le_of_ge {x : Int} (h : -(2 ^ 63) ≤ x) : wrap64 x ≤ x := by
  unfold wrap64
  omega

@[simp] theorem Bits64.adjustAvail64_capacity (b : memoryBucket) (t : Int) :
    (Bits64.adjustAvail b t).capacity = b.capacity := by
  unfold Bits64.adjustAvail; split <;> rfl

@[simp] theorem Bits64.adjustAvail64_startTime (b : memoryBucket) (t : Int) :
    (Bits64.adjustAvail b t).startTime = b.startTime := by
  unfold Bits64.adjustAvail; split <;> rfl

@[simp] theorem Bits64.adjustAvail64_fillInterval (b : memoryBucket) (t : Int) :
    (Bits64.adjustAvail b t).fillInterval = b.fillInterval := by
  unfold Bits64.adjustAvail; split <;> rfl

theorem Bits64.adjustAvail64_of_saturated (b : memoryBucket) (t : Int)
    (h : b.capacity ≤ b.avail) : Bits64.adjustAvail b t = b := by
  unfold Bits64.adjustAvail; simp [h]

/-- The 64-bit refill never leaves an avail above the capacity when it found one that is at
most the capacity, overflow or not: the clamp comes after the sum. -/
theorem Bits64.adjustAvail64_avail_le (b : memoryBucket) (t : Int) (h : b.avail ≤ b.capacity) :
    (Bits64.adjustAvail b t).avail ≤ b.capacity := by
  unfold Bits64.adjustAvail
  split
  · exact h
  · simp only []
    split
    · exact le_refl _
    · omega

/-- The 64-bit `adjustAvail` is the exact one when the bucket is full or the refill does not
overflow. -/
theorem Bits64.adjustAvail_eq_of (b : memoryBucket) (tick : Int)
    (h : b.avail < b.capacity →
      InInt64 (tick - b.latestTick) ∧ InInt64 ((tick - b.latestTick) * b.quantum) ∧
        InInt64 (b.avail + (tick - b.latestTick) * b.quantum)) :
    Bits64.adjustAvail b tick = b.adjustAvail tick := by
  by_cases hlt : b.avail < b.capacity
  · obtain ⟨h1, h2, h3⟩ := h hlt
    exact Bits64.adjustAvail_eq b tick h1 h2 h3
  · rw [Bits64.adjustAvail64_of_saturated b tick (by omega),
      memoryBucket.adjustAvail_of_saturated b tick (by omega)]

/-- C23 (amended): `adjustAvail(tick)` leaves the state as it is when `avail ≥ capacity`;
otherwise, when the difference `tick - latestTick`, its product with the quantum and the
sum with avail do not overflow, it sets avail to
`min (avail + (tick - latestTick) * quantum) capacity`, whatever the sign of avail, and
`latestTick` to `tick`. -/
theorem adjustAvail64_refill (b : memoryBucket) (tick : Int) :
    (b.capacity ≤ b.avail → Bits64.adjustAvail b tick = b) ∧
    (b.avail < b.capacity → InInt64 (tick - b.latestTick) →
      InInt64 ((tick - b.latestTick) * b.quantum) →
      InInt64 (b.avail + (tick - b.latestTick) * b.quantum) →
      Bits64.adjustAvail b tick =
        { b with avail := min (b.avail + (tick - b.latestTick) * b.quantum) b.capacity,
                 latestTick := tick }) := by
  refine ⟨Bits64.adjustAvail64_of_saturated b tick, fun hlt h1 h2 h3 => ?_⟩
  rw [Bits64.adjustAvail_eq b tick h1 h2 h3]
  exact adjustAvail_eq_of_lt b tick hlt

/-- Witness of C23 (amended): a bucket owing 3 tokens, refilled 5 ticks later with
quantum 2. -/
theorem adjustAvail64_refill_witness :
    (memoryBucket.mk 0 10 2 1 (-3) 4).avail < (memoryBucket.mk 0 10 2 1 (-3) 4).capacity ∧
    InInt64 (9 - (memoryBucket.mk 0 10 2 1 (-3) 4).latestTick) ∧
    InInt64 ((9 - (memoryBucket.mk 0 10 2 1 (-3) 4).latestTick) *
      (memoryBucket.mk 0 10 2 1 (-3) 4).quantum) ∧
    InInt64 ((memoryBucket.mk 0 10 2 1 (-3) 4).avail +
      (9 - (memoryBucket.mk 0 10 2 1 (-3) 4).latestTick) *
        (memoryBucket.mk 0 10 2 1 (-3) 4).quantum) ∧
    Bits64.adjustAvail (memoryBucket.mk 0 10 2 1 (-3) 4) 9 =
      { memoryBucket.mk 0 10 2 1 (-3) 4 with
        avail := min ((memoryBucket.mk 0 10 2 1 (-3) 4).avail +
          (9 - (memoryBucket.mk 0 10 2 1 (-3) 4).latestTick) *
            (memoryBucket.mk 0 10 2 1 (-3) 4).quantum)
          (memoryBucket.mk 0 10 2 1 (-3) 4).capacity,
        latestTick := 9 } ∧
    Bits64.adjustAvail (memoryBucket.mk 0 10 2 1 (-3) 4) 9 = memoryBucket.mk 0 10 2 1 7 9 :=
  ⟨by decide, by decide, by decide, by decide,
    (adjustAvail64_refill (memoryBucket.mk 0 10 2 1 (-3) 4) 9).2 (by decide) (by decide)
      (by decide) (by decide),
    by decide⟩

/-- C23 as stated fails: with quantum `2 ^ 62`, avail 5 of capacity 10 and `latestTick` 0,
the refill at tick 4 multiplies to `2 ^ 64`, which an `int64` holds as 0, so avail stays 5,
where `min (5 + 4 * 2 ^ 62) 10` is 10. -/
theorem adjustAvail64_product_wraps :
    Bits64.adjustAvail (memoryBucket.mk 0 10 (2 ^ 62) 1 5 0) 4 =
      memoryBucket.mk 0 10 (2 ^ 62) 1 5 4 ∧
    min ((5 : Int) + (4 - 0) * 2 ^ 62) 10 = 10 ∧
    (5 : Int) ≠ 10 := by
  refine ⟨?_, ?_, ?_⟩ <;> decide

/-- The 64-bit tick of a time not before the start whose distance from the start is a
duration, for a positive fill interval: the truncated quotient, without saturation. -/
theorem Bits64.currentTick_of_nonneg (b : memoryBucket) (now : Int)
    (hnow : b.startTime ≤ now) (hfi : 0 < b.fillInterval)
    (hr : now - b.startTime ≤ 2 ^ 63 - 1) :
    Bits64.currentTick b now = some (Int.tdiv (now - b.startTime) b.fillInterval) ∧
    0 ≤ Int.tdiv (now - b.startTime) b.fillInterval ∧
    Int.tdiv (now - b.startTime) b.fillInterval ≤ now - b.startTime := by
  have h0 : 0 ≤ Int.tdiv (now - b.startTime) b.fillInterval := by
    rw [Int.tdiv_eq_ediv (by omega) (by omega)]
    exact Int.ediv_nonneg (by omega) (by omega)
  have hle : Int.tdiv (now - b.startTime) b.fillInterval ≤ now - b.startTime := by
    rw [Int.tdiv_eq_ediv (by omega) (by omega)]
    exact Int.ediv_le_self _ (by omega)
  refine ⟨?_, h0, hle⟩
  have h1 : InInt64 (now - b.startTime) := ⟨by omega, hr⟩
  have h2 : InInt64 (Int.tdiv (now - b.startTime) b.fillInterval) := ⟨by omega, by omega⟩
  rw [Bits64.currentTick_eq b now h1 h2]
  exact goDiv_of_ne_zero _ _ (by omega)

/-- C24 (amended): for `now ≥ startTime`, `fillInterval > 0` and an elapsed time
`now - startTime` that a duration can hold (at most `2 ^ 63 - 1`), `currentTick(now)`
returns `⌊(now - startTime) / fillInterval⌋`, which is not negative. -/
theorem currentTick64_eq_floor (b : memoryBucket) (now : Int) (hnow : b.startTime ≤ now)
    (hfi : 0 < b.fillInterval) (hr : now - b.startTime ≤ 2 ^ 63 - 1) :
    Bits64.currentTick b now =
      some ⌊((now - b.startTime : Int) : ℚ) / (b.fillInterval : ℚ)⌋ ∧
    0 ≤ ⌊((now - b.startTime : Int) : ℚ) / (b.fillInterval : ℚ)⌋ := by
  obtain ⟨h1, h2, -⟩ := Bits64.currentTick_of_nonneg b now hnow hfi hr
  rw [← tdiv_eq_floor (now - b.startTime) b.fillInterval (by omega) hfi]
  exact ⟨h1, h2⟩

/-- Witness of C24 (amended): 7 time units after the start with fill interval 3. -/
theorem currentTick64_eq_floor_witness :
    (memoryBucket.mk 100 10 1 3 10 0).startTime ≤ 107 ∧
    0 < (memoryBucket.mk 100 10 1 3 10 0).fillInterval ∧
    107 - (memoryBucket.mk 100 10 1 3 10 0).startTime ≤ 2 ^ 63 - 1 ∧
    Bits64.currentTick (memoryBucket.mk 100 10 1 3 10 0) 107 = some 2 ∧
    Bits64.currentTick (memoryBucket.mk 100 10 1 3 10 0) 107 =
      some ⌊((107 - (memoryBucket.mk 100 10 1 3 10 0).startTime : Int) : ℚ) /
        ((memoryBucket.mk 100 10 1 3 10 0).fillInterval : ℚ)⌋ :=
  ⟨by decide, by decide, by decide, by decide,
    (currentTick64_eq_floor (memoryBucket.mk 100 10 1 3 10 0) 107 (by decide) (by decide)
      (by decide)).1⟩

/-- C24 as stated fails: with the start at `-(2 ^ 62)`, `now = 2 ^ 62 + 2 ^ 61` and fill
interval 3 the elapsed time `2 ^ 63 + 2 ^ 61` is more than a duration holds, `Time.Sub`
answers `2 ^ 63 - 1`, and the tick is `3074457345618258602` where the floor of the exact
quotient is `3843071682022823253`. -/
theorem currentTick64_saturates :
    (memoryBucket.mk (-(2 ^ 62)) 10 1 3 10 0).startTime ≤ 2 ^ 62 + 2 ^ 61 ∧
    0 < (memoryBucket.mk (-(2 ^ 62)) 10 1 3 10 0).fillInterval ∧
    Bits64.currentTick (memoryBucket.mk (-(2 ^ 62)) 10 1 3 10 0) (2 ^ 62 + 2 ^ 61) =
      some 3074457345618258602 ∧
    ⌊((2 ^ 62 + 2 ^ 61 - (memoryBucket.mk (-(2 ^ 62)) 10 1 3 10 0).startTime : Int) : ℚ) /
      ((memoryBucket.mk (-(2 ^ 62)) 10 1 3 10 0).fillInterval : ℚ)⌋ = 3843071682022823253 ∧
    (3074457345618258602 : Int) ≠ 3843071682022823253 := by
  refine ⟨by decide, by decide, by decide, ?_, by decide⟩
  rw [← tdiv_eq_floor _ _ (by decide) (by decide)]
  decide

/-- C28 (amended): for a positive quantum and ticks `t1 ≤ t2`, when none of the refills
overflows (the tick differences, their products with the quantum and the sums with avail
are `int64` values), the avail after `adjustAvail(t1)` followed by `adjustAvail(t2)` is the
avail after `adjustAvail(t2)` alone. -/
theorem adjustAvail64_path_independent (b : memoryBucket) (t1 t2 : Int) (hq : 0 < b.quantum)
    (h12 : t1 ≤ t2)
    (h : ∀ x ∈ [t1 - b.latestTick, (t1 - b.latestTick) * b.quantum,
        b.avail + (t1 - b.latestTick) * b.quantum, t2 - b.latestTick,
        (t2 - b.latestTick) * b.quantum, b.avail + (t2 - b.latestTick) * b.quantum,
        t2 - t1, (t2 - t1) * b.quantum], InInt64 x) :
    (Bits64.adjustAvail (Bits64.adjustAvail b t1) t2).avail = (Bits64.adjustAvail b t2).avail := by
  simp only [List.mem_cons, List.mem_singleton, List.not_mem_nil, or_false,
    forall_eq_or_imp, forall_eq] at h
  obtain ⟨h1, h2, h3, h4, h5, h6, h7, h8⟩ := h
  rw [Bits64.adjustAvail_eq_of b t1 (fun _ => ⟨h1, h2, h3⟩),
    Bits64.adjustAvail_eq_of b t2 (fun _ => ⟨h4, h5, h6⟩)]
  rw [Bits64.adjustAvail_eq_of (b.adjustAvail t1) t2]
  · exact adjustAvail_path_independent b t1 t2 hq h12
  · intro hlt1
    simp only [memoryBucket.adjustAvail_capacity, memoryBucket.adjustAvail_quantum] at hlt1 ⊢
    have hlt : b.avail < b.capacity := by
      by_contra hge
      rw [memoryBucket.adjustAvail_of_saturated b t1 (by omega)] at hlt1
      omega
    rw [memoryBucket.adjustAvail_avail_of_lt b t1 hlt] at hlt1 ⊢
    rw [memoryBucket.adjustAvail_latestTick_of_lt b t1 hlt]
    have hmin : min (b.avail + (t1 - b.latestTick) * b.quantum) b.capacity =
        b.avail + (t1 - b.latestTick) * b.quantum := by
      rcases min_choice (b.avail + (t1 - b.latestTick) * b.quantum) b.capacity with hm | hm
      · exact hm
      · rw [hm] at hlt1; omega
    rw [hmin]
    refine ⟨h7, h8, ?_⟩
    have he : b.avail + (t1 - b.latestTick) * b.quantum + (t2 - t1) * b.quantum =
        b.avail + (t2 - b.latestTick) * b.quantum := by ring
    rw [he]
    exact h6

/-- Witness of C28 (amended): a bucket holding 1 of 10 tokens refilled at tick 3 and then at
tick 20, or at tick 20 at once. -/
theorem adjustAvail64_path_independent_witness :
    0 < (memoryBucket.mk 0 10 2 1 1 0).quantum ∧ (3 : Int) ≤ 20 ∧
    (Bits64.adjustAvail (Bits64.adjustAvail (memoryBucket.mk 0 10 2 1 1 0) 3) 20).avail =
      (Bits64.adjustAvail (memoryBucket.mk 0 10 2 1 1 0) 20).avail :=
  ⟨by decide, by decide,
    adjustAvail64_path_independent (memoryBucket.mk 0 10 2 1 1 0) 3 20 (by decide) (by decide)
      (by decide)⟩

/-- C28 as stated fails: with quantum `2 ^ 62`, avail 5 of capacity 10, the refill at tick 1
fills the bucket and the refill at tick 4 leaves it full, avail 10; the refill at tick 4
alone multiplies to `2 ^ 64`, which an `int64` holds as 0, and leaves avail 5. -/
theorem adjustAvail64_path_dependent :
    0 < (memoryBucket.mk 0 10 (2 ^ 62) 1 5 0).quantum ∧ (1 : Int) ≤ 4 ∧
    (Bits64.adjustAvail (Bits64.adjustAvail (memoryBucket.mk 0 10 (2 ^ 62) 1 5 0) 1) 4).avail =
      10 ∧
    (Bits64.adjustAvail (memoryBucket.mk 0 10 (2 ^ 62) 1 5 0) 4).avail = 5 ∧
    (10 : Int) ≠ 5 := by
  refine ⟨?_, ?_, ?_, ?_, ?_⟩ <;> decide

theorem Bits64.available_of_tick64 (b : memoryBucket) (now tick : Int)
    (ht : Bits64.currentTick b now = some tick) :
    Bits64.available b now =
      some ((Bits64.adjustAvail b tick).avail, Bits64.adjustAvail b tick) := by
  unfold Bits64.available
  rw [ht]
  rfl

theorem Bits64.available_eq_some64 {b b1 : memoryBucket} {now a : Int}
    (h : Bits64.available b now = some (a, b1)) :
    ∃ tick : Int, Bits64.currentTick b now = some tick ∧ b1 = Bits64.adjustAvail b tick ∧
      a = b1.avail := by
  cases ht : Bits64.currentTick b now with
  | none => simp [Bits64.available, ht] at h
  | some tick =>
    rw [Bits64.available_of_tick64 b now tick ht] at h
    simp only [Option.some.injEq, Prod.mk.injEq] at h
    exact ⟨tick, rfl, h.2.symm, by rw [← h.2]; exact h.1.symm⟩

/-- The state a returning 64-bit `acquire` leaves. -/
theorem Bits64.acquire_state64 {b b' : memoryBucket} {now count g : Int}
    (hs : Bits64.acquire b now count = some (g, b')) :
    (count ≤ 0 ∧ b' = b) ∨
    ∃ tick : Int, Bits64.currentTick b now = some tick ∧
      (b' = Bits64.adjustAvail b tick ∨
        ∃ c : Int, 0 < c ∧ c ≤ (Bits64.adjustAvail b tick).avail ∧
          b' = { Bits64.adjustAvail b tick with
                 avail := wrap64 ((Bits64.adjustAvail b tick).avail - c) }) := by
  unfold Bits64.acquire at hs
  by_cases hc : count ≤ 0
  · rw [if_pos hc] at hs
    simp only [Option.some.injEq, Prod.mk.injEq] at hs
    exact Or.inl ⟨hc, hs.2.symm⟩
  · right
    rw [if_neg hc] at hs
    cases ht : Bits64.currentTick b now with
    | none => rw [ht] at hs; simp at hs
    | some tick =>
      rw [ht] at hs
      simp only [Option.bind_eq_bind, Option.some_bind] at hs
      refine ⟨tick, rfl, ?_⟩
      by_cases ha : (Bits64.adjustAvail b tick).avail ≤ 0
      · rw [if_pos ha] at hs
        simp only [Option.some.injEq, Prod.mk.injEq] at hs
        exact Or.inl hs.2.symm
      · rw [if_neg ha] at hs
        simp only [Option.some.injEq, Prod.mk.injEq] at hs
        right
        by_cases hgt : count > (Bits64.adjustAvail b tick).avail
        · rw [if_pos hgt] at hs
          exact ⟨_, by omega, le_refl _, hs.2.symm⟩
        · rw [if_neg hgt] at hs
          exact ⟨count, by omega, by omega, hs.2.symm⟩

/-- The state a returning 64-bit `tryAcquire` leaves. -/
theorem Bits64.tryAcquire_state64 {b b' : memoryBucket} {now count maxWait : Int}
    {r : Int × Bool} (hs : Bits64.tryAcquire b now count maxWait = some (r, b')) :
    (count ≤ 0 ∧ b' = b) ∨
    ∃ tick : Int, Bits64.currentTick b now = some tick ∧ 0 < count ∧
      (b' = Bits64.adjustAvail b tick ∨
        b' = { Bits64.adjustAvail b tick with
               avail := wrap64 ((Bits64.adjustAvail b tick).avail - count) }) := by
  unfold Bits64.tryAcquire at hs
  by_cases hc : count ≤ 0
  · rw [if_pos hc] at hs
    simp only [Option.some.injEq, Prod.mk.injEq] at hs
    exact Or.inl ⟨hc, hs.2.symm⟩
  · right
    rw [if_neg hc] at hs
    cases ht : Bits64.currentTick b now with
    | none => rw [ht] at hs; simp at hs
    | some tick =>
      rw [ht] at hs
      simp only [Option.bind_eq_bind, Option.some_bind] at hs
      refine ⟨tick, rfl, by omega, ?_⟩
      by_cases ha : wrap64 ((Bits64.adjustAvail b tick).avail - count) ≥ 0
      · rw [if_pos ha] at hs
        simp only [Option.some.injEq, Prod.mk.injEq] at hs
        exact Or.inr hs.2.symm
      · rw [if_neg ha] at hs
        cases hq : goDiv64
            (wrap64 (wrap64 (wrap64 (-wrap64 ((Bits64.adjustAvail b tick).avail - count)) +
              (Bits64.adjustAvail b tick).quantum) - 1))
            (Bits64.adjustAvail b tick).quantum with
        | none => rw [hq] at hs; simp at hs
        | some q =>
          rw [hq] at hs
          simp only [Option.some_bind] at hs
          split at hs
          · simp only [Option.some.injEq, Prod.mk.injEq] at hs
            exact Or.inl hs.2.symm
          · simp only [Option.some.injEq, Prod.mk.injEq] at hs
            exact Or.inr hs.2.symm

/-- C13 (amended): `avail ≤ capacity` holds for the state `create` returns and is preserved
by every returning call of `acquire` and `available`, whatever the arguments, and by every
returning call of `tryAcquire` in which the subtraction of the count from the refilled
avail does not go below the least `int64`. -/
theorem avail_le_capacity64_invariant :
    (∀ (now : Int) (name : String) (fillInterval capacity quantum : Int) (b : memoryBucket),
      create now name fillInterval capacity quantum = .ok b → b.avail ≤ b.capacity) ∧
    (∀ (b b' : memoryBucket) (now count g : Int), b.avail ≤ b.capacity →
      Bits64.acquire b now count = some (g, b') → b'.avail ≤ b'.capacity) ∧
    (∀ (b b' : memoryBucket) (now count maxWait : Int) (r : Int × Bool),
      b.avail ≤ b.capacity →
      (∀ tick : Int, Bits64.currentTick b now = some tick →
        -(2 ^ 63) ≤ (Bits64.adjustAvail b tick).avail - count) →
      Bits64.tryAcquire b now count maxWait = some (r, b') → b'.avail ≤ b'.capacity) ∧
    (∀ (b b' : memoryBucket) (now a : Int), b.avail ≤ b.capacity →
      Bits64.available b now = some (a, b') → b'.avail ≤ b'.capacity) := by
  refine ⟨?_, ?_, ?_, ?_⟩
  · intro now name fillInterval capacity quantum b hc
    obtain ⟨-, -, -, hb⟩ := create_eq_ok hc
    rw [hb]
  · intro b b' now count g h hs
    rcases Bits64.acquire_state64 hs with ⟨-, hb⟩ | ⟨tick, -, hb | ⟨c, hc0, hca, hb⟩⟩
    · rw [hb]; exact h
    · rw [hb, Bits64.adjustAvail64_capacity]; exact Bits64.adjustAvail64_avail_le b tick h
    · have hle := Bits64.adjustAvail64_avail_le b tick h
      have hw := wrap64_le_self (show 0 ≤ (Bits64.adjustAvail b tick).avail - c by omega)
      rw [hb]
      simp only [Bits64.adjustAvail64_capacity]
      omega
  · intro b b' now count maxWait r h hno hs
    rcases Bits64.tryAcquire_state64 hs with ⟨-, hb⟩ | ⟨tick, ht, hc, hb | hb⟩
    · rw [hb]; exact h
    · rw [hb, Bits64.adjustAvail64_capacity]; exact Bits64.adjustAvail64_avail_le b tick h
    · have hle := Bits64.adjustAvail64_avail_le b tick h
      have hw := wrap64_le_of_ge (hno tick ht)
      rw [hb]
      simp only [Bits64.adjustAvail64_capacity]
      omega
  · intro b b' now a h hs
    obtain ⟨tick, -, hb, -⟩ := Bits64.available_eq_some64 hs
    rw [hb, Bits64.adjustAvail64_capacity]
    exact Bits64.adjustAvail64_avail_le b tick h

set_option maxRecDepth 8192 in
/-- Witness of C13 (amended): a reservation of 4 tokens on a bucket holding 3 of 10, two
ticks late. -/
theorem avail_le_capacity64_invariant_witness :
    (memoryBucket.mk 0 10 1 1 3 0).avail ≤ (memoryBucket.mk 0 10 1 1 3 0).capacity ∧
    Bits64.tryAcquire (memoryBucket.mk 0 10 1 1 3 0) 2 4 infinityDuration =
      some ((0, true), memoryBucket.mk 0 10 1 1 1 2) ∧
    (memoryBucket.mk 0 10 1 1 1 2).avail ≤ (memoryBucket.mk 0 10 1 1 1 2).capacity :=
  ⟨by decide, by decide,
    avail_le_capacity64_invariant.2.2.1 (memoryBucket.mk 0 10 1 1 3 0)
      (memoryBucket.mk 0 10 1 1 1 2) 2 4 infinityDuration (0, true) (by decide)
      (fun tick ht => by
        have h2 : Bits64.currentTick (memoryBucket.mk 0 10 1 1 3 0) 2 = some 2 := by decide
        rw [h2] at ht
        simp only [Option.some.injEq] at ht
        rw [← ht]
        decide)
      (by decide)⟩

set_option maxRecDepth 8192 in
/-- C13 as stated fails: on the state with avail `-2` left by a reservation of 12 tokens
from a fresh bucket of capacity 10, `tryAcquire` with the count `2 ^ 63 - 1` subtracts to
`-(2 ^ 63) - 1`, which an `int64` holds as `2 ^ 63 - 1`; the call answers `(0, true)` and
stores that avail, far above the capacity. -/
theorem tryAcquire64_avail_above_capacity :
    create 0 "b" 1 10 1 = .ok (memoryBucket.mk 0 10 1 1 10 0) ∧
    Bits64.tryAcquire (memoryBucket.mk 0 10 1 1 10 0) 0 12 infinityDuration =
      some ((2, true), memoryBucket.mk 0 10 1 1 (-2) 0) ∧
    (memoryBucket.mk 0 10 1 1 (-2) 0).avail ≤ (memoryBucket.mk 0 10 1 1 (-2) 0).capacity ∧
    Bits64.tryAcquire (memoryBucket.mk 0 10 1 1 (-2) 0) 0 (2 ^ 63 - 1) infinityDuration =
      some ((0, true), memoryBucket.mk 0 10 1 1 (2 ^ 63 - 1) 0) ∧
    ¬ ((memoryBucket.mk 0 10 1 1 (2 ^ 63 - 1) 0).avail ≤
      (memoryBucket.mk 0 10 1 1 (2 ^ 63 - 1) 0).capacity) := by
  refine ⟨rfl, ?_, ?_, ?_, ?_⟩ <;> decide

theorem Bits64.adjustAvail64_latestTick_of_lt (b : memoryBucket) (t : Int)
    (h : b.avail < b.capacity) : (Bits64.adjustAvail b t).latestTick = t := by
  unfold Bits64.adjustAvail
  rw [if_neg (by omega)]

/-- C9 (amended): for a state with a valid configuration (the quantum an `int64`) and
`avail ≤ capacity`, and `now ≥ startTime`, when the elapsed time
`now + fillInterval - startTime` is a duration and `a + quantum` does not overflow: if
`available(now)` returns `a`, the next call `available(now + fillInterval)` returns
`min (a + quantum) capacity`. -/
theorem available64_after_fillInterval (b b1 : memoryBucket) (now a : Int)
    (hfi : 0 < b.fillInterval) (hq : 0 < b.quantum) (hqr : b.quantum ≤ 2 ^ 63 - 1)
    (hle : b.avail ≤ b.capacity)
    (hnow : b.startTime ≤ now) (hr : now + b.fillInterval - b.startTime ≤ 2 ^ 63 - 1)
    (hav : Bits64.available b now = some (a, b1)) (hsum : InInt64 (a + b.quantum)) :
    ∃ b2 : memoryBucket,
      Bits64.available b1 (now + b.fillInterval) =
        some (min (a + b.quantum) b.capacity, b2) := by
  obtain ⟨tick, ht, hb1, ha⟩ := Bits64.available_eq_some64 hav
  obtain ⟨ht', htick0, -⟩ := Bits64.currentTick_of_nonneg b now hnow hfi (by omega)
  rw [ht'] at ht
  simp only [Option.some.injEq] at ht
  have hcap1 : b1.capacity = b.capacity := by rw [hb1]; simp
  have hq1 : b1.quantum = b.quantum := by rw [hb1]; simp
  have hf1 : b1.fillInterval = b.fillInterval := by rw [hb1]; simp
  have hs1 : b1.startTime = b.startTime := by rw [hb1]; simp
  have hle1 : b1.avail ≤ b.capacity := by
    rw [hb1]; exact Bits64.adjustAvail64_avail_le b tick hle
  have ht1 : Bits64.currentTick b1 (now + b.fillInterval) = some (tick + 1) := by
    obtain ⟨h, -, -⟩ := Bits64.currentTick_of_nonneg b1 (now + b.fillInterval)
      (by rw [hs1]; omega) (by rw [hf1]; exact hfi) (by rw [hs1]; exact hr)
    rw [h, hs1, hf1, ← ht,
      ← tdiv_add_self (now - b.startTime) b.fillInterval (by omega) hfi]
    congr 2
    ring
  refine ⟨Bits64.adjustAvail b1 (tick + 1), ?_⟩
  rw [Bits64.available_of_tick64 b1 _ (tick + 1) ht1]
  congr 2
  by_cases hlt : b1.avail < b1.capacity
  · have hbl : b.avail < b.capacity := by
      by_contra hge
      rw [Bits64.adjustAvail64_of_saturated b tick (by omega)] at hb1
      rw [hb1] at hlt
      omega
    have hl1 : b1.latestTick = tick := by
      rw [hb1]; exact Bits64.adjustAvail64_latestTick_of_lt b tick hbl
    have he : tick + 1 - b1.latestTick = 1 := by rw [hl1]; ring
    have hqr' : InInt64 b.quantum := ⟨by omega, hqr⟩
    rw [Bits64.adjustAvail_eq b1 (tick + 1) (by rw [he]; decide)
        (by rw [he, one_mul, hq1]; exact hqr')
        (by rw [he, one_mul, hq1, ← ha]; exact hsum),
      memoryBucket.adjustAvail_avail_of_lt b1 (tick + 1) hlt, he, one_mul, hq1, hcap1, ← ha]
  · rw [Bits64.adjustAvail64_of_saturated b1 (tick + 1) (by omega), ← ha, min_eq_right]
    · omega
    · omega

set_option maxRecDepth 8192 in
/-- Witness of C9 (amended): a bucket of capacity 5 emptied at its start shows 0 at the
start and `min (0 + 1) 5` one fill interval later. -/
theorem available64_after_fillInterval_witness :
    Bits64.available (memoryBucket.mk 0 5 1 1000 0 0) 0 =
      some (0, memoryBucket.mk 0 5 1 1000 0 0) ∧
    InInt64 (0 + (memoryBucket.mk 0 5 1 1000 0 0).quantum) ∧
    ∃ b2 : memoryBucket,
      Bits64.available (memoryBucket.mk 0 5 1 1000 0 0)
          (0 + (memoryBucket.mk 0 5 1 1000 0 0).fillInterval) =
        some (min (0 + (memoryBucket.mk 0 5 1 1000 0 0).quantum)
          (memoryBucket.mk 0 5 1 1000 0 0).capacity, b2) :=
  ⟨by decide, by decide,
    available64_after_fillInterval (memoryBucket.mk 0 5 1 1000 0 0)
      (memoryBucket.mk 0 5 1 1000 0 0) 0 0 (by decide) (by decide) (by decide) (by decide)
      (by decide) (by decide) (by decide) (by decide)⟩

set_option maxRecDepth 8192 in
/-- C9 as stated fails: with capacity and quantum `2 ^ 63 - 1` and fill interval 1, the
state with avail 1 reached by taking `2 ^ 63 - 2` tokens from the fresh bucket shows 1 at
the start, and one fill interval later the sum `1 + (2 ^ 63 - 1)` is held as `-(2 ^ 63)`,
which is what `available` returns, where `min (1 + quantum) capacity` is `2 ^ 63 - 1`. -/
theorem available64_sum_wraps :
    create 0 "b" 1 (2 ^ 63 - 1) (2 ^ 63 - 1) =
      .ok (memoryBucket.mk 0 (2 ^ 63 - 1) (2 ^ 63 - 1) 1 (2 ^ 63 - 1) 0) ∧
    Bits64.acquire (memoryBucket.mk 0 (2 ^ 63 - 1) (2 ^ 63 - 1) 1 (2 ^ 63 - 1) 0) 0
        (2 ^ 63 - 2) =
      some (2 ^ 63 - 2, memoryBucket.mk 0 (2 ^ 63 - 1) (2 ^ 63 - 1) 1 1 0) ∧
    Bits64.available (memoryBucket.mk 0 (2 ^ 63 - 1) (2 ^ 63 - 1) 1 1 0) 0 =
      some (1, memoryBucket.mk 0 (2 ^ 63 - 1) (2 ^ 63 - 1) 1 1 0) ∧
    Bits64.available (memoryBucket.mk 0 (2 ^ 63 - 1) (2 ^ 63 - 1) 1 1 0) (0 + 1) =
      some (-(2 ^ 63), memoryBucket.mk 0 (2 ^ 63 - 1) (2 ^ 63 - 1) 1 (-(2 ^ 63)) 1) ∧
    min ((1 : Int) + (2 ^ 63 - 1)) (2 ^ 63 - 1) = 2 ^ 63 - 1 ∧
    (-(2 ^ 63) : Int) ≠ 2 ^ 63 - 1 := by
  refine ⟨rfl, ?_, ?_, ?_, ?_, ?_⟩ <;> decide

/-- The 64-bit `available` is the exact one when the tick and the refill are. -/
theorem Bits64.available_eq (b : memoryBucket) (now tick : Int)
    (ht64 : Bits64.currentTick b now = some tick) (ht : b.currentTick now = some tick)
    (hadj : Bits64.adjustAvail b tick = b.adjustAvail tick) :
    Bits64.available b now = b.available now := by
  rw [Bits64.available_of_tick64 b now tick ht64, memoryBucket.available_of_tick b now tick ht,
    hadj]

/-- The 64-bit `acquire` is the exact one when the tick and the refill are and the refilled
avail is an `int64`: the subtraction of a grant cannot overflow. -/
theorem Bits64.acquire_eq (b : memoryBucket) (now count tick : Int)
    (ht64 : Bits64.currentTick b now = some tick) (ht : b.currentTick now = some tick)
    (hadj : Bits64.adjustAvail b tick = b.adjustAvail tick)
    (hr : (b.adjustAvail tick).avail ≤ 2 ^ 63 - 1) :
    Bits64.acquire b now count = b.acquire now count := by
  unfold Bits64.acquire memoryBucket.acquire
  by_cases hc : count ≤ 0
  · rw [if_pos hc, if_pos hc]
  rw [if_neg hc, if_neg hc, ht64, ht]
  simp only [Option.bind_eq_bind, Option.some_bind]
  rw [hadj]
  by_cases ha : (b.adjustAvail tick).avail ≤ 0
  · rw [if_pos ha, if_pos ha]
  rw [if_neg ha, if_neg ha]
  by_cases hgt : count > (b.adjustAvail tick).avail
  · simp only [if_pos hgt]
    rw [wrap64_of_InInt64 (by unfold InInt64; omega)]
  · simp only [if_neg hgt]
    rw [wrap64_of_InInt64 (by unfold InInt64; omega)]

/-- C11 (amended): on a bucket just created with a valid configuration whose capacity is an
`int64`, for `1 ≤ k ≤ capacity` and a duration `d ≥ 0`, when the product
`⌊d / fillInterval⌋ * quantum` and the sum `capacity - k + ⌊d / fillInterval⌋ * quantum` do
not overflow: `acquire(startTime, k)` returns `k`, then `available(startTime)` returns
`capacity - k`, then `available(startTime + d)` returns
`min capacity (capacity - k + ⌊d / fillInterval⌋ * quantum)`; this is `capacity - k` when
`d < fillInterval` and `min capacity (capacity - k + quantum)` when
`fillInterval ≤ d < 2 * fillInterval`. -/
theorem fresh64_acquire_then_available (start : Int) (name : String)
    (fillInterval capacity quantum k d : Int) (hfi : 0 < fillInterval) (hq : 0 < quantum)
    (hk1 : 1 ≤ k) (hk2 : k ≤ capacity) (hd : 0 ≤ d)
    (hcap : capacity ≤ 2 ^ 63 - 1) (hdr : d ≤ 2 ^ 63 - 1)
    (hprod : InInt64 (⌊(d : ℚ) / (fillInterval : ℚ)⌋ * quantum))
    (hsum : InInt64 (capacity - k + ⌊(d : ℚ) / (fillInterval : ℚ)⌋ * quantum)) :
    create start name fillInterval capacity quantum =
      .ok (memoryBucket.mk start capacity quantum fillInterval capacity 0) ∧
    Bits64.acquire (memoryBucket.mk start capacity quantum fillInterval capacity 0) start k =
      some (k, memoryBucket.mk start capacity quantum fillInterval (capacity - k) 0) ∧
    Bits64.available (memoryBucket.mk start capacity quantum fillInterval (capacity - k) 0)
        start =
      some (capacity - k, memoryBucket.mk start capacity quantum fillInterval (capacity - k) 0) ∧
    Bits64.available (memoryBucket.mk start capacity quantum fillInterval (capacity - k) 0)
        (start + d) =
      some (min capacity (capacity - k + ⌊(d : ℚ) / (fillInterval : ℚ)⌋ * quantum),
        memoryBucket.mk start capacity quantum fillInterval
          (min capacity (capacity - k + ⌊(d : ℚ) / (fillInterval : ℚ)⌋ * quantum))
          ⌊(d : ℚ) / (fillInterval : ℚ)⌋) ∧
    (d < fillInterval →
      min capacity (capacity - k + ⌊(d : ℚ) / (fillInterval : ℚ)⌋ * quantum) = capacity - k) ∧
    (fillInterval ≤ d → d < 2 * fillInterval →
      min capacity (capacity - k + ⌊(d : ℚ) / (fillInterval : ℚ)⌋ * quantum) =
        min capacity (capacity - k + quantum)) := by
  obtain ⟨e1, e2, e3, e4, e5, e6⟩ :=
    fresh_acquire_then_available start name fillInterval capacity quantum k d hfi hq hk1 hk2 hd
  have hfloor := tdiv_eq_floor d fillInterval hd hfi
  rw [← hfloor] at hprod hsum
  have hT0 : 0 ≤ Int.tdiv d fillInterval := by
    rw [Int.tdiv_eq_ediv hd (by omega)]; exact Int.ediv_nonneg hd (by omega)
  have hTd : Int.tdiv d fillInterval ≤ d := by
    rw [Int.tdiv_eq_ediv hd (by omega)]; exact Int.ediv_le_self _ hd
  have ht0 : ∀ a l : Int,
      Bits64.currentTick (memoryBucket.mk start capacity quantum fillInterval a l) start =
        some 0 ∧
      (memoryBucket.mk start capacity quantum fillInterval a l).currentTick start = some 0 := by
    intro a l
    obtain ⟨h, -, -⟩ := Bits64.currentTick_of_nonneg
      (memoryBucket.mk start capacity quantum fillInterval a l) start (le_refl _) hfi
      (by simp only []; omega)
    have hz : Int.tdiv (start - start) fillInterval = 0 := by simp
    simp only [] at h
    rw [hz] at h
    refine ⟨h, ?_⟩
    show goDiv (start - start) fillInterval = some 0
    rw [goDiv_of_ne_zero _ _ (by omega), hz]
  have htd : ∀ a l : Int,
      Bits64.currentTick (memoryBucket.mk start capacity quantum fillInterval a l) (start + d) =
        some (Int.tdiv d fillInterval) ∧
      (memoryBucket.mk start capacity quantum fillInterval a l).currentTick (start + d) =
        some (Int.tdiv d fillInterval) := by
    intro a l
    obtain ⟨h, -, -⟩ := Bits64.currentTick_of_nonneg
      (memoryBucket.mk start capacity quantum fillInterval a l) (start + d)
      (by simp only []; omega) hfi (by simp only []; omega)
    have hz : start + d - start = d := by ring
    simp only [] at h
    rw [hz] at h
    refine ⟨h, ?_⟩
    show goDiv (start + d - start) fillInterval = some (Int.tdiv d fillInterval)
    rw [goDiv_of_ne_zero _ _ (by omega), hz]
  refine ⟨e1, ?_, ?_, ?_, e5, e6⟩
  · rw [← e2]
    refine Bits64.acquire_eq _ start k 0 (ht0 _ _).1 (ht0 _ _).2 ?_ ?_
    · rw [Bits64.adjustAvail64_of_saturated _ _ (le_refl _),
        memoryBucket.adjustAvail_of_saturated _ _ (le_refl _)]
    · rw [memoryBucket.adjustAvail_of_saturated _ _ (le_refl _)]
      exact hcap
  · rw [← e3]
    refine Bits64.available_eq _ start 0 (ht0 _ _).1 (ht0 _ _).2 ?_
    refine Bits64.adjustAvail_eq _ 0 ?_ ?_ ?_
    · simp only []; decide
    · simp only [sub_self, zero_mul]; decide
    · simp only [sub_self, zero_mul, add_zero]
      unfold InInt64; omega
  · rw [← e4]
    refine Bits64.available_eq _ (start + d) _ (htd _ _).1 (htd _ _).2 ?_
    refine Bits64.adjustAvail_eq _ _ ?_ ?_ ?_
    · simp only [sub_zero]
      unfold InInt64; omega
    · simp only [sub_zero]; exact hprod
    · simp only [sub_zero]; exact hsum

set_option maxRecDepth 8192 in
/-- Witness of C11 (amended): capacity 5, fill interval 1000, quantum 1, take 5, look 1000
later. -/
theorem fresh64_acquire_then_available_witness :
    Bits64.acquire (memoryBucket.mk 0 5 1 1000 5 0) 0 5 =
      some (5, memoryBucket.mk 0 5 1 1000 (5 - 5) 0) ∧
    Bits64.available (memoryBucket.mk 0 5 1 1000 (5 - 5) 0) 0 =
      some (5 - 5, memoryBucket.mk 0 5 1 1000 (5 - 5) 0) ∧
    Bits64.available (memoryBucket.mk 0 5 1 1000 (5 - 5) 0) (0 + 1000) =
      some (min 5 (5 - 5 + ⌊((1000 : Int) : ℚ) / ((1000 : Int) : ℚ)⌋ * 1),
        memoryBucket.mk 0 5 1 1000
          (min 5 (5 - 5 + ⌊((1000 : Int) : ℚ) / ((1000 : Int) : ℚ)⌋ * 1))
          ⌊((1000 : Int) : ℚ) / ((1000 : Int) : ℚ)⌋) := by
  have hf : ⌊((1000 : Int) : ℚ) / ((1000 : Int) : ℚ)⌋ = 1 := by norm_num
  have h := fresh64_acquire_then_available 0 "b" 1000 5 1 5 1000 (by decide) (by decide)
    (by decide) (by decide) (by decide) (by decide) (by decide)
    (by rw [hf]; decide) (by rw [hf]; decide)
  exact ⟨h.2.1, h.2.2.1, h.2.2.2.1⟩

set_option maxRecDepth 8192 in
/-- C11 as stated fails: with quantum `2 ^ 62`, capacity 10 and fill interval 1, after
`acquire(startTime, 5)` the call `available(startTime + 4)` multiplies 4 ticks by the
quantum to `2 ^ 64`, which an `int64` holds as 0, and returns 5, where
`min 10 (10 - 5 + ⌊4 / 1⌋ * 2 ^ 62)` is 10. -/
theorem fresh64_refill_wraps :
    create 0 "b" 1 10 (2 ^ 62) = .ok (memoryBucket.mk 0 10 (2 ^ 62) 1 10 0) ∧
    Bits64.acquire (memoryBucket.mk 0 10 (2 ^ 62) 1 10 0) 0 5 =
      some (5, memoryBucket.mk 0 10 (2 ^ 62) 1 5 0) ∧
    Bits64.available (memoryBucket.mk 0 10 (2 ^ 62) 1 5 0) 0 =
      some (5, memoryBucket.mk 0 10 (2 ^ 62) 1 5 0) ∧
    Bits64.available (memoryBucket.mk 0 10 (2 ^ 62) 1 5 0) (0 + 4) =
      some (5, memoryBucket.mk 0 10 (2 ^ 62) 1 5 4) ∧
    min (10 : Int) (10 - 5 + ⌊((4 : Int) : ℚ) / ((1 : Int) : ℚ)⌋ * 2 ^ 62) = 10 ∧
    (5 : Int) ≠ 10 := by
  have hf : ⌊((4 : Int) : ℚ) / ((1 : Int) : ℚ)⌋ = 4 := by norm_num
  refine ⟨rfl, by decide, by decide, by decide, ?_, by decide⟩
  rw [hf]
  decide

/-- With no overflow, and fill interval and quantum not zero, the 64-bit `tryAcquire` is the
exact one. -/
theorem Bits64.tryAcquire_eq_of_noOverflow (b : memoryBucket) (now count maxWait : Int)
    (hfi : b.fillInterval ≠ 0) (hq : b.quantum ≠ 0) (h : Bits64.NoOverflow b now count) :
    Bits64.tryAcquire b now count maxWait = b.tryAcquire now count maxWait :=
  Bits64.tryAcquire_eq b now count maxWait _ _ (goDiv_of_ne_zero _ _ hfi)
    (goDiv_of_ne_zero _ _ hq) h

/-- With no overflow the 64-bit tick and refill are the exact ones. -/
theorem Bits64.tick_refill_eq_of_noOverflow (b : memoryBucket) (now count : Int)
    (h : Bits64.NoOverflow b now count) :
    Bits64.currentTick b now = b.currentTick now ∧
    Bits64.adjustAvail b (Int.tdiv (now - b.startTime) b.fillInterval) =
      b.adjustAvail (Int.tdiv (now - b.startTime) b.fillInterval) ∧
    b.startTime + (Int.tdiv (now - b.startTime) b.fillInterval +
      Int.tdiv (-((b.adjustAvail (Int.tdiv (now - b.startTime) b.fillInterval)).avail - count)
        + b.quantum - 1) b.quantum) * b.fillInterval - now ≤ 2 ^ 63 - 1 := by
  unfold Bits64.NoOverflow Bits64.tryAcquireValues at h
  simp only [List.mem_cons, List.mem_singleton, List.not_mem_nil, or_false,
    forall_eq_or_imp, forall_eq] at h
  obtain ⟨h1, h2, h3, h4, h5, -, -, -, -, -, -, -, h13⟩ := h
  exact ⟨Bits64.currentTick_eq b now h1 h2, Bits64.adjustAvail_eq b _ h3 h4 h5, h13.2⟩

/-- C7 (amended): on a bucket of valid configuration whose avail is below the capacity
(or whose `latestTick` is already `tick(now)`), when no `int64` operation of the two calls
overflows: if `tryAcquire(now, c1, m1)` is accepted with a positive wait `w1` and a second
`tryAcquire(now, c2, m2)` with `c2 > 0` at the same instant is accepted with wait `w2`, then
`w2 ≥ w1`, and `w2 > w1` when `c2` is at least the quantum (so always when the quantum
is 1). -/
theorem tryAcquire64_stacking (b b1 b2 : memoryBucket) (now c1 c2 m1 m2 w1 w2 tick : Int)
    (hfi : 0 < b.fillInterval) (hq : 0 < b.quantum)
    (ht : Bits64.currentTick b now = some tick)
    (hl : b.avail < b.capacity ∨ b.latestTick = tick)
    (hn1 : Bits64.NoOverflow b now c1)
    (h1 : Bits64.tryAcquire b now c1 m1 = some ((w1, true), b1)) (hw1 : 0 < w1)
    (hc2 : 0 < c2)
    (hn2 : Bits64.NoOverflow b1 now c2)
    (h2 : Bits64.tryAcquire b1 now c2 m2 = some ((w2, true), b2)) :
    w1 ≤ w2 ∧ (b.quantum ≤ c2 → w1 < w2) := by
  rw [Bits64.tryAcquire_eq_of_noOverflow b now c1 m1 (by omega) (by omega) hn1] at h1
  rw [(Bits64.tick_refill_eq_of_noOverflow b now c1 hn1).1] at ht
  have hb1 : b1.fillInterval = b.fillInterval ∧ b1.quantum = b.quantum := by
    rcases tryAcquire_state h1 with ⟨-, h⟩ | ⟨t, -, -, h | h⟩ <;> rw [h] <;> simp
  rw [Bits64.tryAcquire_eq_of_noOverflow b1 now c2 m2 (by rw [hb1.1]; omega)
    (by rw [hb1.2]; omega) hn2] at h2
  exact tryAcquire_stacking b b1 b2 now c1 c2 m1 m2 w1 w2 tick hfi hq ht hl h1 hw1 hc2 h2

set_option maxRecDepth 8192 in
/-- Witness of C7 (amended): two reservations of 2 tokens on an empty bucket of quantum 1 and
fill interval 250 wait 500 and then 1000. -/
theorem tryAcquire64_stacking_witness :
    (0 : Int) < (memoryBucket.mk 0 10 1 250 0 0).fillInterval ∧
    (0 : Int) < (memoryBucket.mk 0 10 1 250 0 0).quantum ∧
    Bits64.currentTick (memoryBucket.mk 0 10 1 250 0 0) 0 = some 0 ∧
    Bits64.NoOverflow (memoryBucket.mk 0 10 1 250 0 0) 0 2 ∧
    Bits64.tryAcquire (memoryBucket.mk 0 10 1 250 0 0) 0 2 infinityDuration =
      some ((500, true), memoryBucket.mk 0 10 1 250 (-2) 0) ∧
    Bits64.NoOverflow (memoryBucket.mk 0 10 1 250 (-2) 0) 0 2 ∧
    Bits64.tryAcquire (memoryBucket.mk 0 10 1 250 (-2) 0) 0 2 infinityDuration =
      some ((1000, true), memoryBucket.mk 0 10 1 250 (-4) 0) ∧
    ((500 : Int) ≤ 1000 ∧ ((memoryBucket.mk 0 10 1 250 0 0).quantum ≤ 2 → (500 : Int) < 1000)) :=
  ⟨by decide, by decide, by decide, by decide, by decide, by decide, by decide,
    tryAcquire64_stacking (memoryBucket.mk 0 10 1 250 0 0) (memoryBucket.mk 0 10 1 250 (-2) 0)
      (memoryBucket.mk 0 10 1 250 (-4) 0) 0 2 2 infinityDuration infinityDuration 500 1000 0
      (by decide) (by decide) (by decide) (Or.inl (by decide)) (by decide) (by decide)
      (by decide) (by decide) (by decide) (by decide)⟩

set_option maxRecDepth 8192 in
/-- C7 as stated fails, in two ways. With quantum 2, a reservation of 11 tokens from a fresh
bucket of capacity 10 waits 1, and a second reservation of 1 token at the same instant waits
1 again, which is not strictly larger. With quantum 1 and fill interval 4, on a fresh bucket
of capacity 10 emptied by `acquire(0, 10)`, a reservation of 1 token waits 4 and a second one
of `2 ^ 62 - 1` tokens at the same instant waits 0: its end tick `2 ^ 62` times the fill
interval is `2 ^ 64`, which an `int64` holds as 0. -/
theorem tryAcquire64_stacking_not_strict :
    (create 0 "b" 1 10 2 = .ok (memoryBucket.mk 0 10 2 1 10 0) ∧
      Bits64.tryAcquire (memoryBucket.mk 0 10 2 1 10 0) 0 11 infinityDuration =
        some ((1, true), memoryBucket.mk 0 10 2 1 (-1) 0) ∧
      (0 : Int) < 1 ∧
      Bits64.tryAcquire (memoryBucket.mk 0 10 2 1 (-1) 0) 0 1 infinityDuration =
        some ((1, true), memoryBucket.mk 0 10 2 1 (-2) 0) ∧
      ¬ ((1 : Int) < 1)) ∧
    (create 0 "b" 4 10 1 = .ok (memoryBucket.mk 0 10 1 4 10 0) ∧
      Bits64.acquire (memoryBucket.mk 0 10 1 4 10 0) 0 10 =
        some (10, memoryBucket.mk 0 10 1 4 0 0) ∧
      Bits64.tryAcquire (memoryBucket.mk 0 10 1 4 0 0) 0 1 infinityDuration =
        some ((4, true), memoryBucket.mk 0 10 1 4 (-1) 0) ∧
      (0 : Int) < 4 ∧
      Bits64.tryAcquire (memoryBucket.mk 0 10 1 4 (-1) 0) 0 (2 ^ 62 - 1) infinityDuration =
        some ((0, true), memoryBucket.mk 0 10 1 4 (-(2 ^ 62)) 0) ∧
      ¬ ((4 : Int) < 0)) := by
  refine ⟨⟨rfl, ?_, ?_, ?_, ?_⟩, ⟨rfl, ?_, ?_, ?_, ?_, ?_⟩⟩ <;> decide

/-- C8 (amended): for `count > 0`, valid fill interval and quantum, `now ≥ startTime`, a
refilled avail `a'` below `count`, and no overflow in the `int64` operations of the call,
`tryAcquire(now, count, infinityDuration)` returns `(w, true)` with
`w = ⌈(count - a') / quantum⌉ * fillInterval - (now - startTime) % fillInterval`;
`0 < w ≤ ⌈(count - a') / quantum⌉ * fillInterval`, and `w` equals
`⌈(count - a') / quantum⌉ * fillInterval` exactly when `now` is on a tick boundary. -/
theorem tryAcquire64_wait_eq (b : memoryBucket) (now count tick : Int)
    (hfi : 0 < b.fillInterval) (hq : 0 < b.quantum) (hnow : b.startTime ≤ now)
    (hc : 0 < count) (ht : Bits64.currentTick b now = some tick)
    (ha : (Bits64.adjustAvail b tick).avail < count)
    (hn : Bits64.NoOverflow b now count) :
    Bits64.tryAcquire b now count infinityDuration =
      some ((⌈((count - (Bits64.adjustAvail b tick).avail : Int) : ℚ) / (b.quantum : ℚ)⌉
            * b.fillInterval - (now - b.startTime) % b.fillInterval, true),
        { Bits64.adjustAvail b tick with
          avail := (Bits64.adjustAvail b tick).avail - count }) ∧
    0 < ⌈((count - (Bits64.adjustAvail b tick).avail : Int) : ℚ) / (b.quantum : ℚ)⌉
      * b.fillInterval - (now - b.startTime) % b.fillInterval ∧
    ⌈((count - (Bits64.adjustAvail b tick).avail : Int) : ℚ) / (b.quantum : ℚ)⌉
      * b.fillInterval - (now - b.startTime) % b.fillInterval ≤
      ⌈((count - (Bits64.adjustAvail b tick).avail : Int) : ℚ) / (b.quantum : ℚ)⌉
        * b.fillInterval ∧
    (⌈((count - (Bits64.adjustAvail b tick).avail : Int) : ℚ) / (b.quantum : ℚ)⌉
      * b.fillInterval - (now - b.startTime) % b.fillInterval =
      ⌈((count - (Bits64.adjustAvail b tick).avail : Int) : ℚ) / (b.quantum : ℚ)⌉
        * b.fillInterval ↔
      (now - b.startTime) % b.fillInterval = 0) := by
  obtain ⟨e1, e2, e3⟩ := Bits64.tick_refill_eq_of_noOverflow b now count hn
  rw [e1] at ht
  have htick : tick = Int.tdiv (now - b.startTime) b.fillInterval :=
    (goDiv_eq_some_iff.mp ht).2
  rw [← htick] at e2 e3
  rw [e2] at ha ⊢
  rw [Bits64.tryAcquire_eq_of_noOverflow b now count infinityDuration (by omega) (by omega) hn]
  refine tryAcquire_wait_eq b now count infinityDuration tick hfi hq hnow hc ht ha ?_
  have hceil := tdiv_round_up_eq_ceil (count - (b.adjustAvail tick).avail) b.quantum
    (by omega) hq
  have he : -((b.adjustAvail tick).avail - count) + b.quantum - 1 =
      count - (b.adjustAvail tick).avail + b.quantum - 1 := by ring
  rw [he, hceil] at e3
  have hmul := tdiv_mul_eq_sub_emod (now - b.startTime) b.fillInterval (by omega) hfi
  rw [← htick] at hmul
  have hexp : b.startTime +
      (tick + ⌈((count - (b.adjustAvail tick).avail : Int) : ℚ) / (b.quantum : ℚ)⌉) *
        b.fillInterval - now =
      ⌈((count - (b.adjustAvail tick).avail : Int) : ℚ) / (b.quantum : ℚ)⌉ * b.fillInterval -
        (now - b.startTime) % b.fillInterval := by
    have : (tick + ⌈((count - (b.adjustAvail tick).avail : Int) : ℚ) / (b.quantum : ℚ)⌉) *
        b.fillInterval = tick * b.fillInterval +
          ⌈((count - (b.adjustAvail tick).avail : Int) : ℚ) / (b.quantum : ℚ)⌉ *
            b.fillInterval := by ring
    rw [this, hmul]; ring
  rw [← hexp]
  unfold infinityDuration
  omega

set_option maxRecDepth 8192 in
/-- Witness of C8 (amended): an empty bucket with fill interval 10 asked for 1 token 7 time
units into the tick waits 3. -/
theorem tryAcquire64_wait_eq_witness :
    (0 : Int) < (memoryBucket.mk 0 10 1 10 0 0).fillInterval ∧
    (0 : Int) < (memoryBucket.mk 0 10 1 10 0 0).quantum ∧
    (memoryBucket.mk 0 10 1 10 0 0).startTime ≤ 7 ∧
    Bits64.currentTick (memoryBucket.mk 0 10 1 10 0 0) 7 = some 0 ∧
    (Bits64.adjustAvail (memoryBucket.mk 0 10 1 10 0 0) 0).avail < 1 ∧
    Bits64.NoOverflow (memoryBucket.mk 0 10 1 10 0 0) 7 1 ∧
    Bits64.tryAcquire (memoryBucket.mk 0 10 1 10 0 0) 7 1 infinityDuration =
      some ((3, true), memoryBucket.mk 0 10 1 10 (-1) 0) := by
  have hadj : Bits64.adjustAvail (memoryBucket.mk 0 10 1 10 0 0) 0 =
      memoryBucket.mk 0 10 1 10 0 0 := by decide
  have h := (tryAcquire64_wait_eq (memoryBucket.mk 0 10 1 10 0 0) 7 1 0
    (by decide) (by decide) (by decide) (by decide) (by decide) (by decide) (by decide)).1
  rw [hadj] at h
  norm_num at h
  exact ⟨by decide, by decide, by decide, by decide, by decide, by decide, h⟩

set_option maxRecDepth 8192 in
/-- C8 as stated fails, in two ways. With count 0 on a bucket that carries a reservation
(refilled avail `-4`, so the deficit `0 - (-4)` is positive) `tryAcquire` returns the wait 0,
which is not positive. With count `2 ^ 62` on an empty bucket of quantum 1 and fill interval
4 the formula gives `⌈2 ^ 62 / 1⌉ * 4 - 0 = 2 ^ 64`, and the call returns the wait 0: the
product of the end tick and the fill interval wraps around. -/
theorem tryAcquire64_zero_count_no_wait :
    (create 0 "b" 250 10 2 = .ok (memoryBucket.mk 0 10 2 250 10 0) ∧
      Bits64.tryAcquire (memoryBucket.mk 0 10 2 250 10 0) 0 14 infinityDuration =
        some ((500, true), memoryBucket.mk 0 10 2 250 (-4) 0) ∧
      (memoryBucket.mk 0 10 2 250 (-4) 0).startTime ≤ 0 ∧
      Bits64.currentTick (memoryBucket.mk 0 10 2 250 (-4) 0) 0 = some 0 ∧
      (0 : Int) < 0 - (Bits64.adjustAvail (memoryBucket.mk 0 10 2 250 (-4) 0) 0).avail ∧
      Bits64.tryAcquire (memoryBucket.mk 0 10 2 250 (-4) 0) 0 0 infinityDuration =
        some ((0, true), memoryBucket.mk 0 10 2 250 (-4) 0) ∧
      ¬ ((0 : Int) < 0)) ∧
    (create 0 "b" 4 10 1 = .ok (memoryBucket.mk 0 10 1 4 10 0) ∧
      Bits64.acquire (memoryBucket.mk 0 10 1 4 10 0) 0 10 =
        some (10, memoryBucket.mk 0 10 1 4 0 0) ∧
      (memoryBucket.mk 0 10 1 4 0 0).startTime ≤ 0 ∧
      Bits64.currentTick (memoryBucket.mk 0 10 1 4 0 0) 0 = some 0 ∧
      (0 : Int) < 2 ^ 62 - (Bits64.adjustAvail (memoryBucket.mk 0 10 1 4 0 0) 0).avail ∧
      Bits64.tryAcquire (memoryBucket.mk 0 10 1 4 0 0) 0 (2 ^ 62) infinityDuration =
        some ((0, true), memoryBucket.mk 0 10 1 4 (-(2 ^ 62)) 0) ∧
      ¬ ((0 : Int) < 0)) := by
  refine ⟨⟨rfl, ?_, ?_, ?_, ?_, ?_, ?_⟩, ⟨rfl, ?_, ?_, ?_, ?_, ?_, ?_⟩⟩ <;> decide

/-! ## The distributed bucket: a missing key -/

/-- The store never answers `redis.Nil` to a script: with a hash under the key the script
returns a number, without one it raises an error. -/
theorem storeClient_ne_redisNil (store : Option StoredBucket) (sc : Script) (key : String)
    (args : List Int) : storeClient store sc key args ≠ .redisNil := by
  cases store with
  | none => simp [storeClient]
  | some s =>
    simp only [storeClient]
    unfold scriptClient
    split <;> simp [luaReply]

/-- C20 on the code: with no hash under the key, for every `now`, `count > 0` and `maxWait`,
`acquire` returns 0 and `available` returns 0, but `tryAcquire` returns `(0, false)`, not
`(0, true)`: the scripts end in an error, which is not `redis.Nil`, and no state of the store
makes a round trip answer `redis.Nil`. -/
theorem redis_missing_key_rejected (key : String) (now count maxWait : Int) (hc : 0 < count) :
    (redisBucket.mk key (storeClient none)).acquire now count = 0 ∧
    (redisBucket.mk key (storeClient none)).available now = 0 ∧
    (redisBucket.mk key (storeClient none)).tryAcquire now count maxWait = (0, false) ∧
    (redisBucket.mk key (storeClient none)).tryAcquire now count maxWait ≠ (0, true) ∧
    ∀ (store : Option StoredBucket) (sc : Script) (k : String) (args : List Int),
      storeClient store sc k args ≠ .redisNil := by
  have h3 : (redisBucket.mk key (storeClient none)).tryAcquire now count maxWait =
      (0, false) := by
    unfold redisBucket.tryAcquire
    rw [if_neg (by omega)]
    rfl
  refine ⟨?_, rfl, h3, ?_, storeClient_ne_redisNil⟩
  · unfold redisBucket.acquire
    rw [if_neg (by omega)]
    rfl
  · rw [h3]
    decide

/-- Witness of C20 on the code: the key "k" is missing, 3 tokens are asked for at time 5
with `maxWait = infinityDuration`. -/
theorem redis_missing_key_rejected_witness :
    (0 : Int) < 3 ∧
    (redisBucket.mk "k" (storeClient none)).acquire 5 3 = 0 ∧
    (redisBucket.mk "k" (storeClient none)).available 5 = 0 ∧
    (redisBucket.mk "k" (storeClient none)).tryAcquire 5 3 infinityDuration = (0, false) :=
  ⟨by decide,
    (redis_missing_key_rejected "k" 5 3 infinityDuration (by decide)).1,
    (redis_missing_key_rejected "k" 5 3 infinityDuration (by decide)).2.1,
    (redis_missing_key_rejected "k" 5 3 infinityDuration (by decide)).2.2.1⟩

/-! ## The refill step of the scripts with double arithmetic -/

theorem roundEven_intCast (k : Int) : roundEven (k : ℚ) = k := by
  unfold roundEven
  simp

theorem roundEven_ge (y : ℚ) : y - 1 / 2 ≤ (roundEven y : ℚ) := by
  have h1 := Int.floor_le y
  have h2 := Int.lt_floor_add_one y
  unfold roundEven
  split_ifs <;> push_cast <;> linarith

theorem roundEven_le (y : ℚ) : (roundEven y : ℚ) ≤ y + 1 / 2 := by
  have h1 := Int.floor_le y
  have h2 := Int.lt_floor_add_one y
  unfold roundEven
  split_ifs <;> push_cast <;> linarith

/-- The scale of a positive number below `2 ^ 53` is a power of two with a natural
exponent. -/
theorem scale_eq_pow (x : ℚ) (h0 : 0 < x) (h : x < 2 ^ 53) :
    ∃ m : ℕ, (2 : ℚ) ^ (52 - Int.log 2 x) = 2 ^ m ∧ (2 : ℚ) ^ m * 2 ^ Int.log 2 x = 2 ^ 52 := by
  have hlt : Int.log 2 x < 53 := by
    have := (Int.lt_zpow_iff_log_lt (R := ℚ) (b := 2) (by norm_num) (x := 53) h0).mp
      (by exact_mod_cast h)
    exact this
  refine ⟨(52 - Int.log 2 x).toNat, ?_, ?_⟩
  · rw [← zpow_natCast, Int.toNat_of_nonneg (by omega)]
  · rw [← zpow_natCast, Int.toNat_of_nonneg (by omega), ← zpow_add₀ (by norm_num)]
    norm_num

/-- A double holds every integer of magnitude below `2 ^ 53` exactly. -/
theorem fl64_intCast (n : Int) (h : InDouble n) : fl64 (n : ℚ) = n := by
  have h : |n| < 2 ^ 53 := by
    unfold InDouble at h
    rw [abs_lt]; exact h
  unfold fl64
  by_cases hn : (n : ℚ) = 0
  · rw [if_pos hn, hn]
  rw [if_neg hn]
  have hpos : (0 : ℚ) < |(n : ℚ)| := abs_pos.mpr hn
  have hlt : |(n : ℚ)| < 2 ^ 53 := by
    have : ((|n| : Int) : ℚ) < ((2 ^ 53 : Int) : ℚ) := by exact_mod_cast h
    simpa using this
  obtain ⟨m, hm, -⟩ := scale_eq_pow _ hpos hlt
  rw [hm]
  have : (n : ℚ) * 2 ^ m = ((n * 2 ^ m : Int) : ℚ) := by push_cast; ring
  rw [this, roundEven_intCast]
  push_cast
  field_simp

/-- The rounding of a quotient of integers does not change its floor, for a dividend that
is not negative and below `2 ^ 53` and a positive divisor: the quotient is at least `1 / b`
below the next integer, more than half a unit of its last place. -/
theorem floor_fl64_div (a b : Int) (ha : 0 ≤ a) (ha2 : a < 2 ^ 53) (hb : 0 < b) :
    ⌊fl64 ((a : ℚ) / (b : ℚ))⌋ = ⌊(a : ℚ) / (b : ℚ)⌋ := by
  have hbq : (0 : ℚ) < (b : ℚ) := by exact_mod_cast hb
  rcases eq_or_lt_of_le ha with h0 | hapos
  · rw [← h0]; simp [fl64]
  have haq : (0 : ℚ) < (a : ℚ) := by exact_mod_cast hapos
  have hx : (0 : ℚ) < (a : ℚ) / (b : ℚ) := div_pos haq hbq
  have hxa : (a : ℚ) / (b : ℚ) ≤ (a : ℚ) := by
    rw [div_le_iff₀ hbq]
    have : (1 : ℚ) ≤ (b : ℚ) := by exact_mod_cast hb
    nlinarith
  have ha2q : (a : ℚ) < 2 ^ 53 := by exact_mod_cast ha2
  obtain ⟨m, hm, hm2⟩ := scale_eq_pow _ hx (lt_of_le_of_lt hxa ha2q)
  have hlog := Int.zpow_log_le_self (R := ℚ) (b := 2) (by norm_num) hx
  unfold fl64
  rw [if_neg (ne_of_gt hx), abs_of_pos hx, hm]
  set x := (a : ℚ) / (b : ℚ) with hxdef
  set k := ⌊x⌋ with hk
  have hN : (0 : ℚ) < 2 ^ m := by positivity
  have hE : (0 : ℚ) < (2 : ℚ) ^ Int.log 2 x := by positivity
  have hb2 : (b : ℚ) < 2 * 2 ^ m := by
    have h1 : (b : ℚ) * (2 : ℚ) ^ Int.log 2 x ≤ (a : ℚ) := by
      have := mul_le_mul_of_nonneg_left hlog (le_of_lt hbq)
      push_cast at this
      calc (b : ℚ) * (2 : ℚ) ^ Int.log 2 x ≤ (b : ℚ) * x := this
        _ = (a : ℚ) := by rw [hxdef]; field_simp
    have h2 : (b : ℚ) * (2 : ℚ) ^ Int.log 2 x < 2 * 2 ^ m * (2 : ℚ) ^ Int.log 2 x := by
      rw [mul_assoc, hm2]
      calc (b : ℚ) * (2 : ℚ) ^ Int.log 2 x ≤ (a : ℚ) := h1
        _ < 2 ^ 53 := ha2q
        _ = 2 * 2 ^ 52 := by norm_num
    exact lt_of_mul_lt_mul_right h2 (le_of_lt hE)
  have hxk : x ≤ (k : ℚ) + 1 - 1 / (b : ℚ) := by
    have hlt : x < (k : ℚ) + 1 := Int.lt_floor_add_one x
    have h1 : (a : ℚ) < ((k : ℚ) + 1) * (b : ℚ) := by
      rw [hxdef, div_lt_iff₀ hbq] at hlt; exact hlt
    have h2 : a < (k + 1) * b := by exact_mod_cast h1
    have h3 : a + 1 ≤ (k + 1) * b := by omega
    have h4 : (a : ℚ) + 1 ≤ ((k : ℚ) + 1) * (b : ℚ) := by exact_mod_cast h3
    have h5 : x + 1 / (b : ℚ) = ((a : ℚ) + 1) / (b : ℚ) := by rw [hxdef]; ring
    have h6 : ((a : ℚ) + 1) / (b : ℚ) ≤ (k : ℚ) + 1 := by
      rw [div_le_iff₀ hbq]; exact h4
    linarith
  have hkx : (k : ℚ) ≤ x := Int.floor_le x
  have hge := roundEven_ge (x * 2 ^ m)
  have hle := roundEven_le (x * 2 ^ m)
  have hhalf : (1 : ℚ) / 2 < 2 ^ m / (b : ℚ) := by
    rw [lt_div_iff₀ hbq]; linarith
  rw [Int.floor_eq_iff]
  constructor
  · rw [le_div_iff₀ hN]
    have h1 : (k : ℚ) * 2 ^ m ≤ x * 2 ^ m := mul_le_mul_of_nonneg_right hkx (le_of_lt hN)
    have h2 : ((k * 2 ^ m - 1 : Int) : ℚ) < (roundEven (x * 2 ^ m) : ℚ) := by
      push_cast; linarith
    have h3 : k * 2 ^ m - 1 < roundEven (x * 2 ^ m) := by exact_mod_cast h2
    have h4 : k * 2 ^ m ≤ roundEven (x * 2 ^ m) := by omega
    exact_mod_cast h4
  · rw [div_lt_iff₀ hN]
    have h1 : x * 2 ^ m ≤ ((k : ℚ) + 1 - 1 / (b : ℚ)) * 2 ^ m :=
      mul_le_mul_of_nonneg_right hxk (le_of_lt hN)
    have h2 : ((k : ℚ) + 1 - 1 / (b : ℚ)) * 2 ^ m = ((k : ℚ) + 1) * 2 ^ m - 2 ^ m / (b : ℚ) := by
      ring
    linarith

/-- On integers that doubles hold exactly, with an elapsed time that is not negative, the
script's tick with rounding is the script's tick without. -/
theorem luaD_currentTick_eq (now start fi : Int) (hfi : 0 < fi) (hnow : start ≤ now + 500)
    (hd : ∀ x ∈ [now, start, fi, now - start, now - start + 500], InDouble x) :
    luaD.currentTick (luaD.tonumber now) (luaD.tonumber start) (luaD.tonumber fi) =
      lua.currentTick (now : ℚ) (start : ℚ) (fi : ℚ) := by
  simp only [List.mem_cons, List.mem_singleton, List.not_mem_nil, or_false,
    forall_eq_or_imp, forall_eq] at hd
  obtain ⟨h1, h2, h3, h4, h5⟩ := hd
  unfold luaD.currentTick luaD.tonumber lua.currentTick
  rw [fl64_intCast now h1, fl64_intCast start h2, fl64_intCast fi h3]
  have e1 : (now : ℚ) - (start : ℚ) = ((now - start : Int) : ℚ) := by push_cast; ring
  have e2 : ((now - start : Int) : ℚ) + 500 = ((now - start + 500 : Int) : ℚ) := by
    push_cast; ring
  rw [e1, fl64_intCast _ h4, e2, fl64_intCast _ h5,
    floor_fl64_div _ _ (by omega) h5.2 hfi]

/-- On integers that doubles hold exactly, the script's refill with rounding is the
script's refill without. -/
theorem luaD_adjustAvail_eq (t avail capacity latestTick quantum : Int)
    (hd : ∀ x ∈ [t, avail, capacity, latestTick, quantum, t - latestTick,
      (t - latestTick) * quantum, avail + (t - latestTick) * quantum], InDouble x) :
    luaD.adjustAvail (t : ℚ) (luaD.tonumber avail) (luaD.tonumber capacity)
        (luaD.tonumber latestTick) (luaD.tonumber quantum) =
      lua.adjustAvail (t : ℚ) (avail : ℚ) (capacity : ℚ) (latestTick : ℚ) (quantum : ℚ) := by
  simp only [List.mem_cons, List.mem_singleton, List.not_mem_nil, or_false,
    forall_eq_or_imp, forall_eq] at hd
  obtain ⟨-, h2, h3, h4, h5, h6, h7, h8⟩ := hd
  unfold luaD.adjustAvail luaD.tonumber lua.adjustAvail
  rw [fl64_intCast avail h2, fl64_intCast capacity h3, fl64_intCast latestTick h4,
    fl64_intCast quantum h5]
  have e1 : (t : ℚ) - (latestTick : ℚ) = ((t - latestTick : Int) : ℚ) := by push_cast; ring
  have e2 : ((t - latestTick : Int) : ℚ) * (quantum : ℚ) =
      (((t - latestTick) * quantum : Int) : ℚ) := by push_cast; ring
  have e3 : (avail : ℚ) + (((t - latestTick) * quantum : Int) : ℚ) =
      ((avail + (t - latestTick) * quantum : Int) : ℚ) := by push_cast; ring
  rw [e1, fl64_intCast _ h6, e2, fl64_intCast _ h7, e3, fl64_intCast _ h8]

theorem InInt64_of_InDouble {x : Int} (h : InDouble x) : InInt64 x := by
  unfold InDouble at h
  unfold InInt64
  omega

/-- C25 (amended): for stored integer fields and a `now` that doubles hold exactly
(magnitudes below `2 ^ 53`, also for `now - startTime` and `now - startTime + 500`), with
`fillInterval > 0` and `now + 500 ≥ startTime`, the script's `currentTick(now)` is the
in-process `currentTick` at `now + 500`; and for every tick `t`, when the steps of the
refill stay below `2 ^ 53` in magnitude: if `avail < capacity` the script's `adjustAvail`
yields the avail and the `latestTick` of the in-process `adjustAvail`, and if
`avail ≥ capacity`, `t ≥ latestTick` and `quantum ≥ 0` it yields the same avail. -/
theorem luaD_refill_eq_memory_refill (b : memoryBucket) (now : Int)
    (hfi : 0 < b.fillInterval) (hnow : b.startTime ≤ now + 500)
    (hd : ∀ x ∈ [now, b.startTime, b.fillInterval, now - b.startTime,
      now - b.startTime + 500], InDouble x) :
    (∃ tick : Int, Bits64.currentTick b (now + 500) = some tick ∧
      luaD.currentTick (luaD.tonumber now) (luaD.tonumber b.startTime)
        (luaD.tonumber b.fillInterval) = (tick : ℚ)) ∧
    ∀ t : Int,
      (∀ x ∈ [t, b.avail, b.capacity, b.latestTick, b.quantum, t - b.latestTick,
        (t - b.latestTick) * b.quantum, b.avail + (t - b.latestTick) * b.quantum],
        InDouble x) →
      (b.avail < b.capacity →
        luaD.adjustAvail (t : ℚ) (luaD.tonumber b.avail) (luaD.tonumber b.capacity)
            (luaD.tonumber b.latestTick) (luaD.tonumber b.quantum) =
          (((Bits64.adjustAvail b t).avail : ℚ), ((Bits64.adjustAvail b t).latestTick : ℚ))) ∧
      (b.capacity ≤ b.avail → b.latestTick ≤ t → 0 ≤ b.quantum →
        (luaD.adjustAvail (t : ℚ) (luaD.tonumber b.avail) (luaD.tonumber b.capacity)
            (luaD.tonumber b.latestTick) (luaD.tonumber b.quantum)).1 =
          ((Bits64.adjustAvail b t).avail : ℚ)) := by
  obtain ⟨⟨tick, ht, hlt⟩, hadj⟩ := lua_refill_eq_memory_refill b now hfi hnow
  have hd5 : InDouble (now - b.startTime + 500) := hd _ (by simp)
  constructor
  · refine ⟨tick, ?_, ?_⟩
    · have he : now + 500 - b.startTime = now - b.startTime + 500 := by ring
      obtain ⟨h64, -, -⟩ := Bits64.currentTick_of_nonneg b (now + 500) hnow hfi
        (by rw [he]; unfold InDouble at hd5; omega)
      rw [h64]
      exact ((goDiv_eq_some_iff.mp ht).2 ▸ rfl)
    · rw [luaD_currentTick_eq now b.startTime b.fillInterval hfi hnow hd]
      exact hlt
  · intro t hdt
    have h6 : InDouble (t - b.latestTick) := hdt _ (by simp)
    have h7 : InDouble ((t - b.latestTick) * b.quantum) := hdt _ (by simp)
    have h8 : InDouble (b.avail + (t - b.latestTick) * b.quantum) := hdt _ (by simp)
    rw [luaD_adjustAvail_eq t b.avail b.capacity b.latestTick b.quantum hdt,
      Bits64.adjustAvail_eq b t (InInt64_of_InDouble h6) (InInt64_of_InDouble h7)
        (InInt64_of_InDouble h8)]
    exact hadj t

/-- Witness of C25 (amended): fill interval 1000, 600 after the start, a bucket holding 3 of
10 tokens. -/
theorem luaD_refill_eq_memory_refill_witness :
    0 < (memoryBucket.mk 0 10 1 1000 3 0).fillInterval ∧
    (memoryBucket.mk 0 10 1 1000 3 0).startTime ≤ 600 + 500 ∧
    Bits64.currentTick (memoryBucket.mk 0 10 1 1000 3 0) (600 + 500) = some 1 ∧
    ∃ tick : Int, Bits64.currentTick (memoryBucket.mk 0 10 1 1000 3 0) (600 + 500) = some tick ∧
      luaD.currentTick (luaD.tonumber 600)
        (luaD.tonumber (memoryBucket.mk 0 10 1 1000 3 0).startTime)
        (luaD.tonumber (memoryBucket.mk 0 10 1 1000 3 0).fillInterval) = (tick : ℚ) :=
  ⟨by decide, by decide, by decide,
    (luaD_refill_eq_memory_refill (memoryBucket.mk 0 10 1 1000 3 0) 600 (by decide)
      (by decide) (by decide)).1⟩

/-- The rounding of a positive number with `2 ^ e ≤ x < 2 ^ (e + 1)` whose significand is
less than a half away from the integer `r`. -/
theorem fl64_eq_of_near (x : ℚ) (e r : Int) (h1 : (2 : ℚ) ^ e ≤ x) (h2 : x < (2 : ℚ) ^ (e + 1))
    (h3 : x * 2 ^ (52 - e) - 1 / 2 < r) (h4 : (r : ℚ) < x * 2 ^ (52 - e) + 1 / 2) :
    fl64 x = (r : ℚ) / 2 ^ (52 - e) := by
  have hx : 0 < x := lt_of_lt_of_le (by positivity) h1
  have hlog : Int.log 2 x = e := by
    have a1 : e ≤ Int.log 2 x :=
      (Int.zpow_le_iff_le_log (R := ℚ) (b := 2) (by norm_num) hx).mp (by exact_mod_cast h1)
    have a2 : Int.log 2 x < e + 1 :=
      (Int.lt_zpow_iff_log_lt (R := ℚ) (b := 2) (by norm_num) hx).mp (by exact_mod_cast h2)
    omega
  unfold fl64
  rw [if_neg (ne_of_gt hx), abs_of_pos hx, hlog]
  have hge := roundEven_ge (x * 2 ^ (52 - e))
  have hle := roundEven_le (x * 2 ^ (52 - e))
  have b1 : ((r - 1 : Int) : ℚ) < (roundEven (x * 2 ^ (52 - e)) : ℚ) := by
    push_cast; linarith
  have b2 : (roundEven (x * 2 ^ (52 - e)) : ℚ) < ((r + 1 : Int) : ℚ) := by
    push_cast; linarith
  have b3 : r - 1 < roundEven (x * 2 ^ (52 - e)) := by exact_mod_cast b1
  have b4 : roundEven (x * 2 ^ (52 - e)) < r + 1 := by exact_mod_cast b2
  have : roundEven (x * 2 ^ (52 - e)) = r := by omega
  rw [this]

/-- C25 as stated fails, in two ways. With fill interval 1000, 600 after the start, the
script's tick is `⌊(600 + 500) / 1000⌋ = 1` and the in-process tick is 0. With the start
1700000000000000000 (nanoseconds of a date in 2023), the fill interval 250000000 and
`now = start + 249999499`, `tonumber` rounds `now` to the multiple of 256 that is
`start + 249999616` (the significand is `now / 256`, rounded to 6640625000976561), the
start is a double as it is, and the script's tick is `⌊(249999616 + 500) / 250000000⌋ = 1`,
where the in-process tick is 0, at `now` and at `now + 500`. -/
theorem luaD_currentTick_differs :
    (luaD.currentTick (luaD.tonumber 600) (luaD.tonumber 0) (luaD.tonumber 1000) = 1 ∧
      Bits64.currentTick (memoryBucket.mk 0 10 1 1000 10 0) 600 = some 0 ∧
      (1 : ℚ) ≠ ((0 : Int) : ℚ)) ∧
    (luaD.tonumber 1700000000249999499 = 1700000000249999616 ∧
      luaD.tonumber 1700000000000000000 = 1700000000000000000 ∧
      luaD.currentTick (luaD.tonumber 1700000000249999499)
        (luaD.tonumber 1700000000000000000) (luaD.tonumber 250000000) = 1 ∧
      Bits64.currentTick (memoryBucket.mk 1700000000000000000 10 1 250000000 10 0)
        1700000000249999499 = some 0 ∧
      Bits64.currentTick (memoryBucket.mk 1700000000000000000 10 1 250000000 10 0)
        (1700000000249999499 + 500) = some 0) := by
  have hnow : luaD.tonumber 1700000000249999499 = 1700000000249999616 := by
    unfold luaD.tonumber
    rw [fl64_eq_of_near _ 60 6640625000976561 (by norm_num) (by norm_num) (by norm_num)
      (by norm_num)]
    norm_num
  have hstart : luaD.tonumber 1700000000000000000 = 1700000000000000000 := by
    unfold luaD.tonumber
    rw [fl64_eq_of_near _ 60 6640625000000000 (by norm_num) (by norm_num) (by norm_num)
      (by norm_num)]
    norm_num
  have hfi : luaD.tonumber 250000000 = ((250000000 : Int) : ℚ) :=
    fl64_intCast 250000000 (by decide)
  refine ⟨⟨?_, by decide, by norm_num⟩, ⟨hnow, hstart, ?_, by decide, by decide⟩⟩
  · rw [luaD_currentTick_eq 600 0 1000 (by decide) (by decide) (by decide)]
    norm_num [lua.currentTick]
  · rw [hnow, hstart, hfi]
    unfold luaD.currentTick
    have e1 : (1700000000249999616 : ℚ) - 1700000000000000000 = ((249999616 : Int) : ℚ) := by
      norm_num
    have e2 : ((249999616 : Int) : ℚ) + 500 = ((250000116 : Int) : ℚ) := by norm_num
    rw [e1, fl64_intCast _ (by decide), e2, fl64_intCast _ (by decide),
      floor_fl64_div _ _ (by decide) (by decide) (by decide)]
    norm_num

end tkbucket
